import Mathlib

/-!
A shallow embedding, in Lean 4, of the B-tree core of the hyperbee
key/value store (`src/index.js`), together with proofs about the
behaviour of its operations.

Conventions used throughout:

* machine integers of the source are modelled as `Nat`;
* a JS `Buffer` key is modelled as an element of an arbitrary linearly
  ordered type `K` (the source compares keys only with `<`, see `cmp`);
* the asynchronous lazy loading of keys and child nodes
  (`getKey`, `getChildNode`) is elided: a loaded value and its backing
  `(seq, offset)` reference are identified, so a `Key` object is a
  `Nat × K` pair (its `seq` and its key bytes) and a child reference of
  the in-memory tree is the child subtree itself.  The `(seq, offset)`
  bookkeeping of child references is modelled separately (see `MNode`
  and `indexChanges` below), as is the byte-level block codec;
* the imperative descent loops of the source that use an explicit
  `stack` array are rendered as recursions; the stack of the source is
  the call stack here, and values the source communicates by mutating
  objects reachable from the stack are returned explicitly.
-/

namespace Hyperbee

/-- `const T = 5` (src/index.js line 8). -/
def T : Nat := 5

/-- `const MIN_KEYS = T - 1` (line 9), i.e. `4`. -/
def MIN_KEYS : Nat := T - 1

/-- `const MAX_CHILDREN = MIN_KEYS * 2 + 1` (line 10).  Note that this
evaluates to `9`: `insertKey` compares the key count against this
constant. -/
def MAX_CHILDREN : Nat := MIN_KEYS * 2 + 1

/-- `cmp (a, b) { return a < b ? -1 : b < a ? 1 : 0 }` (line 700),
with `-1 / 1 / 0` rendered as `Ordering.lt / .gt / .eq`. -/
def cmp {K : Type} [LinearOrder K] (a b : K) : Ordering :=
  if a < b then .lt else if b < a then .gt else .eq

/-- In-memory B-tree node (`class TreeNode`, line 73): a `changed`
flag, a list of key references and a list of children.  A leaf has
`children = []`. -/
inductive TreeNode (K : Type) : Type where
  | mk (changed : Bool) (keys : List (Nat × K)) (children : List (TreeNode K)) : TreeNode K

namespace TreeNode

def changed {K : Type} : TreeNode K → Bool
  | .mk c _ _ => c

def keys {K : Type} : TreeNode K → List (Nat × K)
  | .mk _ ks _ => ks

def children {K : Type} : TreeNode K → List (TreeNode K)
  | .mk _ _ cs => cs


/-- `TreeNode.create(block)` (line 193): a fresh empty node with
`changed = true`. -/
def create (K : Type) : TreeNode K := .mk true [] []

end TreeNode

variable {K : Type} [LinearOrder K]

/-- The binary-search loop shared by `insertKey` (line 86), `Batch.get`
(line 405), `Batch.put` (line 453) and `Batch.del` (line 508):
`while (s < e) { mid = (s + e) >> 1; c = cmp(key, keys[mid]); ... }`.
Returns `.inl mid` when `c === 0` at `mid`, and otherwise `.inr i`
where `i = c < 0 ? e : s` is the value both `s` and `e` hold on exit
(the insertion index).  The `none` row is unreachable while
`e ≤ keys.length`, which every caller maintains. -/
def bsearchAux (key : K) (keys : List (Nat × K)) (s e : Nat) : Nat ⊕ Nat :=
  if _h : s < e then
    match keys[(s + e) / 2]? with
    | none => Sum.inr s
    | some kv =>
      match cmp key kv.2 with
      | Ordering.eq => Sum.inl ((s + e) / 2)
      | Ordering.lt => bsearchAux key keys s ((s + e) / 2)
      | Ordering.gt => bsearchAux key keys ((s + e) / 2 + 1) e
  else Sum.inr s
termination_by e - s
decreasing_by all_goals omega

/-- Binary search over all of `keys`, as every call site initialises
`s = 0`, `e = keys.length`. -/
def bsearch (key : K) (keys : List (Nat × K)) : Nat ⊕ Nat :=
  bsearchAux key keys 0 keys.length

/-- `TreeNode.insertKey(key, child)` (line 81).  On an exact match the
key reference is replaced in place and `true` is returned; otherwise
the key is spliced at the insertion index `i`, a supplied child at
`i + 1` (the source wraps it as `Child(0, 0, child)`; the wrapper is
elided here), and the result is `keys.length < MAX_CHILDREN` for the
post-splice length.  The node is marked `changed` in both cases. -/
def insertKey (key : Nat × K) (child : Option (TreeNode K)) :
    TreeNode K → TreeNode K × Bool
  | .mk _ ks cs =>
    match bsearch key.2 ks with
    | .inl mid => (.mk true (ks.set mid key) cs, true)
    | .inr i =>
      let ks' := List.insertIdx i key ks
      let cs' := match child with
        | some c => List.insertIdx (i + 1) c cs
        | none => cs
      (.mk true ks' cs', decide (ks'.length < MAX_CHILDREN))

/-- `TreeNode.split()` (line 136).  The source pops the rightmost
`len = keys.length >> 1` keys into `right` and reverses them, which is
`keys.drop (keys.length - len)`; the next pop is the median, i.e. the
last key of `keys.take (keys.length - len)`; for an internal node the
rightmost `len + 1` children move to `right` the same way.  `left` is
the receiver with `changed := true`; `right` is freshly created (so
also `changed = true`).  `none` is returned when there is no key to
pop as median, a case the source never reaches (it only splits
overfull nodes). -/
def split : TreeNode K → Option (TreeNode K × (Nat × K) × TreeNode K)
  | .mk _ ks cs =>
    let len := ks.length / 2
    let rightKeys := ks.drop (ks.length - len)
    let leftWithMedian := ks.take (ks.length - len)
    match leftWithMedian.getLast? with
    | none => none
    | some median =>
      let leftKeys := leftWithMedian.dropLast
      if cs.isEmpty then
        some (.mk true leftKeys [], median, .mk true rightKeys [])
      else
        some (.mk true leftKeys (cs.take (cs.length - (len + 1))), median,
          .mk true rightKeys (cs.drop (cs.length - (len + 1))))

/-- A child's subtree size probe used by `setKeyToNearestLeaf`:
`leafSize(node, goLeft)` (line 600) walks to the leftmost
(`goLeft = true`) or rightmost leaf and returns its key count. -/
def leafSize (t : TreeNode K) (goLeft : Bool) : Nat :=
  match t, goLeft with
  | .mk _ ks [], _ => ks.length
  | .mk _ _ (c :: cs), true => leafSize c true
  | .mk _ _ (c :: cs), false => leafSize ((c :: cs).getLast (by simp)) false
termination_by sizeOf t
decreasing_by
  · have := List.sizeOf_lt_of_mem (List.mem_cons_self c cs)
    simp only [TreeNode.mk.sizeOf_spec]
    omega
  · have := List.sizeOf_lt_of_mem (List.getLast_mem (l := c :: cs) (by simp))
    simp only [TreeNode.mk.sizeOf_spec]
    omega

/-- Borrow from the left sibling (`rebalance`, line 637): `node` gets
the parent separator `ks[i-1]` at its front and, when the sibling is
internal, the sibling's last child; the separator is replaced by the
sibling's last key.  The sibling is marked `changed`.  The fallback row
is unreachable at the source's call sites. -/
def borrowLeft (ks : List (Nat × K)) (cs : List (TreeNode K)) (i : Nat)
    (node left : TreeNode K) : List (Nat × K) × List (TreeNode K) :=
  match ks[i - 1]?, left.keys.getLast? with
  | some sep, some lastKey =>
    let node' : TreeNode K :=
      .mk node.changed (sep :: node.keys)
        (match left.children.getLast? with
         | some lc => lc :: node.children
         | none => node.children)
    let left' : TreeNode K := .mk true left.keys.dropLast left.children.dropLast
    (ks.set (i - 1) lastKey, (cs.set (i - 1) left').set i node')
  | _, _ => (ks, cs)

/-- Borrow from the right sibling (`rebalance`, line 646),
symmetrically. -/
def borrowRight (ks : List (Nat × K)) (cs : List (TreeNode K)) (i : Nat)
    (node right : TreeNode K) : List (Nat × K) × List (TreeNode K) :=
  match ks[i]?, right.keys.head? with
  | some sep, some firstKey =>
    let node' : TreeNode K :=
      .mk node.changed (node.keys ++ [sep])
        (match right.children.head? with
         | some rc => node.children ++ [rc]
         | none => node.children)
    let right' : TreeNode K := .mk true right.keys.tail right.children.tail
    (ks.set i firstKey, (cs.set i node').set (i + 1) right')
  | _, _ => (ks, cs)

/-- Merge `node` with a sibling (`rebalance`, line 655): prefer the left
sibling, pull the parent separator down as the median
(`left.merge(right, parent.keys[index])`, line 129), then
`parent.removeKey(index)` (line 108) erases the separator and the
absorbed child. -/
def mergeStep (ks : List (Nat × K)) (cs : List (TreeNode K)) (i : Nat)
    (node : TreeNode K) (left? right? : Option (TreeNode K)) :
    List (Nat × K) × List (TreeNode K) :=
  match left? with
  | some left =>
    match ks[i - 1]? with
    | some sep =>
      let merged : TreeNode K :=
        .mk true (left.keys ++ sep :: node.keys) (left.children ++ node.children)
      (ks.eraseIdx (i - 1), (cs.set (i - 1) merged).eraseIdx i)
    | none => (ks, cs)
  | none =>
    match right? with
    | some right =>
      match ks[i]? with
      | some sep =>
        let merged : TreeNode K :=
          .mk true (node.keys ++ sep :: right.keys) (node.children ++ right.children)
        (ks.eraseIdx i, (cs.set i merged).eraseIdx (i + 1))
      | none => (ks, cs)
    | none => (ks, cs)

/-- One step of the `rebalance` loop body (line 628) for the underfull
child `cs[i]` of a node with keys `ks`: try the left sibling, then the
right sibling, else merge. -/
def fixChild (ks : List (Nat × K)) (cs : List (TreeNode K)) (i : Nat) :
    List (Nat × K) × List (TreeNode K) :=
  match cs[i]? with
  | none => (ks, cs)
  | some node =>
    let left? := if i = 0 then none else cs[i - 1]?
    let right? := cs[i + 1]?
    match left?, right? with
    | some left, some right =>
      if MIN_KEYS < left.keys.length then borrowLeft ks cs i node left
      else if MIN_KEYS < right.keys.length then borrowRight ks cs i node right
      else mergeStep ks cs i node left? right?
    | some left, none =>
      if MIN_KEYS < left.keys.length then borrowLeft ks cs i node left
      else mergeStep ks cs i node left? right?
    | none, some right =>
      if MIN_KEYS < right.keys.length then borrowRight ks cs i node right
      else mergeStep ks cs i node left? right?
    | none, none => (ks, cs)

/-- The guard of the `rebalance` loop (line 632): a child that still has
`MIN_KEYS` keys needs no fix-up; otherwise borrow or merge at its
parent. -/
def rebalanceAt (t : TreeNode K) (i : Nat) : TreeNode K :=
  match t with
  | .mk ch ks cs =>
    match cs[i]? with
    | none => .mk ch ks cs
    | some c =>
      if MIN_KEYS ≤ c.keys.length then .mk ch ks cs
      else
        let p := fixChild ks cs i
        .mk ch p.1 p.2

/-- Take the first key of the leftmost leaf of `t`
(`setKeyToNearestLeaf`'s `right.keys.shift()` path, line 615),
marking the walked path `changed` (the source pushes it onto `stack`
and `Batch.del` line 516 marks the whole stack) and applying the
`rebalance` fix-ups bottom-up on the way out.  `none` only on an
ill-formed tree with an empty leaf. -/
def extractFirst : TreeNode K → Option ((Nat × K) × TreeNode K)
  | .mk _ ks [] =>
    match ks with
    | [] => none
    | k :: rest => some (k, .mk true rest [])
  | .mk _ ks (c :: cs) =>
    match extractFirst c with
    | none => none
    | some (k, c') => some (k, rebalanceAt (.mk true ks (c' :: cs)) 0)
decreasing_by
  simp only [TreeNode.mk.sizeOf_spec]
  have : sizeOf c < sizeOf (c :: cs) := by
    have := List.sizeOf_lt_of_mem (List.mem_cons_self c cs)
    omega
  omega

/-- Take the last key of the rightmost leaf of `t`
(`setKeyToNearestLeaf`'s `left.keys.pop()` path, line 619). -/
def extractLast : TreeNode K → Option ((Nat × K) × TreeNode K)
  | .mk _ ks [] =>
    match ks.getLast? with
    | none => none
    | some k => some (k, .mk true ks.dropLast [])
  | .mk _ ks (c :: cs) =>
    match extractLast ((c :: cs).getLast (by simp)) with
    | none => none
    | some (k, c') =>
      some (k, rebalanceAt (.mk true ks ((c :: cs).set cs.length c')) cs.length)
decreasing_by
  have := List.sizeOf_lt_of_mem (List.getLast_mem (l := c :: cs) (by simp))
  simp only [TreeNode.mk.sizeOf_spec]
  omega

/-- `setKeyToNearestLeaf(node, index, stack)` (line 605): compare the
rightmost leaf of the left subtree with the leftmost leaf of the right
subtree and replace the separator `ks[index]` with the adjacent key of
the strictly larger side (the right side only when `ls < rs`).  Returns
the updated node and the index of the child the key came from (the
source communicates that path by pushing it onto `stack`). -/
def setKeyToNearestLeaf (t : TreeNode K) (index : Nat) :
    Option (TreeNode K × Nat) :=
  match t with
  | .mk ch ks cs =>
    match cs[index]?, cs[index + 1]? with
    | some left, some right =>
      let ls := leafSize left false
      let rs := leafSize right true
      if ls < rs then
        match extractFirst right with
        | some (k, right') =>
          some (.mk ch (ks.set index k) (cs.set (index + 1) right'), index + 1)
        | none => none
      else
        match extractLast left with
        | some (k, left') =>
          some (.mk ch (ks.set index k) (cs.set index left'), index)
        | none => none
    | _, _ => none

/-- The body of `Batch.del` (line 491) from the descent loop onward, as
a recursion on the tree.  `none` means the key was not found: the
source then returns without appending a block and without marking any
stacked node `changed` (the marking at line 516 runs only on a hit).
`some t'` is the hit case: every node on the descent and substitution
path is marked `changed` and the `rebalance` fix-ups are applied
bottom-up (the recursion spine plays the role of `stack`). -/
def delRec (key : K) : TreeNode K → Option (TreeNode K)
  | .mk _ ks [] =>
    match bsearch key ks with
    | .inl mid => some (.mk true (ks.eraseIdx mid) [])
    | .inr _ => none
  | .mk _ ks (c :: cs) =>
    match bsearch key ks with
    | .inl mid =>
      match setKeyToNearestLeaf (.mk true ks (c :: cs)) mid with
      | some (t', j) => some (rebalanceAt t' j)
      | none => none
    | .inr i =>
      match h : (c :: cs)[i]? with
      | none => none
      | some child =>
        match delRec key child with
        | none => none
        | some child' =>
          some (rebalanceAt (.mk true ks ((c :: cs).set i child')) i)
termination_by t => sizeOf t
decreasing_by
  have := List.sizeOf_lt_of_mem (List.getElem?_mem h)
  simp only [TreeNode.mk.sizeOf_spec]
  omega

/-- Root shrink after a delete (`rebalance`, line 667): a root left with
no keys but a child collapses to its first child. -/
def delTree (key : K) (t : TreeNode K) : Option (TreeNode K) :=
  match delRec key t with
  | none => none
  | some (.mk _ [] (c :: _)) => some c
  | some t' => some t'

/-- Result of the split-propagation phase of `Batch.put`: either a
finished subtree or a `{left, median, right}` split to hand to the
parent (line 474). -/
inductive PutResult (K : Type) where
  | done (t : TreeNode K) : PutResult K
  | split (left : TreeNode K) (median : Nat × K) (right : TreeNode K) : PutResult K

/-- The body of `Batch.put` (line 432) from the descent loop onward.
Internal nodes on the path are pre-marked `changed` (line 447); an
exact match replaces the key reference in place and short-circuits
(line 457 for internal nodes, the `insertKey` equal branch for the
leaf); at the leaf `insertKey(target, null)` is called and an overfull
node is split on the way back up, matching the `while (needsSplit)`
loop (line 472) with the explicit stack rendered as the recursion
spine.  After `node.split()` the parent's child slot holds `left`
(the source splits the node in place), and `insertKey(median, right)`
runs on the parent. -/
def putRec (target : Nat × K) : TreeNode K → PutResult K
  | .mk ch ks [] =>
    match insertKey target none (.mk ch ks []) with
    | (t', true) => .done t'
    | (t', false) =>
      match split t' with
      | some (l, med, r) => .split l med r
      | none => .done t'
  | .mk _ ks (c :: cs) =>
    match bsearch target.2 ks with
    | .inl mid => .done (.mk true (ks.set mid target) (c :: cs))
    | .inr i =>
      match h : (c :: cs)[i]? with
      | none => .done (.mk true ks (c :: cs))
      | some child =>
        match putRec target child with
        | .done child' => .done (.mk true ks ((c :: cs).set i child'))
        | .split l med r =>
          match insertKey med (some r) (.mk true ks ((c :: cs).set i l)) with
          | (t', true) => .done t'
          | (t', false) =>
            match split t' with
            | some (l', med', r') => .split l' med' r'
            | none => .done t'
termination_by t => sizeOf t
decreasing_by
  have := List.sizeOf_lt_of_mem (List.getElem?_mem h)
  simp only [TreeNode.mk.sizeOf_spec]
  omega

/-- `Batch.put` top level: resolve the root (`TreeNode.create` when the
tree is empty, line 440), run the descent, and grow a new root when the
split propagates past the top (line 480). -/
def putTree (target : Nat × K) (root : Option (TreeNode K)) : TreeNode K :=
  match putRec target (root.getD (TreeNode.create K)) with
  | .done t' => t'
  | .split l med r => .mk true [med] [l, r]

/-- The descent loop of `Batch.get` (line 394): binary search at each
node, return the `seq` of the matching key reference
(`node.keys[mid].seq`, line 411), descend at the insertion index,
`none` on a leaf miss (line 418). -/
def lookupSeq (key : K) : TreeNode K → Option Nat
  | .mk _ ks [] =>
    match bsearch key ks with
    | .inl mid => (ks[mid]?).map Prod.fst
    | .inr _ => none
  | .mk _ ks (c :: cs) =>
    match bsearch key ks with
    | .inl mid => (ks[mid]?).map Prod.fst
    | .inr i =>
      match h : (c :: cs)[i]? with
      | none => none
      | some child => lookupSeq key child
termination_by t => sizeOf t
decreasing_by
  have := List.sizeOf_lt_of_mem (List.getElem?_mem h)
  simp only [TreeNode.mk.sizeOf_spec]
  omega

/-- A log block as the tree core sees it: the `key` bytes and the
optional `value` bytes of `Node.encode({key, value, index})`.  The
header block at seq 0 is `none`. -/
abbrev Block (K V : Type) := Option (K × Option V)

/-- The state of one hyperbee handle over a writable feed: the
append-only log (position = `seq`) and the materialised tree root.
`log = [none]` models the header written by `ready()` (line 262);
`root = none` models `feed.length < 2` (`getRoot`, line 284).  The
round trip of the root through the serialised block index on every
operation is elided: the materialised tree stands for what
`getBlock(length - 1).getTreeNode(0)` reconstructs. -/
structure BeeState (K V : Type) where
  log : List (Block K V)
  root : Option (TreeNode K)

def BeeState.init (K V : Type) : BeeState K V := ⟨[none], none⟩

/-- One `db.put(key, value)` (line 314): an auto-flushing batch whose
mutation seq is `feed.length` (line 442) and which appends exactly one
block `{key, value, index}` (line 583). -/
def beePut (s : BeeState K V) (k : K) (v : V) : BeeState K V :=
  ⟨s.log ++ [some (k, some v)], some (putTree (s.log.length, k) s.root)⟩

/-- One `db.del(key)` (line 323): appends a tombstone block
`{key, value: null}` on a hit (line 517) and returns without touching
anything on a miss (line 524) or on an empty tree (line 497). -/
def beeDel (s : BeeState K V) (k : K) : BeeState K V :=
  match s.root with
  | none => s
  | some t =>
    match delTree k t with
    | none => s
    | some t' => ⟨s.log ++ [some (k, none)], some t'⟩

/-- `db.get(key)` (line 309): run the descent, then read the block at
the found key reference's `seq` and surface its value (`final()`,
line 210). -/
def beeGet (s : BeeState K V) (k : K) : Option V :=
  match s.root with
  | none => none
  | some t =>
    match lookupSeq k t with
    | none => none
    | some seq =>
      match s.log[seq]? with
      | some (some (_, v)) => v
      | _ => none

/-- A mutation issued through the handle. -/
inductive Op (K V : Type) where
  | put (k : K) (v : V) : Op K V
  | del (k : K) : Op K V

def applyOp (s : BeeState K V) : Op K V → BeeState K V
  | .put k v => beePut s k v
  | .del k => beeDel s k

def applyOps (s : BeeState K V) (ops : List (Op K V)) : BeeState K V :=
  ops.foldl applyOp s

/-- The reference map semantics of a sequence of mutations: the value
of the last `put` of a key not followed by a `del` of it. -/
def modelStep (m : K → Option V) : Op K V → K → Option V
  | .put k v => fun k' => if k' = k then some v else m k'
  | .del k => fun k' => if k' = k then none else m k'

def modelOf (ops : List (Op K V)) : K → Option V :=
  ops.foldl modelStep (fun _ => none)

/-! ### The handle: `version` and `checkout` -/

/-- The version/checkout state of one `HyperBee` handle (line 239):
only `_checkout` matters for `version`; the backing feed is shared
between handles and mutable, so its `length` is passed explicitly
where needed. -/
structure BeeHandle where
  _checkout : Nat

/-- `new HyperBee(feed, opts)` (line 240): `this._checkout =
opts.checkout || 0`, i.e. `0` when the option is absent or `0`. -/
def BeeHandle.make (checkoutOpt : Option Nat) : BeeHandle :=
  ⟨checkoutOpt.getD 0⟩

/-- `get version()` (line 270):
`Math.max(1, this._checkout || this.feed.length)` — the JS `||` falls
through to the feed length exactly when `_checkout` is `0`. -/
def BeeHandle.version (h : BeeHandle) (feedLength : Nat) : Nat :=
  max 1 (if h._checkout = 0 then feedLength else h._checkout)

/-- `checkout(version)` (line 328): a new handle over the same feed
with `checkout: version` among its options. -/
def BeeHandle.checkout (_h : BeeHandle) (version : Nat) : BeeHandle :=
  BeeHandle.make (some version)

/-! ### The batch: staged blocks and `flush` -/

/-- A staged, not-yet-appended block (`BatchEntry`, line 228): the key,
the optional value, and the `pendingIndex` of child cells.  Only the
`(seq, offset)` pair of a pending `Child` matters to the flush
transform; the in-memory node pointer is elided, and `none` is the
`null` placeholder slot. -/
structure BatchEntry (K V : Type) where
  key : K
  value : Option V
  pendingIndex : List (Option (Nat × Nat))

/-- The mutable state of a non-auto-flushing `Batch` (line 342) that
`flush` reads and writes: the feed length at batch start, the
`seq → BatchEntry` cache (`this.blocks`), the staged root and the
number of staged mutations. -/
structure BatchState (K V : Type) where
  feedLength : Nat
  blocks : List (Nat × BatchEntry K V)
  root : Option (TreeNode K)
  length : Nat

/-- Lookup in the `seq → BatchEntry` map. -/
def lookupBlock {K V : Type} (m : List (Nat × BatchEntry K V)) (seq : Nat) :
    Option (BatchEntry K V) :=
  (m.find? (fun p => p.1 == seq)).map Prod.snd

/-- The compaction loop of `Batch.flush` (lines 542–552) over one
staged block's pending index: entries whose `seq` is this block's own
get their `offset` renumbered to their surviving position `j`;
other entries are swap-popped (`pendingIndex[j] = pendingIndex.pop()`),
or simply popped when `j` is already the last slot. -/
def compactGo (seq : Nat) (l : List (Option (Nat × Nat))) (j : Nat) :
    List (Option (Nat × Nat)) :=
  if _h : j < l.length then
    match l[j]? with
    | some (some (s, o)) =>
      if s = seq then compactGo seq (l.set j (some (s, j))) (j + 1)
      else
        if j = l.length - 1 then l.dropLast
        else
          match l.getLast? with
          | some lastCell => compactGo seq (l.dropLast.set j lastCell) j
          | none => l
    | _ =>
      if j = l.length - 1 then l.dropLast
      else
        match l.getLast? with
        | some lastCell => compactGo seq (l.dropLast.set j lastCell) j
        | none => l
  else l
termination_by l.length - j
decreasing_by
  all_goals simp only [List.length_set, List.length_dropLast]
  all_goals omega

/-- The whole per-block compaction for a non-final staged block:
`pendingIndex[0] = null` (line 541) then the loop from `j = 0`. -/
def compactIndex (seq : Nat) (l : List (Option (Nat × Nat))) :
    List (Option (Nat × Nat)) :=
  compactGo seq (l.set 0 none) 0

/-- `Batch.flush` (line 531).  With no staged mutation it returns at
once: nothing is appended and no state is touched (`if (!this.length)
return Promise.resolve()`).  Otherwise every staged block except the
last has its pending index compacted, the batch state is reset
(`this.root = null; this.blocks.clear(); this.length = 0`) and the
blocks are appended as one batch.  Block payloads stay `BatchEntry`
records here; the byte codec is modelled separately.  A `none` in the
returned list marks a missing cache entry, which `flush` never
encounters in the source. -/
def flush {K V : Type} (b : BatchState K V) :
    BatchState K V × List (Option (BatchEntry K V)) :=
  if b.length = 0 then (b, [])
  else
    let batch := (List.range b.length).map (fun i =>
      match lookupBlock b.blocks (b.feedLength + i) with
      | some e =>
        some (if i < b.length - 1 then
          { e with pendingIndex := compactIndex (b.feedLength + i) e.pendingIndex }
        else e)
      | none => none)
    ({ b with root := none, blocks := [], length := 0 }, batch)

/-! ### Proof-layer definitions for the tree semantics -/

mutual
/-- The in-order key-reference sequence of a tree:
`child₀, key₀, child₁, key₁, …, childₙ`. -/
def inorder : TreeNode K → List (Nat × K)
  | .mk _ ks [] => ks
  | .mk _ ks (c :: cs) => inorder c ++ inorderSeq ks cs

def inorderSeq : List (Nat × K) → List (TreeNode K) → List (Nat × K)
  | [], _ => []
  | k :: ks, [] => k :: ks
  | k :: ks, c :: cs => k :: (inorder c ++ inorderSeq ks cs)
end

/-- `x` lies strictly between the optional bounds. -/
def bnd (lo hi : Option K) (x : K) : Prop :=
  (∀ b ∈ lo, b < x) ∧ (∀ b ∈ hi, x < b)

/-- The constant per-child key minimum of a well-formed interleaving:
every child holds at least `MIN_KEYS` keys. -/
def mnK : Nat → Nat := fun _ => MIN_KEYS

/-- The per-child key minimum while one child (at position `i`) may be
one key short, as happens between a delete in that child and the
`rebalance` fix-up. -/
def mnX (i : Nat) : Nat → Nat := fun j => if j = i then MIN_KEYS - 1 else MIN_KEYS

mutual
/-- Well-formedness of a subtree between the strict bounds `lo` and
`hi`: uniform height `h`, every node's key count within
`[MIN_KEYS, 2 * MIN_KEYS]` (with the laxer bound `mn` at the top, for
the root or a node between a delete and its fix-up), an internal node
has one more child than keys, and keys and children interleave in
strictly ascending order. -/
def WF (lo hi : Option K) (h mn : Nat) : TreeNode K → Prop
  | .mk _ ks [] =>
    h = 0 ∧ mn ≤ ks.length ∧ ks.length ≤ 2 * MIN_KEYS ∧
    ks.Pairwise (fun a b => a.2 < b.2) ∧ ∀ k ∈ ks, bnd lo hi k.2
  | .mk _ ks (c :: cs) =>
    0 < h ∧ mn ≤ ks.length ∧ ks.length ≤ 2 * MIN_KEYS ∧
    WFSeq lo hi (h - 1) mnK 0 c ks cs
termination_by t => sizeOf t
decreasing_by
  all_goals simp only [TreeNode.mk.sizeOf_spec, List.cons.sizeOf_spec]
  all_goals omega

/-- The children/keys interleaving `c (k₀ c₁) (k₁ c₂) …`: each key is
within the outer bounds and separates its neighbouring subtrees; the
child at position `j + p` must hold at least `mnAt (j + p)` keys. -/
def WFSeq (lo hi : Option K) (h : Nat) (mnAt : Nat → Nat) (j : Nat)
    (c : TreeNode K) : List (Nat × K) → List (TreeNode K) → Prop
  | [], [] => WF lo hi h (mnAt j) c
  | [], _ :: _ => False
  | _ :: _, [] => False
  | k :: ks, c' :: cs =>
    WF lo (some k.2) h (mnAt j) c ∧ bnd lo hi k.2 ∧
      WFSeq (some k.2) hi h mnAt (j + 1) c' ks cs
termination_by ks cs => sizeOf c + sizeOf cs
decreasing_by
  all_goals simp only [TreeNode.mk.sizeOf_spec, List.cons.sizeOf_spec,
    List.nil.sizeOf_spec]
  all_goals omega
end

/-- Well-formedness of a whole tree of height `h`: the root may hold
any number of keys up to the bound, but an internal root holds at
least one key. -/
def WFRoot (h : Nat) (t : TreeNode K) : Prop :=
  WF none none h (if t.children.isEmpty then 0 else 1) t

/-- Sorted-association-list insertion with replacement, the reference
semantics of one `put` on the in-order sequence. -/
def insList (x : Nat × K) : List (Nat × K) → List (Nat × K)
  | [] => [x]
  | y :: ys =>
    if x.2 < y.2 then x :: y :: ys
    else if y.2 < x.2 then y :: insList x ys
    else x :: ys

/-- Removal of the entry with key value `k`, the reference semantics of
one `del` on the in-order sequence. -/
def delList (k : K) : List (Nat × K) → List (Nat × K)
  | [] => []
  | y :: ys => if y.2 = k then ys else y :: delList k ys

/-- The `seq` associated to key value `k` in an entry sequence. -/
def lookupList (k : K) (l : List (Nat × K)) : Option Nat :=
  (l.find? (fun e => e.2 = k)).map Prod.fst

/-- The retained invariant of a handle state relative to the reference
map: the materialised tree is well formed, every tree entry points at
a log block recording its key and the key's current value, and keys
absent from the tree are absent from the map. -/
def StateInv {V : Type} (m : K → Option V) (s : BeeState K V) : Prop :=
  match s.root with
  | none => ∀ k, m k = none
  | some t =>
    (∃ h, WFRoot h t) ∧
    (∀ e ∈ inorder t, e.1 < s.log.length ∧
      s.log[e.1]? = some (some (e.2, m e.2))) ∧
    (∀ k, lookupList k (inorder t) = none → m k = none)

/-! ### The block codec (for the `YoloIndex` round trip)

The protobuf encoder/decoder for the wire schemas lives in the
generated `lib/messages` module, which is outside `src/`; only its
schema (`schema.proto`: `YoloIndex { levels: [Level]; Level { keys:
[uint64] packed; children: [uint64] packed } }`) and its callers
(`Pointers` line 27, `deflate` line 54) are part of the source.  The
varint/packed message encoding below is therefore modelled from the
spec ("Wire schemas (bit-exact, packed varint throughout)", §6). -/

/-- Modelled from the spec: the missing `lib/messages` encoder is
"packed varint throughout" (§6) — the standard little-endian base-128
varint of an unsigned integer, one byte per 7-bit group, high bit set
on every byte but the last. -/
def varintEncode (n : Nat) : List Nat :=
  if n < 128 then [n] else (n % 128 + 128) :: varintEncode (n / 128)
termination_by n
decreasing_by omega

/-- Modelled from the spec: varint decoding; returns the value and the
remaining bytes. -/
def varintDecode : List Nat → Option (Nat × List Nat)
  | [] => none
  | b :: rest =>
    if b < 128 then some (b, rest)
    else
      match varintDecode rest with
      | some (n, r) => some (b - 128 + 128 * n, r)
      | none => none

/-- Modelled from the spec: a packed repeated field is the
concatenation of its elements' varints. -/
def packedEncode (xs : List Nat) : List Nat :=
  (xs.map varintEncode).flatten

/-- Modelled from the spec: decode a packed field by reading varints to
the end of the payload.  The fuel bounds the number of elements; each
varint consumes at least one byte, so the byte count is enough fuel. -/
def packedDecodeAux : Nat → List Nat → Option (List Nat)
  | _, [] => some []
  | 0, _ :: _ => none
  | fuel + 1, b :: rest =>
    match varintDecode (b :: rest) with
    | some (n, r) =>
      match packedDecodeAux fuel r with
      | some ns => some (n :: ns)
      | none => none
    | none => none

/-- Modelled from the spec: decode a whole packed payload. -/
def packedDecode (l : List Nat) : Option (List Nat) :=
  packedDecodeAux l.length l

/-- One level of a `YoloIndex` on the wire (schema.proto): packed
`keys` (field 1) and packed `children` (field 2). -/
structure YoloLevel where
  keys : List Nat
  children : List Nat

/-- Modelled from the spec: a length-delimited payload is its varint
byte length followed by its bytes. -/
def lenDelimited (p : List Nat) : List Nat :=
  varintEncode p.length ++ p

/-- Modelled from the spec: a `Level` message.  A tag byte is
`field_number << 3 | 2` (wire type 2): `0x0A = 10` for `keys`,
`0x12 = 18` for `children`; the canonical encoder omits empty packed
fields. -/
def encodeLevel (l : YoloLevel) : List Nat :=
  (if l.keys = [] then [] else 10 :: lenDelimited (packedEncode l.keys)) ++
  (if l.children = [] then [] else 18 :: lenDelimited (packedEncode l.children))

/-- Modelled from the spec: the field loop of a `Level` decoder —
read a tag, a length and a payload; repeated packed fields concatenate;
unknown fields are rejected.  Fuel again bounds the iteration count. -/
def decodeLevelAux : Nat → List Nat → YoloLevel → Option YoloLevel
  | _, [], acc => some acc
  | 0, _ :: _, _ => none
  | fuel + 1, b :: bytes, acc =>
    match varintDecode (b :: bytes) with
    | none => none
    | some (tag, rest) =>
      match varintDecode rest with
      | none => none
      | some (len, rest2) =>
        if len ≤ rest2.length then
          match packedDecode (rest2.take len) with
          | none => none
          | some xs =>
            if tag = 10 then
              decodeLevelAux fuel (rest2.drop len)
                { acc with keys := acc.keys ++ xs }
            else if tag = 18 then
              decodeLevelAux fuel (rest2.drop len)
                { acc with children := acc.children ++ xs }
            else none
        else none

/-- Modelled from the spec: decode one `Level` message. -/
def decodeLevel (l : List Nat) : Option YoloLevel :=
  decodeLevelAux l.length l ⟨[], []⟩

/-- Modelled from the spec: `YoloIndex.encode` — every level is a
length-delimited submessage in field 1 (tag `0x0A`). -/
def encodeYoloIndex (levels : List YoloLevel) : List Nat :=
  (levels.map (fun l => 10 :: lenDelimited (encodeLevel l))).flatten

/-- Modelled from the spec: `YoloIndex.decode`'s level loop. -/
def decodeYoloAux : Nat → List Nat → Option (List YoloLevel)
  | _, [] => some []
  | 0, _ :: _ => none
  | fuel + 1, b :: bytes =>
    match varintDecode (b :: bytes) with
    | none => none
    | some (tag, rest) =>
      if tag = 10 then
        match varintDecode rest with
        | none => none
        | some (len, rest2) =>
          if len ≤ rest2.length then
            match decodeLevel (rest2.take len) with
            | none => none
            | some lvl =>
              match decodeYoloAux fuel (rest2.drop len) with
              | none => none
              | some lvls => some (lvl :: lvls)
          else none
      else none

/-- Modelled from the spec: decode a whole `YoloIndex`. -/
def decodeYoloIndex (l : List Nat) : Option (List YoloLevel) :=
  decodeYoloAux l.length l

/-- The logical content of one level as `Pointers` (line 27) rebuilds
it: the key `seq`s and the `(seq, offset)` child pairs. -/
structure PLevel where
  keys : List Nat
  children : List (Nat × Nat)

/-- `deflate` (line 54): each level contributes the `seq` of every key
reference and, for every child, its `seq` then its `offset`; the whole
is `YoloIndex.encode`d. -/
def deflateLevels (index : List PLevel) : List Nat :=
  encodeYoloIndex (index.map (fun l =>
    ⟨l.keys, (l.children.map (fun c => [c.1, c.2])).flatten⟩))

/-- The pairing loop of the `Pointers` constructor (line 37):
`for (let i = 0; i < l.children.length; i += 2)` builds
`Child(children[i], children[i+1])` pairs.  An odd trailing element —
which `deflate` never produces — is dropped. -/
def pairUp : List Nat → List (Nat × Nat)
  | a :: b :: rest => (a, b) :: pairUp rest
  | _ => []

/-- `inflate` (line 50) / `Pointers` (line 27): decode the buffer and
rebuild each level's key seqs and `(seq, offset)` child pairs. -/
def inflateLevels (buf : List Nat) : Option (List PLevel) :=
  (decodeYoloIndex buf).map (fun ls =>
    ls.map (fun l => ⟨l.keys, pairUp l.children⟩))

/-! ### `indexChanges` and the `(seq, offset)` rewriting -/

/-- A node as `indexChanges` (line 179) sees it: the `changed` flag and
the child cells, each a `(seq, offset)` pair plus the optionally
materialised child node (`Child.value`).  Keys play no role in
`indexChanges` and are elided here. -/
inductive MNode : Type where
  | mk (changed : Bool) (children : List (Nat × Nat × Option MNode)) : MNode

def MNode.changed : MNode → Bool
  | .mk c _ => c

def MNode.children : MNode → List (Nat × Nat × Option MNode)
  | .mk _ cs => cs

/-- A slot of the index being assembled by `indexChanges`: `null` for
the freshly pushed placeholder, or a stored child cell. -/
abbrev MCell := Option (Nat × Nat × Option MNode)

mutual
/-- `TreeNode.indexChanges(index, seq)` (line 179): reserve a slot
(`const offset = index.push(null) - 1` — the slot index is the length
before the push), clear this node's `changed` flag, then walk the
children in order; the walk is `indexChildren`.  Returns the updated
index, the reserved offset and the node after its in-place
mutations. -/
def indexChanges (n : MNode) (seq : Nat) (index : List MCell) :
    List MCell × Nat × MNode :=
  match n with
  | .mk _ children =>
    let offset := index.length
    let p := indexChildren children seq (index ++ [none])
    (p.1, offset, .mk false p.2)

/-- The `for (const child of this.children)` loop of `indexChanges`
(line 183): a child without a materialised, changed node is skipped
(`if (!child.value || !child.value.changed) continue`); otherwise the
child node is recursively serialised, the cell is rewritten to
`(seq, returned offset)` and stored at that offset
(`index[child.offset] = child`). -/
def indexChildren (children : List (Nat × Nat × Option MNode)) (seq : Nat)
    (index : List MCell) : List MCell × List (Nat × Nat × Option MNode) :=
  match children with
  | [] => (index, [])
  | (s, o, none) :: rest =>
    let p := indexChildren rest seq index
    (p.1, (s, o, none) :: p.2)
  | (s, o, some m) :: rest =>
    if m.changed then
      let q := indexChanges m seq index
      let cell : Nat × Nat × Option MNode := (seq, q.2.1, some q.2.2)
      let p := indexChildren rest seq (q.1.set q.2.1 (some cell))
      (p.1, cell :: p.2)
    else
      let p := indexChildren rest seq index
      (p.1, (s, o, some m) :: p.2)
end

/-- `Batch._append` (line 569): run `indexChanges` from the root on a
fresh index, then overwrite slot 0 with the root cell
`Child(seq, 0, root)`. -/
def appendIndex (root : MNode) (seq : Nat) : List MCell × MNode :=
  let q := indexChanges root seq []
  (q.1.set 0 (some (seq, 0, some q.2.2)), q.2.2)

/-! ## Theorems -/

@[simp] theorem TreeNode.changed_mk {K : Type} (c : Bool) (ks : List (Nat × K))
    (cs : List (TreeNode K)) : (TreeNode.mk c ks cs).changed = c := rfl

@[simp] theorem TreeNode.keys_mk {K : Type} (c : Bool) (ks : List (Nat × K))
    (cs : List (TreeNode K)) : (TreeNode.mk c ks cs).keys = ks := rfl

@[simp] theorem TreeNode.children_mk {K : Type} (c : Bool) (ks : List (Nat × K))
    (cs : List (TreeNode K)) : (TreeNode.mk c ks cs).children = cs := rfl

@[simp] theorem cmp_eq_eq {a b : K} : cmp a b = Ordering.eq ↔ a = b := by
  unfold cmp
  split_ifs with h1 h2
  · simp [ne_of_lt h1]
  · simp [(ne_of_lt h2).symm]
  · simp [le_antisymm (not_lt.mp h2) (not_lt.mp h1)]

@[simp] theorem cmp_eq_lt {a b : K} : cmp a b = Ordering.lt ↔ a < b := by
  unfold cmp
  split_ifs with h1 h2 <;> simp [h1]

@[simp] theorem cmp_eq_gt {a b : K} : cmp a b = Ordering.gt ↔ b < a := by
  unfold cmp
  split_ifs with h1 h2
  · simp [lt_asymm h1]
  · simp [h2]
  · simp [h2]

/-- What a `.inl` (exact hit) result of the binary search means: a key
reference at a valid index within the window whose value is the probe. -/
theorem bsearchAux_inl {key : K} {ks : List (Nat × K)} {s e mid : Nat}
    (h : bsearchAux key ks s e = Sum.inl mid) :
    ∃ kv, ks[mid]? = some kv ∧ kv.2 = key ∧ s ≤ mid ∧ mid < e := by
  induction s, e using bsearchAux.induct key ks with
  | case1 s e hlt hnone =>
    rw [bsearchAux] at h
    simp [hlt, hnone] at h
  | case2 s e hlt kv hkv heq =>
    rw [bsearchAux] at h
    simp only [dif_pos hlt, hkv, heq] at h
    cases h
    exact ⟨kv, hkv, (cmp_eq_eq.mp heq).symm, by omega, by omega⟩
  | case3 s e hlt kv hkv hcmp ih =>
    rw [bsearchAux] at h
    simp only [dif_pos hlt, hkv, hcmp] at h
    obtain ⟨kv', h1, h2, h3, h4⟩ := ih h
    exact ⟨kv', h1, h2, h3, by omega⟩
  | case4 s e hlt kv hkv hcmp ih =>
    rw [bsearchAux] at h
    simp only [dif_pos hlt, hkv, hcmp] at h
    obtain ⟨kv', h1, h2, h3, h4⟩ := ih h
    exact ⟨kv', h1, h2, by omega, h4⟩
  | case5 s e hlt =>
    rw [bsearchAux] at h
    simp [hlt] at h

/-- What a `.inr` (miss) result means on a sorted key list, given that
the search window is exhaustive on both sides: the result is the
insertion index, with strictly smaller key values before it and
strictly larger ones from it on. -/
theorem bsearchAux_inr {key : K} {ks : List (Nat × K)}
    (hsort : ks.Pairwise (fun a b => a.2 < b.2)) :
    ∀ {s e i : Nat}, s ≤ e → e ≤ ks.length →
    (∀ j (hj : j < ks.length), j < s → ks[j].2 < key) →
    (∀ j (hj : j < ks.length), e ≤ j → key < ks[j].2) →
    bsearchAux key ks s e = Sum.inr i →
    i ≤ ks.length ∧ (∀ j (hj : j < ks.length), j < i → ks[j].2 < key) ∧
      (∀ j (hj : j < ks.length), i ≤ j → key < ks[j].2) := by
  have hmono := List.pairwise_iff_getElem.mp hsort
  intro s e
  induction s, e using bsearchAux.induct key ks with
  | case1 s e hlt hnone =>
    intro i hse he hbefore hafter h
    exfalso
    have hmid : (s + e) / 2 < ks.length := by omega
    simp [List.getElem?_eq_getElem hmid] at hnone
  | case2 s e hlt kv hkv heq =>
    intro i hse he hbefore hafter h
    rw [bsearchAux] at h
    simp only [dif_pos hlt, hkv, heq] at h
    exact absurd h (by simp)
  | case3 s e hlt kv hkv hcmp ih =>
    intro i hse he hbefore hafter h
    rw [bsearchAux] at h
    simp only [dif_pos hlt, hkv, hcmp] at h
    have hmid : (s + e) / 2 < ks.length := by omega
    have hkey : key < kv.2 := cmp_eq_lt.mp hcmp
    have hkv' : ks[(s + e) / 2] = kv := by
      have h2 := List.getElem?_eq_getElem hmid
      rw [h2] at hkv
      exact (Option.some.injEq _ _).mp hkv.symm |>.symm
    refine ih (by omega) (by omega) hbefore ?_ h
    intro j hj hle
    rcases Nat.eq_or_lt_of_le hle with heq2 | hlt2
    · subst heq2
      rw [hkv']
      exact hkey
    · calc key < kv.2 := hkey
        _ = ks[(s + e) / 2].2 := by rw [hkv']
        _ < ks[j].2 := hmono _ _ _ _ hlt2
  | case4 s e hlt kv hkv hcmp ih =>
    intro i hse he hbefore hafter h
    rw [bsearchAux] at h
    simp only [dif_pos hlt, hkv, hcmp] at h
    have hmid : (s + e) / 2 < ks.length := by omega
    have hkey : kv.2 < key := cmp_eq_gt.mp hcmp
    have hkv' : ks[(s + e) / 2] = kv := by
      have h2 := List.getElem?_eq_getElem hmid
      rw [h2] at hkv
      exact (Option.some.injEq _ _).mp hkv.symm |>.symm
    refine ih (by omega) he ?_ hafter h
    intro j hj hlt2
    rcases Nat.lt_succ_iff_lt_or_eq.mp hlt2 with hlt3 | heq2
    · calc ks[j].2 < ks[(s + e) / 2].2 := hmono _ _ _ _ hlt3
        _ = kv.2 := by rw [hkv']
        _ < key := hkey
    · subst heq2
      rw [hkv']
      exact hkey
  | case5 s e hlt =>
    intro i hse he hbefore hafter h
    rw [bsearchAux] at h
    simp only [dif_neg hlt] at h
    cases h
    refine ⟨by omega, ?_, ?_⟩
    · intro j hj hji
      exact hbefore j hj hji
    · intro j hj hji
      exact hafter j hj (by omega)

/-- `bsearch` hit on a sorted list. -/
theorem bsearch_inl {key : K} {ks : List (Nat × K)} {mid : Nat}
    (h : bsearch key ks = Sum.inl mid) :
    ∃ kv, ks[mid]? = some kv ∧ kv.2 = key ∧ mid < ks.length := by
  obtain ⟨kv, h1, h2, _, h4⟩ := bsearchAux_inl h
  exact ⟨kv, h1, h2, h4⟩

/-- `bsearch` miss on a sorted list: the insertion index. -/
theorem bsearch_inr {key : K} {ks : List (Nat × K)} {i : Nat}
    (hsort : ks.Pairwise (fun a b => a.2 < b.2))
    (h : bsearch key ks = Sum.inr i) :
    i ≤ ks.length ∧ (∀ j (hj : j < ks.length), j < i → ks[j].2 < key) ∧
      (∀ j (hj : j < ks.length), i ≤ j → key < ks[j].2) :=
  bsearchAux_inr hsort (Nat.zero_le _) (le_refl _) (fun j _ hj => by omega)
    (fun j hj hle => by omega) h

/-- A node with at least one key always has a median to pop: `split`
succeeds on it. -/
theorem split_isSome {ch : Bool} {ks : List (Nat × K)} {cs : List (TreeNode K)}
    (h : 1 ≤ ks.length) : split (.mk ch ks cs) ≠ none := by
  rw [split]
  rcases hopt : (ks.take (ks.length - ks.length / 2)).getLast? with _ | med
  · exfalso
    rw [List.getLast?_eq_none_iff] at hopt
    have h2 := congrArg List.length hopt
    simp only [List.length_take, List.length_nil] at h2
    omega
  · simp only [hopt]
    split <;> simp

/-- C2 (amended): for every node with sorted keys and every key value
not already present in it, `insertKey` splices the key at its insertion
index (all smaller key values before it, all larger ones from it on,
and a supplied child at the following index) and returns `true` if and
only if the node's key count after insertion is strictly less than
`MAX_CHILDREN = 2 * (T - 1) + 1 = 9`; `putRec` — the caller — triggers
a split exactly when `insertKey` returns `false`. -/
theorem insertKey_spec {ch : Bool} {ks : List (Nat × K)} {cs : List (TreeNode K)}
    (key : Nat × K) (child : Option (TreeNode K))
    (hsort : ks.Pairwise (fun a b => a.2 < b.2))
    (habs : ∀ kv ∈ ks, kv.2 ≠ key.2) :
    (∃ i, i ≤ ks.length ∧
      (∀ j (hj : j < ks.length), j < i → ks[j].2 < key.2) ∧
      (∀ j (hj : j < ks.length), i ≤ j → key.2 < ks[j].2) ∧
      insertKey key child (.mk ch ks cs) =
        (.mk true (List.insertIdx i key ks)
          (match child with
           | some c => List.insertIdx (i + 1) c cs
           | none => cs),
         decide (ks.length + 1 < MAX_CHILDREN))) ∧
    ((insertKey key child (.mk ch ks cs)).2 = true ↔ ks.length + 1 < MAX_CHILDREN) ∧
    ((insertKey key none (.mk ch ks [])).2 = false →
      ∃ l med r, putRec key (.mk ch ks []) = .split l med r) ∧
    ((insertKey key none (.mk ch ks [])).2 = true →
      putRec key (.mk ch ks []) = .done (insertKey key none (.mk ch ks [])).1) := by
  match hbs : bsearch key.2 ks with
  | .inl mid =>
    obtain ⟨kv, h1, h2, _⟩ := bsearch_inl hbs
    exact absurd h2 (habs kv (List.getElem?_mem h1))
  | .inr i =>
    obtain ⟨hi, hbef, haft⟩ := bsearch_inr hsort hbs
    have hlen : (List.insertIdx i key ks).length = ks.length + 1 := by
      exact List.length_insertIdx (a := key) i ks hi
    have hins : ∀ cs' : List (TreeNode K), ∀ child' : Option (TreeNode K),
        insertKey key child' (.mk ch ks cs') =
        (.mk true (List.insertIdx i key ks)
          (match child' with
           | some c => List.insertIdx (i + 1) c cs'
           | none => cs'),
         decide (ks.length + 1 < MAX_CHILDREN)) := by
      intro cs' child'
      rw [insertKey]
      simp only [hbs, hlen]
    refine ⟨⟨i, hi, hbef, haft, hins cs child⟩, ?_, ?_, ?_⟩
    · rw [hins cs child]
      simp
    · intro hfalse
      rw [hins [] none] at hfalse
      simp only at hfalse
      simp only [putRec]
      rw [hins [] none]
      simp only [hfalse]
      rcases hsp : split (TreeNode.mk true (List.insertIdx i key ks)
          ([] : List (TreeNode K))) with _ | ⟨l, med, r⟩
      · exact absurd hsp (split_isSome (by simp [hlen]))
      · exact ⟨l, med, r, by simp only [hsp]⟩
    · intro htrue
      rw [hins [] none] at htrue
      simp only at htrue
      simp only [putRec]
      rw [hins [] none]
      simp only [htrue]

/-- C2 counterexample: inserting the absent key `9` into a sorted leaf
holding eight keys makes the key count after insertion `9` — strictly
less than `10` — yet `insertKey` returns `false`, because the source
compares against `MAX_CHILDREN = MIN_KEYS * 2 + 1 = 9`, not `2T = 10`. -/
theorem insertKey_nine_lt_ten_yet_false :
    (insertKey (9, (9 : Nat)) none
      (.mk false [(1,1),(2,2),(3,3),(4,4),(5,5),(6,6),(7,7),(8,8)] [])).2 = false ∧
    ((insertKey (9, (9 : Nat)) none
      (.mk false [(1,1),(2,2),(3,3),(4,4),(5,5),(6,6),(7,7),(8,8)] [])).1).keys.length
      < 10 := by
  constructor <;>
    norm_num [insertKey, bsearch, bsearchAux, cmp, MAX_CHILDREN, MIN_KEYS, T,
      TreeNode.keys]

/-- Witness for `insertKey_spec` at a concrete node and key. -/
theorem insertKey_spec_witness :
    (∃ i, i ≤ 3 ∧
      insertKey ((7:Nat), (3:Nat)) none
          (.mk false [((1:Nat),(1:Nat)),(2,2),(4,4)] []) =
        (.mk true (List.insertIdx i (7, 3) [((1:Nat),(1:Nat)),(2,2),(4,4)]) [],
          decide (3 + 1 < MAX_CHILDREN))) ∧
    ((insertKey ((7:Nat), (3:Nat)) none
        (.mk false [((1:Nat),(1:Nat)),(2,2),(4,4)] [])).2 = true ↔
      3 + 1 < MAX_CHILDREN) := by
  obtain ⟨⟨i, hi, _, _, heq⟩, hiff, _, _⟩ := @insertKey_spec Nat _
    false [((1:Nat),(1:Nat)),(2,2),(4,4)]
    ([] : List (TreeNode Nat)) ((7 : Nat), (3 : Nat))
    none (by decide) (by decide)
  exact ⟨⟨i, hi, heq⟩, hiff⟩

/-- C3: `split` on a node with `n` keys and `len = n >> 1` moves the
rightmost `len` keys, in their original order, into the right half; the
median is the next key popped (index `n - len - 1`); an internal node
(here: one with `n + 1` children) moves its `len + 1` rightmost
children to the right half; and for `n = 10` both halves keep at least
`T - 1 = 4` keys. -/
theorem split_spec {ch : Bool} {ks : List (Nat × K)} {cs : List (TreeNode K)}
    (hn : 1 ≤ ks.length) (hcs : cs = [] ∨ cs.length = ks.length + 1) :
    ∃ l med r, split (.mk ch ks cs) = some (l, med, r) ∧
      r.keys = ks.drop (ks.length - ks.length / 2) ∧
      r.keys.length = ks.length / 2 ∧
      ks[ks.length - ks.length / 2 - 1]? = some med ∧
      l.keys = ks.take (ks.length - ks.length / 2 - 1) ∧
      (cs = [] → l.children = [] ∧ r.children = []) ∧
      (cs.length = ks.length + 1 →
        r.children = cs.drop (ks.length - ks.length / 2) ∧
        r.children.length = ks.length / 2 + 1 ∧
        l.children = cs.take (ks.length - ks.length / 2)) ∧
      (ks.length = 10 → T - 1 ≤ l.keys.length ∧ T - 1 ≤ r.keys.length) := by
  have hm : 1 ≤ ks.length - ks.length / 2 := by omega
  have htl : (ks.take (ks.length - ks.length / 2)).length
      = ks.length - ks.length / 2 := by
    rw [List.length_take]
    omega
  have hmed : (ks.take (ks.length - ks.length / 2)).getLast?
      = some (ks.get ⟨ks.length - ks.length / 2 - 1, by omega⟩) := by
    rw [List.getLast?_eq_getElem?, htl, List.getElem?_take, if_pos (by omega)]
    simp [List.getElem?_eq_getElem
      (show ks.length - ks.length / 2 - 1 < ks.length by omega)]
  have hdl : (ks.take (ks.length - ks.length / 2)).dropLast
      = ks.take (ks.length - ks.length / 2 - 1) := by
    rw [List.dropLast_eq_take, htl, List.take_take]
    congr 1
    omega
  have hgetm : ks[ks.length - ks.length / 2 - 1]?
      = some (ks.get ⟨ks.length - ks.length / 2 - 1, by omega⟩) := by
    rw [List.getElem?_eq_getElem
      (show ks.length - ks.length / 2 - 1 < ks.length by omega)]
    simp [List.get_eq_getElem]
  rcases hcs with rfl | hlen
  · have hsp : split (.mk ch ks ([] : List (TreeNode K)))
        = some (.mk true (ks.take (ks.length - ks.length / 2 - 1)) [],
            ks.get ⟨ks.length - ks.length / 2 - 1, by omega⟩,
            .mk true (ks.drop (ks.length - ks.length / 2)) []) := by
      rw [split]
      simp only [hmed, hdl, List.isEmpty_nil, if_true]
    refine ⟨_, _, _, hsp, rfl, ?_, hgetm, rfl, fun _ => ⟨rfl, rfl⟩, ?_, ?_⟩
    · simp only [TreeNode.keys_mk, List.length_drop]
      omega
    · intro habs
      simp only [List.length_nil] at habs
      omega
    · intro h10
      refine ⟨?_, ?_⟩ <;> simp only [TreeNode.keys_mk, List.length_take,
        List.length_drop, T, h10] <;> omega
  · have hne : ¬ cs.isEmpty = true := by
      rcases cs with _ | ⟨c, cs⟩
      · simp only [List.length_nil] at hlen
        omega
      · simp
    have hsp : split (.mk ch ks cs)
        = some (.mk true (ks.take (ks.length - ks.length / 2 - 1))
              (cs.take (cs.length - (ks.length / 2 + 1))),
            ks.get ⟨ks.length - ks.length / 2 - 1, by omega⟩,
            .mk true (ks.drop (ks.length - ks.length / 2))
              (cs.drop (cs.length - (ks.length / 2 + 1)))) := by
      rw [split]
      simp only [hmed, hdl]
      rw [if_neg hne]
    have harith : cs.length - (ks.length / 2 + 1) = ks.length - ks.length / 2 := by
      omega
    refine ⟨_, _, _, hsp, rfl, ?_, hgetm, rfl, ?_, ?_, ?_⟩
    · simp only [TreeNode.keys_mk, List.length_drop]
      omega
    · intro habs
      rw [habs] at hlen
      simp only [List.length_nil] at hlen
      omega
    · intro _
      refine ⟨?_, ?_, ?_⟩
      · simp only [TreeNode.children_mk]
        rw [harith]
      · simp only [TreeNode.children_mk, List.length_drop]
        omega
      · simp only [TreeNode.children_mk]
        rw [harith]
    · intro h10
      refine ⟨?_, ?_⟩ <;> simp only [TreeNode.keys_mk, List.length_take,
        List.length_drop, T, h10] <;> omega

/-- Witness for `split_spec`: a ten-key leaf. -/
theorem split_spec_witness :
    ∃ l med r, split (.mk false [((1:Nat),(1:Nat)),(2,2),(3,3),(4,4),(5,5),
        (6,6),(7,7),(8,8),(9,9),(10,10)] ([] : List (TreeNode Nat)))
      = some (l, med, r) ∧
      r.keys = ([((1:Nat),(1:Nat)),(2,2),(3,3),(4,4),(5,5),(6,6),(7,7),(8,8),
        (9,9),(10,10)]).drop (10 - 10 / 2) ∧
      r.keys.length = 10 / 2 ∧
      ([((1:Nat),(1:Nat)),(2,2),(3,3),(4,4),(5,5),(6,6),(7,7),(8,8),(9,9),
        (10,10)])[10 - 10 / 2 - 1]? = some med ∧
      l.keys = ([((1:Nat),(1:Nat)),(2,2),(3,3),(4,4),(5,5),(6,6),(7,7),(8,8),
        (9,9),(10,10)]).take (10 - 10 / 2 - 1) ∧
      (([] : List (TreeNode Nat)) = [] → l.children = [] ∧ r.children = []) ∧
      (([] : List (TreeNode Nat)).length = 10 + 1 →
        r.children = ([] : List (TreeNode Nat)).drop (10 - 10 / 2) ∧
        r.children.length = 10 / 2 + 1 ∧
        l.children = ([] : List (TreeNode Nat)).take (10 - 10 / 2)) ∧
      (10 = 10 → T - 1 ≤ l.keys.length ∧ T - 1 ≤ r.keys.length) := by
  have h := @split_spec Nat _ false
    [((1:Nat),(1:Nat)),(2,2),(3,3),(4,4),(5,5),(6,6),(7,7),(8,8),(9,9),
      (10,10)]
    ([] : List (TreeNode Nat)) (by norm_num) (Or.inl rfl)
  simpa using h

/-- C4 (amended): `setKeyToNearestLeaf` compares the size of the
rightmost leaf of the left subtree (`ls`) with the size of the leftmost
leaf of the right subtree (`rs`) and replaces the separator with the
adjacent key of the right side only when `ls < rs` is strict; on ties
(and when the left side is larger) the key is taken from the left
subtree's rightmost leaf. -/
theorem setKeyToNearestLeaf_spec {ch : Bool} {ks : List (Nat × K)}
    {cs : List (TreeNode K)} {i : Nat} {left right : TreeNode K}
    (hl : cs[i]? = some left) (hr : cs[i + 1]? = some right)
    {kl : Nat × K} {left' : TreeNode K} (hel : extractLast left = some (kl, left'))
    {kr : Nat × K} {right' : TreeNode K}
    (her : extractFirst right = some (kr, right')) :
    (leafSize left false < leafSize right true →
      setKeyToNearestLeaf (.mk ch ks cs) i =
        some (.mk ch (ks.set i kr) (cs.set (i + 1) right'), i + 1)) ∧
    (¬ leafSize left false < leafSize right true →
      setKeyToNearestLeaf (.mk ch ks cs) i =
        some (.mk ch (ks.set i kl) (cs.set i left'), i)) := by
  constructor
  · intro h
    rw [setKeyToNearestLeaf]
    simp only [hl, hr, hel, her, if_pos h]
  · intro h
    rw [setKeyToNearestLeaf]
    simp only [hl, hr, hel, her, if_neg h]

/-- Witness for `setKeyToNearestLeaf_spec` on a concrete internal node
whose right leaf is strictly larger. -/
theorem setKeyToNearestLeaf_spec_witness :
    (leafSize (K := Nat) (.mk false [(1,1),(2,2),(3,3),(4,4)] []) false
        < leafSize (K := Nat) (.mk false [(6,6),(7,7),(8,8),(9,9),(11,11)] []) true →
      setKeyToNearestLeaf (K := Nat)
        (.mk false [(5,5)]
          [.mk false [(1,1),(2,2),(3,3),(4,4)] [],
           .mk false [(6,6),(7,7),(8,8),(9,9),(11,11)] []]) 0 =
        some (.mk false ([((5:Nat),(5:Nat))].set 0 (6,6))
          ([(.mk false [(1,1),(2,2),(3,3),(4,4)] [] : TreeNode Nat),
            .mk false [(6,6),(7,7),(8,8),(9,9),(11,11)] []].set 1
            (.mk true [(7,7),(8,8),(9,9),(11,11)] [])), 1)) ∧
    (¬ leafSize (K := Nat) (.mk false [(1,1),(2,2),(3,3),(4,4)] []) false
        < leafSize (K := Nat) (.mk false [(6,6),(7,7),(8,8),(9,9),(11,11)] []) true →
      setKeyToNearestLeaf (K := Nat)
        (.mk false [(5,5)]
          [.mk false [(1,1),(2,2),(3,3),(4,4)] [],
           .mk false [(6,6),(7,7),(8,8),(9,9),(11,11)] []]) 0 =
        some (.mk false ([((5:Nat),(5:Nat))].set 0 (4,4))
          ([(.mk false [(1,1),(2,2),(3,3),(4,4)] [] : TreeNode Nat),
            .mk false [(6,6),(7,7),(8,8),(9,9),(11,11)] []].set 0
            (.mk true [(1,1),(2,2),(3,3)] [])), 0)) :=
  setKeyToNearestLeaf_spec (i := 0) rfl rfl
    (by norm_num [extractLast]) (by norm_num [extractFirst])

/-- C4 counterexample: with equally sized nearest leaves on both sides
(`ls = rs = 4`), the separator is replaced from the **left** subtree's
rightmost leaf (the new separator is `4`), not from the right side as
the claim's tie-breaking states. -/
theorem setKeyToNearestLeaf_tie_takes_left :
    leafSize (K := Nat) (.mk false [(1,1),(2,2),(3,3),(4,4)] []) false
      = leafSize (K := Nat) (.mk false [(6,6),(7,7),(8,8),(9,9)] []) true ∧
    setKeyToNearestLeaf (K := Nat)
      (.mk false [(5,5)]
        [.mk false [(1,1),(2,2),(3,3),(4,4)] [],
         .mk false [(6,6),(7,7),(8,8),(9,9)] []]) 0 =
      some (.mk false [(4,4)]
        [.mk true [(1,1),(2,2),(3,3)] [],
         .mk false [(6,6),(7,7),(8,8),(9,9)] []], 0) := by
  constructor
  · norm_num [leafSize]
  · norm_num [setKeyToNearestLeaf, leafSize, extractLast, extractFirst]

/-- A miss of the shared descent: if `Batch.get`'s walk does not find
the key, neither does `Batch.del`'s (they run the same binary searches
over the same nodes), so the delete returns `none`. -/
theorem delRec_none_of_lookupSeq_none {k : K} :
    ∀ {t : TreeNode K}, lookupSeq k t = none → delRec k t = none := by
  intro t
  induction t using delRec.induct k with
  | case1 ch ks mid hbs =>
    intro h
    exfalso
    obtain ⟨kv, hkv, _, _⟩ := bsearch_inl hbs
    rw [lookupSeq] at h
    simp [hbs, hkv] at h
  | case2 ch ks i hbs =>
    intro _
    rw [delRec]
    simp [hbs]
  | case3 ch ks c cs mid hbs t' j hset =>
    intro h
    exfalso
    obtain ⟨kv, hkv, _, _⟩ := bsearch_inl hbs
    rw [lookupSeq] at h
    simp [hbs, hkv] at h
  | case4 ch ks c cs mid hbs hset =>
    intro h
    exfalso
    obtain ⟨kv, hkv, _, _⟩ := bsearch_inl hbs
    rw [lookupSeq] at h
    simp [hbs, hkv] at h
  | case5 ch ks c cs i hbs hnone =>
    intro _
    rw [delRec]
    simp only [hbs]
    split
    · rfl
    · rename_i child2 hchild2
      rw [hchild2] at hnone
      exact absurd hnone (by simp)
  | case6 ch ks c cs i hbs child hchild hdelnone _ih =>
    intro _
    rw [delRec]
    simp only [hbs]
    split
    · rfl
    · rename_i child3 hchild3
      have hc3 : child3 = child := by
        have h4 := hchild3.symm.trans hchild
        exact Option.some.inj h4
      subst hc3
      simp only [hdelnone]
  | case7 ch ks c cs i hbs child hchild node hdelsome ih =>
    intro h
    exfalso
    rw [lookupSeq] at h
    simp only [hbs] at h
    split at h
    · rename_i hnone2
      rw [hnone2] at hchild
      exact absurd hchild (by simp)
    · rename_i child2 hchild2
      have hc2 : child2 = child := by
        have h3 := hchild2.symm.trans hchild
        exact Option.some.inj h3
      subst hc2
      rw [ih h] at hdelsome
      exact absurd hdelsome (by simp)

/-- C5: a `del` of a key that is not present in the tree is a silent
no-op: the returned state is the input state itself, so no block is
appended to the log, the root (and every `changed` flag in it) is
untouched, and the batch sees no effect.  The absence hypothesis says
the `get` descent misses. -/
theorem beeDel_miss_noop {V : Type} {s : BeeState K V} {k : K}
    (habs : ∀ t, s.root = some t → lookupSeq k t = none) :
    beeDel s k = s := by
  rcases hroot : s.root with _ | t
  · rw [beeDel, hroot]
  · rw [beeDel, hroot]
    simp only [delTree, delRec_none_of_lookupSeq_none (habs t hroot)]

/-- Witness for `beeDel_miss_noop`: deleting the absent key `2` from a
one-entry tree built by a real `put`. -/
theorem beeDel_miss_noop_witness :
    beeDel (beePut (BeeState.init Nat Nat) 1 10) 2
      = beePut (BeeState.init Nat Nat) 1 10 :=
  beeDel_miss_noop (by
    intro t ht
    simp only [beePut, BeeState.init] at ht
    have h2 := Option.some.inj ht
    rw [← h2]
    norm_num [putTree, putRec, insertKey, bsearch, bsearchAux, cmp,
      TreeNode.create, lookupSeq, split, MAX_CHILDREN, MIN_KEYS, T])

/-- C6: `version` is `max(1, _checkout || feed.length)`, and a handle
produced by `checkout(v)` for `v ≥ 1` keeps the pinned version `v`
regardless of the feed length, i.e. of later appends. -/
theorem version_spec (h : BeeHandle) (v : Nat) (hv : 1 ≤ v) :
    (∀ hb (len : Nat), BeeHandle.version hb len
      = max 1 (if hb._checkout = 0 then len else hb._checkout)) ∧
    (∀ len₁ len₂ : Nat,
      (h.checkout v).version len₁ = (h.checkout v).version len₂) ∧
    (∀ len : Nat, (h.checkout v).version len = v) := by
  have hne : v ≠ 0 := by omega
  refine ⟨fun hb len => rfl, fun len₁ len₂ => ?_, fun len => ?_⟩ <;>
    simp [BeeHandle.checkout, BeeHandle.make, BeeHandle.version, hne] <;>
    omega

/-- Witness for `version_spec`. -/
theorem version_spec_witness :
    (∀ hb (len : Nat), BeeHandle.version hb len
      = max 1 (if hb._checkout = 0 then len else hb._checkout)) ∧
    (∀ len₁ len₂ : Nat,
      ((⟨0⟩ : BeeHandle).checkout 3).version len₁
        = ((⟨0⟩ : BeeHandle).checkout 3).version len₂) ∧
    (∀ len : Nat, ((⟨0⟩ : BeeHandle).checkout 3).version len = 3) :=
  version_spec ⟨0⟩ 3 (by norm_num)

/-- C10: `checkout(0)` — any falsy version — is not pinned: the new
handle's `_checkout` is `0`, so its version is `max(1, feed.length)`
and it tracks the live log as it grows. -/
theorem checkout_zero_tracks (h : BeeHandle) (len : Nat) :
    (h.checkout 0)._checkout = 0 ∧ (h.checkout 0).version len = max 1 len := by
  exact ⟨rfl, by simp [BeeHandle.checkout, BeeHandle.make, BeeHandle.version]⟩

/-- C9: `flush` on a batch with no staged mutations resolves without
appending anything and with the batch state — root, block cache and
length — untouched. -/
theorem flush_empty_noop {K' V : Type} (b : BatchState K' V)
    (h : b.length = 0) : flush b = (b, []) := by
  rw [flush, if_pos h]

/-- Witness for `flush_empty_noop`. -/
theorem flush_empty_noop_witness :
    flush (⟨3, [], none, 0⟩ : BatchState Nat Nat) = (⟨3, [], none, 0⟩, []) :=
  flush_empty_noop _ rfl

/-! ### C7: the `YoloIndex` round trip -/

/-- Varint decoding undoes varint encoding, leaving trailing bytes. -/
theorem varintDecode_encode (n : Nat) (rest : List Nat) :
    varintDecode (varintEncode n ++ rest) = some (n, rest) := by
  induction n using Nat.strong_induction_on with
  | _ n ih =>
    rw [varintEncode]
    split_ifs with h
    · simp [varintDecode, h]
    · rw [List.cons_append]
      simp only [varintDecode]
      rw [if_neg (by omega)]
      rw [ih (n / 128) (by omega)]
      simp only [Option.some.injEq, Prod.mk.injEq]
      exact ⟨by omega, trivial⟩

/-- A varint is at least one byte. -/
theorem varintEncode_length_pos (n : Nat) : 1 ≤ (varintEncode n).length := by
  rw [varintEncode]
  split_ifs <;> simp

/-- A packed field is at least one byte per element. -/
theorem packedEncode_length_ge (xs : List Nat) :
    xs.length ≤ (packedEncode xs).length := by
  induction xs with
  | nil => simp [packedEncode]
  | cons x xs ih =>
    simp only [packedEncode, List.map_cons, List.flatten_cons, List.length_append,
      List.length_cons]
    have := varintEncode_length_pos x
    simp only [packedEncode] at ih
    omega

/-- Packed decoding undoes packed encoding when given enough fuel. -/
theorem packedDecodeAux_encode (xs : List Nat) :
    ∀ fuel, xs.length ≤ fuel →
    packedDecodeAux fuel (packedEncode xs) = some xs := by
  induction xs with
  | nil =>
    intro fuel _
    cases fuel <;> simp [packedEncode, packedDecodeAux]
  | cons x xs ih =>
    intro fuel hf
    rcases fuel with _ | fuel
    · simp at hf
    · have hx := varintEncode_length_pos x
      have hshape : packedEncode (x :: xs)
          = varintEncode x ++ packedEncode xs := by
        simp [packedEncode]
      rcases hv : varintEncode x with _ | ⟨b, l⟩
      · rw [hv] at hx
        simp at hx
      · have hcons : packedEncode (x :: xs) = b :: (l ++ packedEncode xs) := by
          rw [hshape, hv]
          simp
        rw [hcons]
        simp only [packedDecodeAux]
        have hdec : varintDecode (b :: (l ++ packedEncode xs))
            = some (x, packedEncode xs) := by
          rw [← List.cons_append, ← hv]
          exact varintDecode_encode x (packedEncode xs)
        rw [hdec]
        simp only [ih fuel (by simpa using hf)]

/-- `packedDecode` undoes `packedEncode`. -/
theorem packedDecode_encode (xs : List Nat) :
    packedDecode (packedEncode xs) = some xs :=
  packedDecodeAux_encode xs _ (packedEncode_length_ge xs)

/-- One field step of the `Level` decoder on a well-formed
tag / length-delimited-payload prefix. -/
theorem decodeLevelAux_step (tag : Nat) (htag : tag < 128) (p tail : List Nat)
    (acc : YoloLevel) (fuel : Nat) :
    decodeLevelAux (fuel + 1) (tag :: (lenDelimited p ++ tail)) acc =
      (match packedDecode p with
      | none => none
      | some xs =>
        if tag = 10 then decodeLevelAux fuel tail { acc with keys := acc.keys ++ xs }
        else if tag = 18 then
          decodeLevelAux fuel tail { acc with children := acc.children ++ xs }
        else none) := by
  simp only [decodeLevelAux]
  have h1 : varintDecode (tag :: (lenDelimited p ++ tail))
      = some (tag, lenDelimited p ++ tail) := by
    simp only [varintDecode]
    rw [if_pos htag]
  simp only [h1]
  have h2 : lenDelimited p ++ tail = varintEncode p.length ++ (p ++ tail) := by
    rw [lenDelimited, List.append_assoc]
  simp only [h2, varintDecode_encode]
  rw [if_pos (by simp)]
  rw [List.take_left, List.drop_left]

/-- The `Level` decoder undoes the canonical `Level` encoder,
appending onto the accumulator. -/
theorem decodeLevelAux_encode (l acc : YoloLevel) :
    ∀ fuel, (encodeLevel l).length ≤ fuel →
    decodeLevelAux fuel (encodeLevel l) acc
      = some ⟨acc.keys ++ l.keys, acc.children ++ l.children⟩ := by
  intro fuel hf
  by_cases hk : l.keys = [] <;> by_cases hc : l.children = []
  · have he : encodeLevel l = [] := by
      simp [encodeLevel, hk, hc]
    rw [he]
    cases fuel <;> simp [decodeLevelAux, hk, hc]
  · have he : encodeLevel l = 18 :: (lenDelimited (packedEncode l.children) ++ []) := by
      simp [encodeLevel, hk, hc]
    rw [he] at hf ⊢
    rcases fuel with _ | fuel
    · simp at hf
    · rw [decodeLevelAux_step 18 (by omega) _ _ _ _]
      rw [packedDecode_encode]
      simp [decodeLevelAux, hk]
  · have he : encodeLevel l = 10 :: (lenDelimited (packedEncode l.keys) ++ []) := by
      simp [encodeLevel, hk, hc]
    rw [he] at hf ⊢
    rcases fuel with _ | fuel
    · simp at hf
    · rw [decodeLevelAux_step 10 (by omega) _ _ _ _]
      rw [packedDecode_encode]
      simp [decodeLevelAux, hc]
  · have he : encodeLevel l = 10 :: (lenDelimited (packedEncode l.keys) ++
        (18 :: (lenDelimited (packedEncode l.children) ++ []))) := by
      simp [encodeLevel, hk, hc]
    rw [he] at hf ⊢
    rcases fuel with _ | fuel
    · simp at hf
    · rw [decodeLevelAux_step 10 (by omega) _ _ _ _]
      rw [packedDecode_encode]
      simp only [if_pos rfl]
      have hf2 : 1 ≤ fuel := by
        simp only [List.length_cons, List.length_append] at hf
        have := varintEncode_length_pos (packedEncode l.children).length
        rw [lenDelimited] at hf
        simp only [List.length_append, List.length_cons, List.length_nil] at hf
        omega
      rcases fuel with _ | fuel
      · omega
      · rw [decodeLevelAux_step 18 (by omega) _ _ _ _]
        rw [packedDecode_encode]
        simp [decodeLevelAux]

/-- `decodeLevel` undoes `encodeLevel`. -/
theorem decodeLevel_encode (l : YoloLevel) :
    decodeLevel (encodeLevel l) = some l := by
  rw [decodeLevel, decodeLevelAux_encode l ⟨[], []⟩ _ (le_refl _)]
  rfl

/-- Every encoded level contributes at least its tag byte. -/
theorem encodeYoloIndex_length_ge (levels : List YoloLevel) :
    levels.length ≤ (encodeYoloIndex levels).length := by
  induction levels with
  | nil => simp [encodeYoloIndex]
  | cons l ls ih =>
    simp only [encodeYoloIndex, List.map_cons, List.flatten_cons,
      List.length_append, List.length_cons] at ih ⊢
    omega

/-- The `YoloIndex` level loop undoes the level encoder. -/
theorem decodeYoloAux_encode (levels : List YoloLevel) :
    ∀ fuel, levels.length ≤ fuel →
    decodeYoloAux fuel (encodeYoloIndex levels) = some levels := by
  induction levels with
  | nil =>
    intro fuel _
    cases fuel <;> simp [encodeYoloIndex, decodeYoloAux]
  | cons l ls ih =>
    intro fuel hf
    rcases fuel with _ | fuel
    · simp at hf
    · have hshape : encodeYoloIndex (l :: ls)
          = 10 :: (lenDelimited (encodeLevel l) ++ encodeYoloIndex ls) := by
        simp [encodeYoloIndex]
      rw [hshape]
      simp only [decodeYoloAux]
      have h1 : varintDecode (10 :: (lenDelimited (encodeLevel l)
          ++ encodeYoloIndex ls)) = some (10, lenDelimited (encodeLevel l)
          ++ encodeYoloIndex ls) := by
        simp only [varintDecode]
        rw [if_pos (by omega)]
      simp only [h1, if_pos rfl]
      have h2 : lenDelimited (encodeLevel l) ++ encodeYoloIndex ls
          = varintEncode (encodeLevel l).length
            ++ (encodeLevel l ++ encodeYoloIndex ls) := by
        rw [lenDelimited, List.append_assoc]
      simp only [h2, varintDecode_encode]
      rw [List.take_left, List.drop_left]
      simp only [decodeLevel_encode, ih fuel (by simpa using hf)]
      have hle : (encodeLevel l).length
          ≤ (encodeLevel l ++ encodeYoloIndex ls).length := by
        rw [List.length_append]
        omega
      rw [if_pos hle]
      rfl

/-- `decodeYoloIndex` undoes `encodeYoloIndex`. -/
theorem decodeYoloIndex_encode (levels : List YoloLevel) :
    decodeYoloIndex (encodeYoloIndex levels) = some levels :=
  decodeYoloAux_encode levels _ (encodeYoloIndex_length_ge levels)

/-- The `Pointers` pairing loop undoes `deflate`'s flattening. -/
theorem pairUp_flatten (children : List (Nat × Nat)) :
    pairUp ((children.map (fun c => [c.1, c.2])).flatten) = children := by
  induction children with
  | nil => simp [pairUp]
  | cons c cs ih =>
    simp only [List.map_cons, List.flatten_cons]
    rw [List.cons_append, List.cons_append, List.nil_append, pairUp, ih]

/-- C7: decoding the bytes produced by encoding a `YoloIndex` value —
a list of levels, each with its key seqs and its `(seq, offset)` child
pairs — yields the same levels: the same key seqs in the same order and
the same child pairs in the same order.  The encoder/decoder pair is
modelled from the spec (the generated `lib/messages` module is not
under `src/`); the `deflate` / `Pointers` halves are from the
source. -/
theorem inflateLevels_deflateLevels (index : List PLevel) :
    inflateLevels (deflateLevels index) = some index := by
  rw [inflateLevels, deflateLevels, decodeYoloIndex_encode, Option.map_some']
  congr 1
  rw [List.map_map]
  have h1 : ∀ l ∈ index,
      ((fun l : YoloLevel => (⟨l.keys, pairUp l.children⟩ : PLevel)) ∘
        (fun l : PLevel => (⟨l.keys,
          (l.children.map (fun c => [c.1, c.2])).flatten⟩ : YoloLevel))) l = l := by
    intro l _
    show (⟨l.keys, pairUp ((l.children.map (fun c => [c.1, c.2])).flatten)⟩
      : PLevel) = l
    rw [pairUp_flatten]
  rw [List.map_congr_left h1]
  exact List.map_id' index

/-! ### C8: `indexChanges` keeps unchanged references and renumbers
changed ones -/

/-- The reserved offset is the index length before the push. -/
theorem indexChanges_offset (m : MNode) (seq : Nat) (idx : List MCell) :
    (indexChanges m seq idx).2.1 = idx.length := by
  match m with
  | .mk ch children => rfl

/-- `indexChanges` clears the serialised node's `changed` flag. -/
theorem indexChanges_cleared (m : MNode) (seq : Nat) (idx : List MCell) :
    (indexChanges m seq idx).2.2.changed = false := by
  match m with
  | .mk ch children => rfl

/-- The index assembly only appends slots and writes into slots at or
beyond the input length: every pre-existing slot is preserved.  Stated
for `indexChildren`; the `indexChanges` variant is below. -/
theorem indexChildren_frame (k : Nat) :
    ∀ (cs : List (Nat × Nat × Option MNode)), sizeOf cs ≤ k →
    ∀ (seq : Nat) (idx : List MCell),
    idx.length ≤ (indexChildren cs seq idx).1.length ∧
    ∀ j, j < idx.length → (indexChildren cs seq idx).1[j]? = idx[j]? := by
  induction k using Nat.strong_induction_on with
  | _ k ih =>
    intro cs hk seq idx
    match cs with
    | [] =>
      constructor
      · rw [indexChildren]
      · intro j hj
        rw [indexChildren]
    | (s, o, none) :: rest =>
      have hr : sizeOf rest < k := by
        simp only [List.cons.sizeOf_spec] at hk
        omega
      simp only [indexChildren]
      exact ih (sizeOf rest) hr rest (le_refl _) seq idx
    | (s, o, some m) :: rest =>
      obtain ⟨cm, mchildren⟩ := m
      simp only [List.cons.sizeOf_spec, Prod.mk.sizeOf_spec,
        Option.some.sizeOf_spec, MNode.mk.sizeOf_spec] at hk
      have hr : sizeOf rest < k := by omega
      have hmc : sizeOf mchildren < k := by omega
      have hq : idx.length + 1
            ≤ (indexChanges (.mk cm mchildren) seq idx).1.length ∧
          ∀ j, j < idx.length →
            (indexChanges (.mk cm mchildren) seq idx).1[j]? = idx[j]? := by
        simp only [indexChanges]
        have h2 := ih (sizeOf mchildren) hmc mchildren (le_refl _) seq
          (idx ++ [none])
        constructor
        · have := h2.1
          simp only [List.length_append, List.length_cons,
            List.length_nil] at this
          omega
        · intro j hj
          rw [h2.2 j (by simp only [List.length_append, List.length_cons,
            List.length_nil]; omega)]
          rw [List.getElem?_append]
          rw [if_pos hj]
      by_cases hm : (MNode.mk cm mchildren).changed = true
      · simp only [indexChildren, hm, if_true]
        have hoff := indexChanges_offset (.mk cm mchildren) seq idx
        have hL : ((indexChanges (.mk cm mchildren) seq idx).1.set
            (indexChanges (.mk cm mchildren) seq idx).2.1
            (some (seq, (indexChanges (.mk cm mchildren) seq idx).2.1,
              some (indexChanges (.mk cm mchildren) seq idx).2.2))).length
            = (indexChanges (.mk cm mchildren) seq idx).1.length := by
          rw [List.length_set]
        have h3 := ih (sizeOf rest) hr rest (le_refl _) seq
          ((indexChanges (.mk cm mchildren) seq idx).1.set
            (indexChanges (.mk cm mchildren) seq idx).2.1
            (some (seq, (indexChanges (.mk cm mchildren) seq idx).2.1,
              some (indexChanges (.mk cm mchildren) seq idx).2.2)))
        constructor
        · have := h3.1
          rw [hL] at this
          omega
        · intro j hj
          rw [h3.2 j (by rw [hL]; omega)]
          rw [List.getElem?_set]
          rw [if_neg (by omega)]
          exact hq.2 j hj
      · simp only [indexChildren, hm, if_false]
        exact ih (sizeOf rest) hr rest (le_refl _) seq idx

/-- `indexChanges` grows the index and preserves pre-existing slots. -/
theorem indexChanges_frame (m : MNode) (seq : Nat) (idx : List MCell) :
    idx.length + 1 ≤ (indexChanges m seq idx).1.length ∧
    ∀ j, j < idx.length → (indexChanges m seq idx).1[j]? = idx[j]? := by
  match m with
  | .mk cm mchildren =>
    simp only [indexChanges]
    have h2 := indexChildren_frame (sizeOf mchildren) mchildren (le_refl _)
      seq (idx ++ [none])
    constructor
    · have := h2.1
      simp only [List.length_append, List.length_cons, List.length_nil] at this
      omega
    · intro j hj
      rw [h2.2 j (by simp only [List.length_append, List.length_cons,
        List.length_nil]; omega)]
      rw [List.getElem?_append]
      rw [if_pos hj]

/-- The per-child behaviour of the `indexChanges` child walk: a child
without a materialised changed node keeps its cell verbatim; a child
with one is rewritten to `(seq, off)` and stored at slot `off` of the
final index, with `off` in the newly assembled region. -/
theorem indexChildren_spec (k : Nat) :
    ∀ (cs : List (Nat × Nat × Option MNode)), sizeOf cs ≤ k →
    ∀ (seq : Nat) (idx : List MCell),
    (indexChildren cs seq idx).2.length = cs.length ∧
    ∀ (i s o : Nat) (v : Option MNode), cs[i]? = some (s, o, v) →
      ((∀ m, v = some m → m.changed = false) →
        (indexChildren cs seq idx).2[i]? = some (s, o, v)) ∧
      (∀ m, v = some m → m.changed = true →
        ∃ (off : Nat) (m' : MNode), (indexChildren cs seq idx).2[i]? = some (seq, off, some m') ∧
          idx.length ≤ off ∧
          (indexChildren cs seq idx).1[off]? = some (some (seq, off, some m'))) := by
  induction k using Nat.strong_induction_on with
  | _ k ih =>
    intro cs hk seq idx
    match cs with
    | [] =>
      refine ⟨by rw [indexChildren], ?_⟩
      intro i s o v h
      simp at h
    | (s0, o0, none) :: rest =>
      have hr : sizeOf rest < k := by
        simp only [List.cons.sizeOf_spec] at hk
        omega
      have hrec := ih (sizeOf rest) hr rest (le_refl _) seq idx
      simp only [indexChildren]
      refine ⟨by simpa using hrec.1, ?_⟩
      intro i s o v h
      match i with
      | 0 =>
        simp only [List.getElem?_cons_zero] at h
        cases h
        constructor
        · intro _
          simp
        · intro m hm
          simp at hm
      | i + 1 =>
        simp only [List.getElem?_cons_succ] at h ⊢
        exact hrec.2 i s o v h
    | (s0, o0, some m) :: rest =>
      obtain ⟨cm, mchildren⟩ := m
      simp only [List.cons.sizeOf_spec, Prod.mk.sizeOf_spec,
        Option.some.sizeOf_spec, MNode.mk.sizeOf_spec] at hk
      have hr : sizeOf rest < k := by omega
      by_cases hm : (MNode.mk cm mchildren).changed = true
      · have hoff := indexChanges_offset (.mk cm mchildren) seq idx
        have hqlen := (indexChanges_frame (.mk cm mchildren) seq idx).1
        have hset : ((indexChanges (.mk cm mchildren) seq idx).1.set
            (indexChanges (.mk cm mchildren) seq idx).2.1
            (some (seq, (indexChanges (.mk cm mchildren) seq idx).2.1,
              some (indexChanges (.mk cm mchildren) seq
                idx).2.2)))[(indexChanges (.mk cm mchildren) seq idx).2.1]?
            = some (some (seq, (indexChanges (.mk cm mchildren) seq idx).2.1,
              some (indexChanges (.mk cm mchildren) seq idx).2.2)) := by
          rw [List.getElem?_set]
          rw [if_pos rfl, if_pos (by omega)]
        have hframe := indexChildren_frame (sizeOf rest) rest (le_refl _) seq
          ((indexChanges (.mk cm mchildren) seq idx).1.set
            (indexChanges (.mk cm mchildren) seq idx).2.1
            (some (seq, (indexChanges (.mk cm mchildren) seq idx).2.1,
              some (indexChanges (.mk cm mchildren) seq idx).2.2)))
        have hrec := ih (sizeOf rest) hr rest (le_refl _) seq
          ((indexChanges (.mk cm mchildren) seq idx).1.set
            (indexChanges (.mk cm mchildren) seq idx).2.1
            (some (seq, (indexChanges (.mk cm mchildren) seq idx).2.1,
              some (indexChanges (.mk cm mchildren) seq idx).2.2)))
        simp only [indexChildren, hm, if_true]
        refine ⟨by simpa using hrec.1, ?_⟩
        intro i s o v h
        match i with
        | 0 =>
          simp only [List.getElem?_cons_zero] at h
          cases h
          constructor
          · intro hnc
            exact absurd hm (by simp [hnc (.mk cm mchildren) rfl])
          · intro m2 hm2 _
            have hm2e := Option.some.inj hm2
            refine ⟨(indexChanges (.mk cm mchildren) seq idx).2.1,
              (indexChanges (.mk cm mchildren) seq idx).2.2,
              by simp, by omega, ?_⟩
            rw [hframe.2 (indexChanges (.mk cm mchildren) seq idx).2.1
              (by rw [List.length_set]; omega)]
            exact hset
        | i + 1 =>
          simp only [List.getElem?_cons_succ] at h ⊢
          have h5 := hrec.2 i s o v h
          refine ⟨h5.1, ?_⟩
          intro m2 hm2 hc2
          obtain ⟨off, m', h6, h7, h8⟩ := h5.2 m2 hm2 hc2
          refine ⟨off, m', h6, ?_, h8⟩
          rw [List.length_set] at h7
          omega
      · have hrec := ih (sizeOf rest) hr rest (le_refl _) seq idx
        have hcf : (MNode.mk cm mchildren).changed = false := by
          simpa using hm
        simp only [indexChildren, hcf, Bool.false_eq_true, if_false]
        refine ⟨by simpa using hrec.1, ?_⟩
        intro i s o v h
        match i with
        | 0 =>
          simp only [List.getElem?_cons_zero] at h
          cases h
          constructor
          · intro _
            simp
          · intro m2 hm2 hc2
            have hm2e := Option.some.inj hm2
            rw [← hm2e] at hc2
            exact absurd hc2 hm
        | i + 1 =>
          simp only [List.getElem?_cons_succ] at h ⊢
          exact hrec.2 i s o v h

/-- C8: for every node serialised by `indexChanges` into the block at
sequence number `seq`, the reserved offset is the slot pushed at entry,
the node's `changed` flag is cleared, the child list keeps its length,
and every child reference whose node is absent or not marked `changed`
keeps its original `(seq, offset)` cell unchanged, while every child
reference whose node is marked `changed` is rewritten to `(seq, off)`
where `off` is the position in the new block's index at which that very
cell is stored. -/
theorem indexChanges_spec (n : MNode) (seq : Nat) (idx : List MCell) :
    (indexChanges n seq idx).2.1 = idx.length ∧
    (indexChanges n seq idx).2.2.changed = false ∧
    (indexChanges n seq idx).2.2.children.length = n.children.length ∧
    ∀ (i s o : Nat) (v : Option MNode), n.children[i]? = some (s, o, v) →
      ((∀ m, v = some m → m.changed = false) →
        (indexChanges n seq idx).2.2.children[i]? = some (s, o, v)) ∧
      (∀ m, v = some m → m.changed = true →
        ∃ (off : Nat) (m' : MNode),
          (indexChanges n seq idx).2.2.children[i]? = some (seq, off, some m') ∧
          (indexChanges n seq idx).1[off]? = some (some (seq, off, some m'))) := by
  match n with
  | .mk ch children =>
    have hspec := indexChildren_spec (sizeOf children) children (le_refl _)
      seq (idx ++ [none])
    refine ⟨indexChanges_offset _ _ _, indexChanges_cleared _ _ _, ?_, ?_⟩
    · simp only [indexChanges, MNode.children]
      exact hspec.1
    · intro i s o v h
      simp only [MNode.children] at h
      have h5 := hspec.2 i s o v h
      simp only [indexChanges, MNode.children]
      refine ⟨h5.1, ?_⟩
      intro m2 hm2 hc2
      obtain ⟨off, m', h6, _, h8⟩ := h5.2 m2 hm2 hc2
      exact ⟨off, m', h6, h8⟩

/-- Witness for `indexChanges_spec` at a concrete node: one unchanged
child, one changed child, one unmaterialised child. -/
theorem indexChanges_spec_witness :
    (indexChanges (.mk true [(3, 1, some (.mk false [])),
        (0, 0, some (.mk true [(5, 2, none)])), (7, 9, none)]) 42 []).2.1
      = ([] : List MCell).length ∧
    (indexChanges (.mk true [(3, 1, some (.mk false [])),
        (0, 0, some (.mk true [(5, 2, none)])), (7, 9, none)]) 42 []).2.2.changed
      = false ∧
    (indexChanges (.mk true [(3, 1, some (.mk false [])),
        (0, 0, some (.mk true [(5, 2, none)])),
        (7, 9, none)]) 42 []).2.2.children.length
      = (MNode.mk true [(3, 1, some (.mk false [])),
          (0, 0, some (.mk true [(5, 2, none)])), (7, 9, none)]).children.length ∧
    ∀ (i s o : Nat) (v : Option MNode),
      (MNode.mk true [(3, 1, some (.mk false [])),
        (0, 0, some (.mk true [(5, 2, none)])),
        (7, 9, none)]).children[i]? = some (s, o, v) →
      ((∀ m, v = some m → m.changed = false) →
        (indexChanges (.mk true [(3, 1, some (.mk false [])),
          (0, 0, some (.mk true [(5, 2, none)])),
          (7, 9, none)]) 42 []).2.2.children[i]? = some (s, o, v)) ∧
      (∀ m, v = some m → m.changed = true →
        ∃ (off : Nat) (m' : MNode),
          (indexChanges (.mk true [(3, 1, some (.mk false [])),
            (0, 0, some (.mk true [(5, 2, none)])),
            (7, 9, none)]) 42 []).2.2.children[i]? = some (42, off, some m') ∧
          (indexChanges (.mk true [(3, 1, some (.mk false [])),
            (0, 0, some (.mk true [(5, 2, none)])),
            (7, 9, none)]) 42 []).1[off]? = some (some (42, off, some m'))) :=
  indexChanges_spec (.mk true [(3, 1, some (.mk false [])),
    (0, 0, some (.mk true [(5, 2, none)])), (7, 9, none)]) 42 []

/-! ### C1 stage A: toolkit for the well-formedness predicate -/

@[simp] theorem inorder_leaf {ch : Bool} {ks : List (Nat × K)} :
    inorder (.mk ch ks []) = ks := by
  rw [inorder]

@[simp] theorem inorder_internal {ch : Bool} {ks : List (Nat × K)}
    {c : TreeNode K} {cs : List (TreeNode K)} :
    inorder (.mk ch ks (c :: cs)) = inorder c ++ inorderSeq ks cs := by
  rw [inorder]

@[simp] theorem inorderSeq_nil {cs : List (TreeNode K)} :
    inorderSeq ([] : List (Nat × K)) cs = [] := by
  rw [inorderSeq]

@[simp] theorem inorderSeq_cons_nil {k : Nat × K} {ks : List (Nat × K)} :
    inorderSeq (k :: ks) ([] : List (TreeNode K)) = k :: ks := by
  rw [inorderSeq]

@[simp] theorem inorderSeq_cons_cons {k : Nat × K} {ks : List (Nat × K)}
    {c : TreeNode K} {cs : List (TreeNode K)} :
    inorderSeq (k :: ks) (c :: cs) = k :: (inorder c ++ inorderSeq ks cs) := by
  rw [inorderSeq]

theorem bnd_none_none (x : K) : bnd none none x := by
  constructor <;> simp

theorem bnd_lo_lt {hi : Option K} {y x : K} (h : bnd (some y) hi x) : y < x :=
  h.1 y rfl

theorem bnd_hi_lt {lo : Option K} {y x : K} (h : bnd lo (some y) x) : x < y :=
  h.2 y rfl

/-- Widen the lower bound of `x` from `some y` to anything below `y`. -/
theorem bnd_widen_lo {lo hi : Option K} {y x : K} (h : bnd (some y) hi x)
    (h2 : ∀ b ∈ lo, b < y) : bnd lo hi x := by
  refine ⟨fun b hb => lt_trans (h2 b hb) (bnd_lo_lt h), h.2⟩

/-- Widen the upper bound of `x` from `some y` to anything above `y`. -/
theorem bnd_widen_hi {lo hi : Option K} {y x : K} (h : bnd lo (some y) x)
    (h2 : ∀ b ∈ hi, y < b) : bnd lo hi x := by
  refine ⟨h.1, fun b hb => lt_trans (bnd_hi_lt h) (h2 b hb)⟩

/-- The top-level key-count lower bound is monotone. -/
theorem WF_mono {lo hi : Option K} {h mn mn' : Nat} {t : TreeNode K}
    (hwf : WF lo hi h mn t) (hle : mn' ≤ mn) : WF lo hi h mn' t := by
  match t with
  | .mk ch ks [] =>
    rw [WF] at hwf ⊢
    exact ⟨hwf.1, le_trans hle hwf.2.1, hwf.2.2⟩
  | .mk ch ks (c :: cs) =>
    rw [WF] at hwf ⊢
    exact ⟨hwf.1, le_trans hle hwf.2.1, hwf.2.2⟩

/-- Pointwise monotonicity of the per-position key minimum. -/
theorem WFSeq_mono {mnAt mnAt' : Nat → Nat} (hle : ∀ j', mnAt' j' ≤ mnAt j') :
    ∀ {ks : List (Nat × K)} {cs : List (TreeNode K)} {lo hi : Option K}
      {h j : Nat} {c : TreeNode K},
    WFSeq lo hi h mnAt j c ks cs → WFSeq lo hi h mnAt' j c ks cs := by
  intro ks
  induction ks with
  | nil =>
    intro cs lo hi h j c hseq
    match cs with
    | [] =>
      rw [WFSeq] at hseq ⊢
      exact WF_mono hseq (hle j)
    | c' :: cs =>
      rw [WFSeq] at hseq
      exact hseq.elim
  | cons k ks ih =>
    intro cs lo hi h j c hseq
    match cs with
    | [] =>
      rw [WFSeq] at hseq
      exact hseq.elim
    | c' :: cs =>
      rw [WFSeq] at hseq ⊢
      exact ⟨WF_mono hseq.1 (hle j), hseq.2.1, ih hseq.2.2⟩

/-- A well-formed interleaving has one child per key plus one. -/
theorem WFSeq_len {mnAt : Nat → Nat} :
    ∀ {ks : List (Nat × K)} {cs : List (TreeNode K)} {lo hi : Option K}
      {h j : Nat} {c : TreeNode K},
    WFSeq lo hi h mnAt j c ks cs → cs.length = ks.length := by
  intro ks
  induction ks with
  | nil =>
    intro cs lo hi h j c hseq
    match cs with
    | [] => rfl
    | c' :: cs =>
      rw [WFSeq] at hseq
      exact hseq.elim
  | cons k ks ih =>
    intro cs lo hi h j c hseq
    match cs with
    | [] =>
      rw [WFSeq] at hseq
      exact hseq.elim
    | c' :: cs =>
      rw [WFSeq] at hseq
      simp only [List.length_cons]
      rw [ih hseq.2.2]

/-- The separating keys of a well-formed interleaving are sorted and
within the outer bounds. -/
theorem WFSeq_keys {mnAt : Nat → Nat} :
    ∀ {ks : List (Nat × K)} {cs : List (TreeNode K)} {lo hi : Option K}
      {h j : Nat} {c : TreeNode K},
    WFSeq lo hi h mnAt j c ks cs →
    ks.Pairwise (fun a b => a.2 < b.2) ∧ ∀ k ∈ ks, bnd lo hi k.2 := by
  intro ks
  induction ks with
  | nil =>
    intro cs lo hi h j c _
    exact ⟨List.Pairwise.nil, by simp⟩
  | cons k ks ih =>
    intro cs lo hi h j c hseq
    match cs with
    | [] =>
      rw [WFSeq] at hseq
      exact hseq.elim
    | c' :: cs =>
      rw [WFSeq] at hseq
      obtain ⟨hwf, hbnd, hrest⟩ := hseq
      obtain ⟨hpw, hbs⟩ := ih hrest
      have hgt : ∀ k' ∈ ks, k.2 < k'.2 := by
        intro k' hk'
        exact bnd_lo_lt (hbs k' hk')
      refine ⟨List.Pairwise.cons hgt hpw, ?_⟩
      intro k' hk'
      rcases List.mem_cons.mp hk' with rfl | hk2
      · exact hbnd
      · exact bnd_widen_lo (hbs k' hk2) (fun b hb => (hbnd.1 b hb))

/-- Every key reference in a well-formed subtree (and in a well-formed
interleaving) lies strictly between the outer bounds. -/
theorem inorder_bnd_all (N : Nat) :
    (∀ t : TreeNode K, sizeOf t ≤ N → ∀ (lo hi : Option K) (h mn : Nat),
      WF lo hi h mn t → ∀ e ∈ inorder t, bnd lo hi e.2) ∧
    (∀ (c : TreeNode K) (ks : List (Nat × K)) (cs : List (TreeNode K)),
      sizeOf c + sizeOf cs ≤ N →
      ∀ (lo hi : Option K) (h : Nat) (mnAt : Nat → Nat) (j : Nat),
      WFSeq lo hi h mnAt j c ks cs →
      ∀ e ∈ inorder c ++ inorderSeq ks cs, bnd lo hi e.2) := by
  induction N using Nat.strong_induction_on with
  | _ N ih =>
    constructor
    · intro t hsz lo hi h mn hwf e he
      match t with
      | .mk ch ks [] =>
        rw [WF] at hwf
        rw [inorder_leaf] at he
        exact hwf.2.2.2.2 e he
      | .mk ch ks (c :: cs) =>
        rw [WF] at hwf
        rw [inorder_internal] at he
        have hlt : sizeOf c + sizeOf cs < N := by
          simp only [TreeNode.mk.sizeOf_spec, List.cons.sizeOf_spec] at hsz
          omega
        exact (ih (sizeOf c + sizeOf cs) hlt).2 c ks cs (le_refl _) lo hi
          (h - 1) mnK 0 hwf.2.2.2 e he
    · intro c ks cs hsz lo hi h mnAt j hseq e he
      match ks, cs with
      | [], [] =>
        rw [WFSeq] at hseq
        rw [inorderSeq_nil, List.append_nil] at he
        have hlt : sizeOf c < N := by
          simp only [List.nil.sizeOf_spec] at hsz
          omega
        exact (ih (sizeOf c) hlt).1 c (le_refl _) lo hi h (mnAt j) hseq e he
      | [], c' :: cs =>
        rw [WFSeq] at hseq
        exact hseq.elim
      | k :: ks, [] =>
        rw [WFSeq] at hseq
        exact hseq.elim
      | k :: ks, c' :: cs =>
        rw [WFSeq] at hseq
        obtain ⟨hwf, hbnd, hrest⟩ := hseq
        rw [inorderSeq_cons_cons] at he
        have hc : sizeOf c < N := by
          simp only [List.cons.sizeOf_spec] at hsz
          omega
        have hrest_sz : sizeOf c' + sizeOf cs < N := by
          simp only [List.cons.sizeOf_spec] at hsz
          have h1 : 1 ≤ sizeOf c := by
            match c with
            | .mk ch2 ks2 cs2 =>
              simp only [TreeNode.mk.sizeOf_spec]
              omega
          omega
        rcases List.mem_append.mp he with hl | hr
        · exact bnd_widen_hi ((ih (sizeOf c) hc).1 c (le_refl _) lo (some k.2)
            h (mnAt j) hwf e hl) (fun b hb => hbnd.2 b hb)
        · rcases List.mem_cons.mp hr with rfl | hr2
          · exact hbnd
          · have := (ih (sizeOf c' + sizeOf cs) hrest_sz).2 c' ks cs
              (le_refl _) (some k.2) hi h mnAt (j + 1) hrest e hr2
            exact bnd_widen_lo this (fun b hb => hbnd.1 b hb)

/-- Bounds on a whole subtree's entries. -/
theorem WF_inorder_bnd {lo hi : Option K} {h mn : Nat} {t : TreeNode K}
    (hwf : WF lo hi h mn t) : ∀ e ∈ inorder t, bnd lo hi e.2 :=
  (inorder_bnd_all (sizeOf t)).1 t (le_refl _) lo hi h mn hwf

/-- Bounds on a whole interleaving's entries. -/
theorem WFSeq_inorder_bnd {lo hi : Option K} {h : Nat} {mnAt : Nat → Nat}
    {j : Nat} {c : TreeNode K} {ks : List (Nat × K)} {cs : List (TreeNode K)}
    (hseq : WFSeq lo hi h mnAt j c ks cs) :
    ∀ e ∈ inorder c ++ inorderSeq ks cs, bnd lo hi e.2 :=
  (inorder_bnd_all (sizeOf c + sizeOf cs)).2 c ks cs (le_refl _) lo hi h
    mnAt j hseq

/-- The in-order key sequence of a well-formed subtree (and of a
well-formed interleaving) is strictly sorted by key value. -/
theorem inorder_sorted_all (N : Nat) :
    (∀ t : TreeNode K, sizeOf t ≤ N → ∀ (lo hi : Option K) (h mn : Nat),
      WF lo hi h mn t → (inorder t).Pairwise (fun a b => a.2 < b.2)) ∧
    (∀ (c : TreeNode K) (ks : List (Nat × K)) (cs : List (TreeNode K)),
      sizeOf c + sizeOf cs ≤ N →
      ∀ (lo hi : Option K) (h : Nat) (mnAt : Nat → Nat) (j : Nat),
      WFSeq lo hi h mnAt j c ks cs →
      (inorder c ++ inorderSeq ks cs).Pairwise (fun a b => a.2 < b.2)) := by
  induction N using Nat.strong_induction_on with
  | _ N ih =>
    constructor
    · intro t hsz lo hi h mn hwf
      match t with
      | .mk ch ks [] =>
        rw [WF] at hwf
        rw [inorder_leaf]
        exact hwf.2.2.2.1
      | .mk ch ks (c :: cs) =>
        rw [WF] at hwf
        rw [inorder_internal]
        have hlt : sizeOf c + sizeOf cs < N := by
          simp only [TreeNode.mk.sizeOf_spec, List.cons.sizeOf_spec] at hsz
          omega
        exact (ih (sizeOf c + sizeOf cs) hlt).2 c ks cs (le_refl _) lo hi
          (h - 1) mnK 0 hwf.2.2.2
    · intro c ks cs hsz lo hi h mnAt j hseq
      match ks, cs with
      | [], [] =>
        rw [WFSeq] at hseq
        rw [inorderSeq_nil, List.append_nil]
        have hlt : sizeOf c < N := by
          simp only [List.nil.sizeOf_spec] at hsz
          omega
        exact (ih (sizeOf c) hlt).1 c (le_refl _) lo hi h (mnAt j) hseq
      | [], c' :: cs =>
        rw [WFSeq] at hseq
        exact hseq.elim
      | k :: ks, [] =>
        rw [WFSeq] at hseq
        exact hseq.elim
      | k :: ks, c' :: cs =>
        rw [WFSeq] at hseq
        obtain ⟨hwf, hbnd, hrest⟩ := hseq
        rw [inorderSeq_cons_cons]
        have hc : sizeOf c < N := by
          simp only [List.cons.sizeOf_spec] at hsz
          omega
        have hrest_sz : sizeOf c' + sizeOf cs < N := by
          simp only [List.cons.sizeOf_spec] at hsz
          have h1 : 1 ≤ sizeOf c := by
            match c with
            | .mk ch2 ks2 cs2 =>
              simp only [TreeNode.mk.sizeOf_spec]
              omega
          omega
        rw [List.pairwise_append]
        refine ⟨(ih (sizeOf c) hc).1 c (le_refl _) lo (some k.2) h (mnAt j)
          hwf, ?_, ?_⟩
        · rw [List.pairwise_cons]
          refine ⟨?_, (ih (sizeOf c' + sizeOf cs) hrest_sz).2 c' ks cs
            (le_refl _) (some k.2) hi h mnAt (j + 1) hrest⟩
          intro e he
          exact bnd_lo_lt ((inorder_bnd_all (sizeOf c' + sizeOf cs)).2
            c' ks cs (le_refl _) (some k.2) hi h mnAt (j + 1) hrest e he)
        · intro a ha b hb
          have hak : a.2 < k.2 :=
            bnd_hi_lt (WF_inorder_bnd hwf a ha)
          rcases List.mem_cons.mp hb with rfl | hb2
          · exact hak
          · have hkb : k.2 < b.2 :=
              bnd_lo_lt ((inorder_bnd_all (sizeOf c' + sizeOf cs)).2
                c' ks cs (le_refl _) (some k.2) hi h mnAt (j + 1) hrest b hb2)
            exact lt_trans hak hkb

/-- Sortedness of a whole subtree's in-order entries. -/
theorem WF_inorder_sorted {lo hi : Option K} {h mn : Nat} {t : TreeNode K}
    (hwf : WF lo hi h mn t) :
    (inorder t).Pairwise (fun a b => a.2 < b.2) :=
  (inorder_sorted_all (sizeOf t)).1 t (le_refl _) lo hi h mn hwf

/-! ### C1 stage B: reading the tree is reading its in-order sequence -/

/-- In a strictly sorted entry sequence, a member with the probed key
value is the association: `lookupList` finds exactly it. -/
theorem lookupList_of_mem_sorted {key : K} :
    ∀ {l : List (Nat × K)}, l.Pairwise (fun a b => a.2 < b.2) →
    ∀ {kv : Nat × K}, kv ∈ l → kv.2 = key → lookupList key l = some kv.1 := by
  intro l
  induction l with
  | nil =>
    intro _ kv hm
    exact absurd hm (List.not_mem_nil kv)
  | cons y ys ih =>
    intro hsort kv hm hk
    rw [List.pairwise_cons] at hsort
    rcases List.mem_cons.mp hm with rfl | hm2
    · rw [lookupList, List.find?_cons_of_pos _ (by simp [hk])]
      rfl
    · have hy : y.2 < key := hk ▸ hsort.1 kv hm2
      rw [lookupList, List.find?_cons_of_neg _ (by simp; exact ne_of_lt hy)]
      rw [lookupList] at ih
      exact ih hsort.2 hm2 hk

/-- `lookupList` misses when no entry carries the probed key value. -/
theorem lookupList_eq_none {key : K} {l : List (Nat × K)}
    (h : ∀ e ∈ l, e.2 ≠ key) : lookupList key l = none := by
  rw [lookupList, List.find?_eq_none.mpr]
  · rfl
  · intro e he
    simp only [decide_eq_true_eq]
    exact h e he

/-- Dropping a prefix with no match. -/
theorem lookupList_append_left_none {key : K} {l1 l2 : List (Nat × K)}
    (h : ∀ e ∈ l1, e.2 ≠ key) :
    lookupList key (l1 ++ l2) = lookupList key l2 := by
  have h1 : l1.find? (fun e => decide (e.2 = key)) = none := by
    rw [List.find?_eq_none]
    intro e he
    simp only [decide_eq_true_eq]
    exact h e he
  rw [lookupList, lookupList, List.find?_append, h1, Option.none_or]

/-- Dropping a suffix with no match. -/
theorem lookupList_append_right_none {key : K} {l1 l2 : List (Nat × K)}
    (h : ∀ e ∈ l2, e.2 ≠ key) :
    lookupList key (l1 ++ l2) = lookupList key l1 := by
  have h2 : l2.find? (fun e => decide (e.2 = key)) = none := by
    rw [List.find?_eq_none]
    intro e he
    simp only [decide_eq_true_eq]
    exact h e he
  rw [lookupList, lookupList, List.find?_append, h2, Option.or_none]

/-- The separating keys all appear in the interleaved sequence. -/
theorem keys_subset_inorderSeq :
    ∀ {ks : List (Nat × K)} {cs : List (TreeNode K)} {k : Nat × K},
    k ∈ ks → k ∈ inorderSeq ks cs := by
  intro ks
  induction ks with
  | nil =>
    intro cs k hm
    exact absurd hm (List.not_mem_nil k)
  | cons k0 ks ih =>
    intro cs k hm
    match cs with
    | [] =>
      rw [inorderSeq_cons_nil]
      exact hm
    | c :: cs =>
      rw [inorderSeq_cons_cons]
      rcases List.mem_cons.mp hm with rfl | hm2
      · exact List.mem_cons_self _ _
      · exact List.mem_cons_of_mem _ (List.mem_append_right _ (ih hm2))

/-- The descent of `Batch.get` reads exactly the in-order association:
on a well-formed subtree (or interleaving, descending at index `i`),
`lookupSeq` returns what `lookupList` returns on the in-order entries. -/
theorem lookupSeq_eq_all (key : K) (N : Nat) :
    (∀ t : TreeNode K, sizeOf t ≤ N → ∀ (lo hi : Option K) (h mn : Nat),
      WF lo hi h mn t → lookupSeq key t = lookupList key (inorder t)) ∧
    (∀ (c : TreeNode K) (ks : List (Nat × K)) (cs : List (TreeNode K)),
      sizeOf c + sizeOf cs ≤ N →
      ∀ (lo hi : Option K) (h : Nat) (mnAt : Nat → Nat) (j : Nat),
      WFSeq lo hi h mnAt j c ks cs →
      ∀ i, i ≤ ks.length →
      (∀ p (hp : p < ks.length), p < i → ks[p].2 < key) →
      (∀ p (hp : p < ks.length), i ≤ p → key < ks[p].2) →
      ∃ child, (c :: cs)[i]? = some child ∧
        lookupList key (inorder c ++ inorderSeq ks cs) =
          lookupSeq key child) := by
  induction N using Nat.strong_induction_on with
  | _ N ih =>
    constructor
    · intro t hsz lo hi h mn hwf
      match t with
      | .mk ch ks [] =>
        rw [WF] at hwf
        rw [inorder_leaf, lookupSeq]
        rcases hb : bsearch key ks with mid | i
        · simp only [hb]
          obtain ⟨kv, h1, h2, h3⟩ := bsearch_inl hb
          rw [h1, Option.map_some']
          exact (lookupList_of_mem_sorted hwf.2.2.2.1
            (List.getElem?_mem h1) h2).symm
        · simp only [hb]
          obtain ⟨hle, hbefore, hafter⟩ := bsearch_inr hwf.2.2.2.1 hb
          refine (lookupList_eq_none ?_).symm
          intro e he
          obtain ⟨p, hp, rfl⟩ := List.getElem_of_mem he
          rcases Nat.lt_or_ge p i with hlt | hge
          · exact ne_of_lt (hbefore p hp hlt)
          · exact ne_of_gt (hafter p hp hge)
      | .mk ch ks (c :: cs) =>
        rw [WF] at hwf
        have hsort : ks.Pairwise (fun a b => a.2 < b.2) :=
          (WFSeq_keys hwf.2.2.2).1
        rw [inorder_internal, lookupSeq]
        rcases hb : bsearch key ks with mid | i
        · simp only [hb]
          obtain ⟨kv, h1, h2, h3⟩ := bsearch_inl hb
          rw [h1, Option.map_some']
          have hsorted :
              (inorder c ++ inorderSeq ks cs).Pairwise
                (fun a b => a.2 < b.2) :=
            (inorder_sorted_all (sizeOf c + sizeOf cs)).2 c ks cs
              (le_refl _) lo hi (h - 1) mnK 0 hwf.2.2.2
          exact (lookupList_of_mem_sorted hsorted
            (List.mem_append_right _
              (keys_subset_inorderSeq (List.getElem?_mem h1))) h2).symm
        · simp only [hb]
          obtain ⟨hle, hbefore, hafter⟩ := bsearch_inr hsort hb
          have hlt : sizeOf c + sizeOf cs < N := by
            simp only [TreeNode.mk.sizeOf_spec, List.cons.sizeOf_spec] at hsz
            omega
          obtain ⟨child, hchild, heq⟩ :=
            (ih (sizeOf c + sizeOf cs) hlt).2 c ks cs (le_refl _) lo hi
              (h - 1) mnK 0 hwf.2.2.2 i hle hbefore hafter
          split
          · rename_i heq2
            rw [hchild] at heq2
            exact absurd heq2 (by simp)
          · rename_i child2 heq2
            rw [hchild] at heq2
            obtain rfl : child = child2 := Option.some.inj heq2
            exact heq.symm
    · intro c ks cs hsz lo hi h mnAt j hseq i hile hbefore hafter
      match ks, cs with
      | [], [] =>
        rw [WFSeq] at hseq
        have hi0 : i = 0 := by
          simp only [List.length_nil] at hile
          omega
        subst hi0
        refine ⟨c, rfl, ?_⟩
        rw [inorderSeq_nil, List.append_nil]
        have hlt : sizeOf c < N := by
          simp only [List.nil.sizeOf_spec] at hsz
          omega
        exact ((ih (sizeOf c) hlt).1 c (le_refl _) lo hi h (mnAt j)
          hseq).symm
      | [], c' :: cs =>
        rw [WFSeq] at hseq
        exact hseq.elim
      | k :: ks, [] =>
        rw [WFSeq] at hseq
        exact hseq.elim
      | k :: ks, c' :: cs =>
        rw [WFSeq] at hseq
        obtain ⟨hwf, hbnd, hrest⟩ := hseq
        have hc : sizeOf c < N := by
          simp only [List.cons.sizeOf_spec] at hsz
          omega
        have hrest_sz : sizeOf c' + sizeOf cs < N := by
          simp only [List.cons.sizeOf_spec] at hsz
          have h1 : 1 ≤ sizeOf c := by
            match c with
            | .mk ch2 ks2 cs2 =>
              simp only [TreeNode.mk.sizeOf_spec]
              omega
          omega
        rcases i with _ | p
        · refine ⟨c, rfl, ?_⟩
          have hkey0 : key < k.2 := by
            have := hafter 0 (by simp) (Nat.zero_le _)
            simpa using this
          rw [inorderSeq_cons_cons]
          rw [lookupList_append_right_none]
          · exact ((ih (sizeOf c) hc).1 c (le_refl _) lo (some k.2) h
              (mnAt j) hwf).symm
          · intro e he
            rcases List.mem_cons.mp he with rfl | he2
            · exact ne_of_gt hkey0
            · have hbe := WFSeq_inorder_bnd hrest e he2
              exact ne_of_gt (lt_trans hkey0 (bnd_lo_lt hbe))
        · have hk0 : k.2 < key := by
            have := hbefore 0 (by simp) (Nat.succ_pos p)
            simpa using this
          have hex := (ih (sizeOf c' + sizeOf cs) hrest_sz).2 c' ks cs
            (le_refl _) (some k.2) hi h mnAt (j + 1) hrest p
            (by simp only [List.length_cons] at hile; omega)
            (fun q hq hqp => by
              have := hbefore (q + 1) (by simpa using Nat.succ_lt_succ hq)
                (Nat.succ_lt_succ hqp)
              simpa using this)
            (fun q hq hqp => by
              have := hafter (q + 1) (by simpa using Nat.succ_lt_succ hq)
                (Nat.succ_le_succ hqp)
              simpa using this)
          obtain ⟨child, hchild, heq⟩ := hex
          refine ⟨child, by simpa using hchild, ?_⟩
          rw [inorderSeq_cons_cons]
          rw [show inorder c ++
              (k :: (inorder c' ++ inorderSeq ks cs)) =
              (inorder c ++ [k]) ++ (inorder c' ++ inorderSeq ks cs) by
            simp]
          rw [lookupList_append_left_none, heq]
          intro e he
          rcases List.mem_append.mp he with he1 | he2
          · have hbe := WF_inorder_bnd hwf e he1
            exact ne_of_lt (lt_trans (bnd_hi_lt hbe) hk0)
          · have : e = k := List.mem_singleton.mp he2
            subst this
            exact ne_of_lt hk0

/-! ### C1 stage C: sorted-insertion list lemmas -/

/-- Entries of `insList x l` come from `l` or are `x`. -/
theorem mem_insList {x : Nat × K} :
    ∀ {l : List (Nat × K)} {e : Nat × K}, e ∈ insList x l → e = x ∨ e ∈ l := by
  intro l
  induction l with
  | nil =>
    intro e he
    rw [insList] at he
    exact Or.inl (List.mem_singleton.mp he)
  | cons y ys ih =>
    intro e he
    rw [insList] at he
    split_ifs at he with h1 h2
    · rcases List.mem_cons.mp he with rfl | he2
      · exact Or.inl rfl
      · exact Or.inr he2
    · rcases List.mem_cons.mp he with rfl | he2
      · exact Or.inr (List.mem_cons_self _ _)
      · rcases ih he2 with rfl | he3
        · exact Or.inl rfl
        · exact Or.inr (List.mem_cons_of_mem _ he3)
    · rcases List.mem_cons.mp he with rfl | he2
      · exact Or.inl rfl
      · exact Or.inr (List.mem_cons_of_mem _ he2)

/-- Sorted insertion preserves strict sortedness. -/
theorem insList_sorted {x : Nat × K} :
    ∀ {l : List (Nat × K)}, l.Pairwise (fun a b => a.2 < b.2) →
    (insList x l).Pairwise (fun a b => a.2 < b.2) := by
  intro l
  induction l with
  | nil =>
    intro _
    rw [insList]
    exact List.pairwise_singleton _ _
  | cons y ys ih =>
    intro hsort
    rw [List.pairwise_cons] at hsort
    rw [insList]
    split_ifs with h1 h2
    · refine List.Pairwise.cons ?_ (List.Pairwise.cons hsort.1 hsort.2)
      intro e he
      rcases List.mem_cons.mp he with rfl | he2
      · exact h1
      · exact lt_trans h1 (hsort.1 e he2)
    · refine List.Pairwise.cons ?_ (ih hsort.2)
      intro e he
      rcases mem_insList he with rfl | he2
      · exact h2
      · exact hsort.1 e he2
    · have hxy : x.2 = y.2 := le_antisymm (not_lt.mp h2) (not_lt.mp h1)
      refine List.Pairwise.cons ?_ hsort.2
      intro e he
      rw [hxy]
      exact hsort.1 e he

/-- Sorted insertion stays within bounds enclosing both list and key. -/
theorem insList_bnd {lo hi : Option K} {x : Nat × K} {l : List (Nat × K)}
    (hl : ∀ e ∈ l, bnd lo hi e.2) (hx : bnd lo hi x.2) :
    ∀ e ∈ insList x l, bnd lo hi e.2 := by
  intro e he
  rcases mem_insList he with rfl | he2
  · exact hx
  · exact hl e he2

/-- Sorted insertion grows the list by at most one entry (exactly one
when the key value is new, none when it replaces). -/
theorem insList_length {x : Nat × K} :
    ∀ {l : List (Nat × K)},
    l.length ≤ (insList x l).length ∧ (insList x l).length ≤ l.length + 1 := by
  intro l
  induction l with
  | nil =>
    rw [insList]
    simp
  | cons y ys ih =>
    rw [insList]
    split_ifs with h1 h2
    · simp
    · simp only [List.length_cons]
      omega
    · simp

/-- Sorted insertion lands left of a strictly larger tail. -/
theorem insList_append_left {x : Nat × K} {l2 : List (Nat × K)}
    (h2 : ∀ e ∈ l2, x.2 < e.2) :
    ∀ {l1 : List (Nat × K)}, insList x (l1 ++ l2) = insList x l1 ++ l2 := by
  intro l1
  induction l1 with
  | nil =>
    simp only [List.nil_append]
    match l2 with
    | [] => rfl
    | y :: ys =>
      rw [insList, insList, if_pos (h2 y (List.mem_cons_self _ _))]
      rfl
  | cons y ys ih =>
    rw [List.cons_append, insList, insList]
    split_ifs
    · rfl
    · rw [List.cons_append, ih]
    · rfl

/-- Sorted insertion lands right of a strictly smaller prefix. -/
theorem insList_append_right {x : Nat × K} {l2 : List (Nat × K)} :
    ∀ {l1 : List (Nat × K)}, (∀ e ∈ l1, e.2 < x.2) →
    insList x (l1 ++ l2) = l1 ++ insList x l2 := by
  intro l1
  induction l1 with
  | nil =>
    intro _
    simp
  | cons y ys ih =>
    intro h1
    have hy : y.2 < x.2 := h1 y (List.mem_cons_self _ _)
    rw [List.cons_append, insList, if_neg (by exact not_lt.mpr (le_of_lt hy)),
      if_pos hy, ih (fun e he => h1 e (List.mem_cons_of_mem _ he)),
      List.cons_append]

/-- At the insertion index characterised by the binary-search frames,
sorted insertion is exactly `insertIdx`. -/
theorem insList_eq_insertIdx {x : Nat × K} :
    ∀ {ks : List (Nat × K)} {i : Nat}, i ≤ ks.length →
    (∀ p (hp : p < ks.length), p < i → ks[p].2 < x.2) →
    (∀ p (hp : p < ks.length), i ≤ p → x.2 < ks[p].2) →
    insList x ks = ks.insertIdx i x := by
  intro ks
  induction ks with
  | nil =>
    intro i hile _ _
    have hi0 : i = 0 := by simpa using hile
    subst hi0
    rfl
  | cons y ys ih =>
    intro i hile hbefore hafter
    rcases i with _ | p
    · have hy : x.2 < y.2 := by
        have := hafter 0 (by simp) (Nat.zero_le _)
        simpa using this
      rw [insList, if_pos hy, List.insertIdx_zero]
    · have hy : y.2 < x.2 := by
        have := hbefore 0 (by simp) (Nat.succ_pos p)
        simpa using this
      rw [insList, if_neg (by exact not_lt.mpr (le_of_lt hy)), if_pos hy,
        List.insertIdx_succ_cons]
      congr 1
      refine ih (by simpa using hile) ?_ ?_
      · intro q hq hqp
        have := hbefore (q + 1) (by simpa using Nat.succ_lt_succ hq)
          (Nat.succ_lt_succ hqp)
        simpa using this
      · intro q hq hqp
        have := hafter (q + 1) (by simpa using Nat.succ_lt_succ hq)
          (Nat.succ_le_succ hqp)
        simpa using this

/-- At an exact hit, sorted insertion is replacement in place. -/
theorem insList_eq_set {x : Nat × K} :
    ∀ {ks : List (Nat × K)} {mid : Nat} {kv : Nat × K},
    ks.Pairwise (fun a b => a.2 < b.2) → ks[mid]? = some kv → x.2 = kv.2 →
    insList x ks = ks.set mid x := by
  intro ks
  induction ks with
  | nil =>
    intro mid kv _ hkv _
    simp at hkv
  | cons y ys ih =>
    intro mid kv hsort hkv hx
    rw [List.pairwise_cons] at hsort
    rcases mid with _ | p
    · simp only [List.getElem?_cons_zero, Option.some.injEq] at hkv
      subst hkv
      rw [insList, if_neg (by rw [hx]; exact lt_irrefl _),
        if_neg (by rw [hx]; exact lt_irrefl _)]
      rfl
    · simp only [List.getElem?_cons_succ] at hkv
      have hyx : y.2 < x.2 := by
        rw [hx]
        exact hsort.1 kv (List.getElem?_mem hkv)
      rw [insList, if_neg (by exact not_lt.mpr (le_of_lt hyx)), if_pos hyx,
        List.set_cons_succ, ih hsort.2 hkv hx]

/-- The position markers in a constant-minimum interleaving are
immaterial. -/
theorem WFSeq_mnK_shift :
    ∀ {ks : List (Nat × K)} {cs : List (TreeNode K)} {lo hi : Option K}
      {h j j' : Nat} {c : TreeNode K},
    WFSeq lo hi h mnK j c ks cs → WFSeq lo hi h mnK j' c ks cs := by
  intro ks
  induction ks with
  | nil =>
    intro cs lo hi h j j' c hseq
    match cs with
    | [] =>
      rw [WFSeq] at hseq ⊢
      simpa [mnK] using hseq
    | c' :: cs =>
      rw [WFSeq] at hseq
      exact hseq.elim
  | cons k ks ih =>
    intro cs lo hi h j j' c hseq
    match cs with
    | [] =>
      rw [WFSeq] at hseq
      exact hseq.elim
    | c' :: cs =>
      rw [WFSeq] at hseq ⊢
      refine ⟨by simpa [mnK] using hseq.1, hseq.2.1, ih hseq.2.2⟩

/-- The binary-search frames pin the miss result: a search over a
sorted key list with the probe strictly between positions `i - 1` and
`i` returns exactly insertion index `i`. -/
theorem bsearch_inr_unique {key : K} {ks : List (Nat × K)} {i : Nat}
    (hsort : ks.Pairwise (fun a b => a.2 < b.2)) (hile : i ≤ ks.length)
    (hbefore : ∀ p (hp : p < ks.length), p < i → ks[p].2 < key)
    (hafter : ∀ p (hp : p < ks.length), i ≤ p → key < ks[p].2) :
    bsearch key ks = Sum.inr i := by
  rcases h : bsearch key ks with mid | i'
  · exfalso
    obtain ⟨kv, h1, h2, h3⟩ := bsearch_inl h
    have hkv : ks[mid] = kv := by
      rw [List.getElem?_eq_getElem h3] at h1
      exact Option.some.inj h1
    rcases Nat.lt_or_ge mid i with hlt | hge
    · have := hbefore mid h3 hlt
      rw [hkv, h2] at this
      exact lt_irrefl _ this
    · have := hafter mid h3 hge
      rw [hkv, h2] at this
      exact lt_irrefl _ this
  · obtain ⟨hle', hb', ha'⟩ := bsearch_inr hsort h
    have : i' = i := by
      by_contra hne
      rcases Nat.lt_or_ge i' i with hlt | hge
      · have hi' : i' < ks.length := by omega
        have := hbefore i' hi' hlt
        have := ha' i' hi' (le_refl _)
        exact absurd (lt_trans ‹ks[i'].2 < key› ‹key < ks[i'].2›)
          (lt_irrefl _)
      · have hii : i < i' := by omega
        have hi2 : i < ks.length := by omega
        have := hafter i hi2 (le_refl _)
        have := hb' i hi2 hii
        exact absurd (lt_trans ‹key < ks[i].2› ‹ks[i].2 < key›)
          (lt_irrefl _)
    rw [this]

/-! ### C1 stage D: chain surgery for `put` -/

/-- Replacing a separating key in place by a pair with the same key
value keeps the interleaving well-formed and acts as sorted insertion
on the in-order entries. -/
theorem WFSeq_setKey {x : Nat × K} :
    ∀ {ks : List (Nat × K)} {cs : List (TreeNode K)} {lo hi : Option K}
      {h j : Nat} {c : TreeNode K} {mid : Nat} {kv : Nat × K},
    WFSeq lo hi h mnK j c ks cs → ks[mid]? = some kv → x.2 = kv.2 →
    WFSeq lo hi h mnK j c (ks.set mid x) cs ∧
      inorder c ++ inorderSeq (ks.set mid x) cs =
        insList x (inorder c ++ inorderSeq ks cs) := by
  intro ks
  induction ks with
  | nil =>
    intro cs lo hi h j c mid kv _ hkv _
    simp at hkv
  | cons k ks ih =>
    intro cs lo hi h j c mid kv hseq hkv hx
    match cs with
    | [] =>
      rw [WFSeq] at hseq
      exact hseq.elim
    | c' :: cs =>
      rw [WFSeq] at hseq
      obtain ⟨hwf, hbnd, hrest⟩ := hseq
      rcases mid with _ | p
      · simp only [List.getElem?_cons_zero, Option.some.injEq] at hkv
        subst hkv
        constructor
        · rw [List.set_cons_zero, WFSeq]
          refine ⟨by rw [hx]; exact hwf, ?_, by rw [hx]; exact hrest⟩
          show bnd lo hi x.2
          rw [hx]
          exact hbnd
        · rw [List.set_cons_zero, inorderSeq_cons_cons, inorderSeq_cons_cons]
          have hsmall : ∀ e ∈ inorder c, e.2 < x.2 := by
            intro e he
            rw [hx]
            exact bnd_hi_lt (WF_inorder_bnd hwf e he)
          rw [insList_append_right hsmall, insList,
            if_neg (by rw [hx]; exact lt_irrefl _),
            if_neg (by rw [hx]; exact lt_irrefl _)]
      · simp only [List.getElem?_cons_succ] at hkv
        obtain ⟨hrest', heq⟩ := ih hrest hkv hx
        have hk2 : k.2 < x.2 := by
          rw [hx]
          exact bnd_lo_lt ((WFSeq_keys hrest).2 kv (List.getElem?_mem hkv))
        constructor
        · rw [List.set_cons_succ, WFSeq]
          exact ⟨hwf, hbnd, hrest'⟩
        · rw [List.set_cons_succ, inorderSeq_cons_cons, inorderSeq_cons_cons,
            heq]
          have hsmall : ∀ e ∈ inorder c ++ [k], e.2 < x.2 := by
            intro e he
            rcases List.mem_append.mp he with he1 | he2
            · exact lt_trans (bnd_hi_lt (WF_inorder_bnd hwf e he1)) hk2
            · rw [List.mem_singleton.mp he2]
              exact hk2
          calc inorder c ++
              (k :: insList x (inorder c' ++ inorderSeq ks cs))
              = (inorder c ++ [k]) ++
                  insList x (inorder c' ++ inorderSeq ks cs) := by simp
            _ = insList x
                  ((inorder c ++ [k]) ++ (inorder c' ++ inorderSeq ks cs)) :=
                (insList_append_right hsmall).symm
            _ = insList x
                  (inorder c ++ (k :: (inorder c' ++ inorderSeq ks cs))) := by
                simp

/-- Replacing the descent child of a well-formed interleaving by any
tree that is well-formed between the same slot bounds, with the sorted
insertion of the target as its in-order entries, keeps the interleaving
well-formed and acts as sorted insertion on the whole in-order
sequence. -/
theorem put_done_chain {target : Nat × K} {child' : TreeNode K} :
    ∀ {ks : List (Nat × K)} {cs : List (TreeNode K)} {lo hi : Option K}
      {h j : Nat} {c : TreeNode K},
    WFSeq lo hi h mnK j c ks cs → bnd lo hi target.2 →
    ∀ i, i ≤ ks.length →
    (∀ p (hp : p < ks.length), p < i → ks[p].2 < target.2) →
    (∀ p (hp : p < ks.length), i ≤ p → target.2 < ks[p].2) →
    ∀ child, (c :: cs)[i]? = some child →
    (∀ lo' hi', WF lo' hi' h MIN_KEYS child → bnd lo' hi' target.2 →
       WF lo' hi' h MIN_KEYS child' ∧
       inorder child' = insList target (inorder child)) →
    ∃ c2 cs2, (c :: cs).set i child' = c2 :: cs2 ∧
      WFSeq lo hi h mnK j c2 ks cs2 ∧
      inorder c2 ++ inorderSeq ks cs2 =
        insList target (inorder c ++ inorderSeq ks cs) := by
  intro ks
  induction ks with
  | nil =>
    intro cs lo hi h j c hseq hbt i hile hbefore hafter child hchild hrepl
    match cs with
    | [] =>
      have hi0 : i = 0 := by simpa using hile
      subst hi0
      simp only [List.getElem?_cons_zero, Option.some.injEq] at hchild
      subst hchild
      rw [WFSeq] at hseq
      obtain ⟨hwf', heq⟩ := hrepl lo hi hseq hbt
      refine ⟨child', [], rfl, ?_, ?_⟩
      · rw [WFSeq]
        exact hwf'
      · simp only [inorderSeq_nil, List.append_nil]
        exact heq
    | c' :: cs =>
      rw [WFSeq] at hseq
      exact hseq.elim
  | cons k ks ih =>
    intro cs lo hi h j c hseq hbt i hile hbefore hafter child hchild hrepl
    match cs with
    | [] =>
      rw [WFSeq] at hseq
      exact hseq.elim
    | c' :: cs =>
      rw [WFSeq] at hseq
      obtain ⟨hwf, hbnd, hrest⟩ := hseq
      rcases i with _ | p
      · simp only [List.getElem?_cons_zero, Option.some.injEq] at hchild
        subst hchild
        have htk : target.2 < k.2 := by
          have := hafter 0 (by simp) (Nat.zero_le _)
          simpa using this
        obtain ⟨hwf', heq⟩ := hrepl lo (some k.2) hwf
          ⟨hbt.1, fun b hb => by rw [Option.mem_def, Option.some.injEq] at hb; rw [← hb]; exact htk⟩
        refine ⟨child', c' :: cs, rfl, ?_, ?_⟩
        · rw [WFSeq]
          exact ⟨hwf', hbnd, hrest⟩
        · rw [inorderSeq_cons_cons]
          have hbig : ∀ e ∈ k :: (inorder c' ++ inorderSeq ks cs),
              target.2 < e.2 := by
            intro e he
            rcases List.mem_cons.mp he with rfl | he2
            · exact htk
            · exact lt_trans htk (bnd_lo_lt (WFSeq_inorder_bnd hrest e he2))
          rw [insList_append_left hbig, heq]
      · simp only [List.getElem?_cons_succ] at hchild
        have hk2 : k.2 < target.2 := by
          have := hbefore 0 (by simp) (Nat.succ_pos p)
          simpa using this
        obtain ⟨c2, cs2, hset, hseq2, heq2⟩ := ih hrest
          ⟨fun b hb => by rw [Option.mem_def, Option.some.injEq] at hb; rw [← hb]; exact hk2, hbt.2⟩
          p (by simpa using hile)
          (fun q hq hqp => by
            have := hbefore (q + 1) (by simpa using Nat.succ_lt_succ hq)
              (Nat.succ_lt_succ hqp)
            simpa using this)
          (fun q hq hqp => by
            have := hafter (q + 1) (by simpa using Nat.succ_lt_succ hq)
              (Nat.succ_le_succ hqp)
            simpa using this)
          child hchild hrepl
        refine ⟨c, c2 :: cs2, by rw [List.set_cons_succ, hset], ?_, ?_⟩
        · rw [WFSeq]
          exact ⟨hwf, hbnd, hseq2⟩
        · rw [inorderSeq_cons_cons, inorderSeq_cons_cons, heq2]
          have hsmall : ∀ e ∈ inorder c ++ [k], e.2 < target.2 := by
            intro e he
            rcases List.mem_append.mp he with he1 | he2
            · exact lt_trans (bnd_hi_lt (WF_inorder_bnd hwf e he1)) hk2
            · rw [List.mem_singleton.mp he2]
              exact hk2
          calc inorder c ++
              (k :: insList target (inorder c' ++ inorderSeq ks cs))
              = (inorder c ++ [k]) ++
                  insList target (inorder c' ++ inorderSeq ks cs) := by simp
            _ = insList target
                  ((inorder c ++ [k]) ++ (inorder c' ++ inorderSeq ks cs)) :=
                (insList_append_right hsmall).symm
            _ = insList target
                  (inorder c ++ (k :: (inorder c' ++ inorderSeq ks cs))) := by
                simp

/-- Replacing the descent child of a well-formed interleaving by a
split `left / median / right` triple (the child slot takes `left`, the
median is spliced among the keys and `right` just after it) keeps the
interleaving well-formed, acts as sorted insertion on the whole
in-order sequence, and the median satisfies exactly the binary-search
frames at the descent index. -/
theorem put_split_chain {target med : Nat × K} {l r : TreeNode K} :
    ∀ {ks : List (Nat × K)} {cs : List (TreeNode K)} {lo hi : Option K}
      {h j : Nat} {c : TreeNode K},
    WFSeq lo hi h mnK j c ks cs → bnd lo hi target.2 →
    ∀ i, i ≤ ks.length →
    (∀ p (hp : p < ks.length), p < i → ks[p].2 < target.2) →
    (∀ p (hp : p < ks.length), i ≤ p → target.2 < ks[p].2) →
    ∀ child, (c :: cs)[i]? = some child →
    (∀ lo' hi', WF lo' hi' h MIN_KEYS child → bnd lo' hi' target.2 →
       WF lo' (some med.2) h MIN_KEYS l ∧ WF (some med.2) hi' h MIN_KEYS r ∧
       bnd lo' hi' med.2 ∧
       inorder l ++ med :: inorder r = insList target (inorder child)) →
    (∀ q (hq : q < ks.length), q < i → ks[q].2 < med.2) ∧
    (∀ q (hq : q < ks.length), i ≤ q → med.2 < ks[q].2) ∧
    bnd lo hi med.2 ∧
    ∃ c3 cs3, ((c :: cs).set i l).insertIdx (i + 1) r = c3 :: cs3 ∧
      WFSeq lo hi h mnK j c3 (ks.insertIdx i med) cs3 ∧
      inorder c3 ++ inorderSeq (ks.insertIdx i med) cs3 =
        insList target (inorder c ++ inorderSeq ks cs) := by
  intro ks
  induction ks with
  | nil =>
    intro cs lo hi h j c hseq hbt i hile hbefore hafter child hchild hrepl
    match cs with
    | [] =>
      have hi0 : i = 0 := by simpa using hile
      subst hi0
      simp only [List.getElem?_cons_zero, Option.some.injEq] at hchild
      subst hchild
      rw [WFSeq] at hseq
      obtain ⟨hl, hr, hbm, heq⟩ := hrepl lo hi hseq hbt
      refine ⟨by intro q hq; simp at hq, by intro q hq; simp at hq, hbm,
        l, [r], rfl, ?_, ?_⟩
      · rw [List.insertIdx_zero, WFSeq]
        refine ⟨hl, hbm, ?_⟩
        rw [WFSeq]
        exact hr
      · rw [List.insertIdx_zero, inorderSeq_cons_cons, inorderSeq_nil]
        simp only [inorderSeq_nil, List.append_nil]
        exact heq
    | c' :: cs =>
      rw [WFSeq] at hseq
      exact hseq.elim
  | cons k ks ih =>
    intro cs lo hi h j c hseq hbt i hile hbefore hafter child hchild hrepl
    match cs with
    | [] =>
      rw [WFSeq] at hseq
      exact hseq.elim
    | c' :: cs =>
      have hkeys := WFSeq_keys hseq
      rw [WFSeq] at hseq
      obtain ⟨hwf, hbnd, hrest⟩ := hseq
      rcases i with _ | p
      · simp only [List.getElem?_cons_zero, Option.some.injEq] at hchild
        subst hchild
        have htk : target.2 < k.2 := by
          have := hafter 0 (by simp) (Nat.zero_le _)
          simpa using this
        obtain ⟨hl, hr, hbm, heq⟩ := hrepl lo (some k.2) hwf
          ⟨hbt.1, fun b hb => by rw [Option.mem_def, Option.some.injEq] at hb; rw [← hb]; exact htk⟩
        have hmk : med.2 < k.2 := bnd_hi_lt hbm
        refine ⟨by intro q hq hq0; omega, ?_, ?_, l, r :: c' :: cs, rfl,
          ?_, ?_⟩
        · intro q hq _
          rcases q with _ | q'
          · simpa using hmk
          · have hq' : q' < ks.length := by simpa using hq
            have hk3 : k.2 < ks[q'].2 :=
              (List.pairwise_cons.mp hkeys.1).1 ks[q']
                (List.getElem_mem hq')
            simpa using lt_trans hmk hk3
        · exact ⟨hbm.1, fun b hb => lt_trans hmk (hbnd.2 b hb)⟩
        · rw [List.insertIdx_zero, WFSeq]
          refine ⟨hl, ⟨hbm.1, fun b hb => lt_trans hmk (hbnd.2 b hb)⟩, ?_⟩
          rw [WFSeq]
          refine ⟨hr, ⟨fun b hb => by rw [Option.mem_def, Option.some.injEq] at hb; rw [← hb]; exact hmk, hbnd.2⟩,
            WFSeq_mnK_shift hrest⟩
        · rw [List.insertIdx_zero, inorderSeq_cons_cons, inorderSeq_cons_cons]
          have hbig : ∀ e ∈ k :: (inorder c' ++ inorderSeq ks cs),
              target.2 < e.2 := by
            intro e he
            rcases List.mem_cons.mp he with rfl | he2
            · exact htk
            · exact lt_trans htk (bnd_lo_lt (WFSeq_inorder_bnd hrest e he2))
          rw [insList_append_left hbig, ← heq]
          simp
      · simp only [List.getElem?_cons_succ] at hchild
        have hk2 : k.2 < target.2 := by
          have := hbefore 0 (by simp) (Nat.succ_pos p)
          simpa using this
        obtain ⟨hbef2, haft2, hbm2, c3, cs3, hset, hseq3, heq3⟩ := ih hrest
          ⟨fun b hb => by rw [Option.mem_def, Option.some.injEq] at hb; rw [← hb]; exact hk2, hbt.2⟩
          p (by simpa using hile)
          (fun q hq hqp => by
            have := hbefore (q + 1) (by simpa using Nat.succ_lt_succ hq)
              (Nat.succ_lt_succ hqp)
            simpa using this)
          (fun q hq hqp => by
            have := hafter (q + 1) (by simpa using Nat.succ_lt_succ hq)
              (Nat.succ_le_succ hqp)
            simpa using this)
          child hchild hrepl
        have hkm : k.2 < med.2 := bnd_lo_lt hbm2
        refine ⟨?_, ?_, bnd_widen_lo hbm2 (fun b hb => hbnd.1 b hb),
          c, c3 :: cs3, ?_, ?_, ?_⟩
        · intro q hq hqp
          rcases q with _ | q'
          · simpa using hkm
          · have := hbef2 q' (by simpa using hq) (by omega)
            simpa using this
        · intro q hq hqp
          rcases q with _ | q'
          · omega
          · have := haft2 q' (by simpa using hq) (by omega)
            simpa using this
        · rw [List.set_cons_succ, List.insertIdx_succ_cons, hset]
        · rw [List.insertIdx_succ_cons, WFSeq]
          exact ⟨hwf, hbnd, hseq3⟩
        · rw [List.insertIdx_succ_cons, inorderSeq_cons_cons,
            inorderSeq_cons_cons, heq3]
          have hsmall : ∀ e ∈ inorder c ++ [k], e.2 < target.2 := by
            intro e he
            rcases List.mem_append.mp he with he1 | he2
            · exact lt_trans (bnd_hi_lt (WF_inorder_bnd hwf e he1)) hk2
            · rw [List.mem_singleton.mp he2]
              exact hk2
          calc inorder c ++
              (k :: insList target (inorder c' ++ inorderSeq ks cs))
              = (inorder c ++ [k]) ++
                  insList target (inorder c' ++ inorderSeq ks cs) := by simp
            _ = insList target
                  ((inorder c ++ [k]) ++ (inorder c' ++ inorderSeq ks cs)) :=
                (insList_append_right hsmall).symm
            _ = insList target
                  (inorder c ++ (k :: (inorder c' ++ inorderSeq ks cs))) := by
                simp

/-! ### C1 stage E: cutting a chain and splitting an overfull node -/

/-- A well-formed interleaving cut at key position `m`: the key there
separates two well-formed sub-interleavings, and the in-order entries
decompose around it. -/
theorem WFSeq_cut :
    ∀ {ks : List (Nat × K)} {cs : List (TreeNode K)} {lo hi : Option K}
      {h j : Nat} {c : TreeNode K},
    WFSeq lo hi h mnK j c ks cs → ∀ m, m < ks.length →
    ∃ km cm, ks[m]? = some km ∧ (c :: cs)[m + 1]? = some cm ∧
      WFSeq lo (some km.2) h mnK 0 c (ks.take m) (cs.take m) ∧
      WFSeq (some km.2) hi h mnK 0 cm (ks.drop (m + 1)) (cs.drop (m + 1)) ∧
      bnd lo hi km.2 ∧
      inorder c ++ inorderSeq ks cs =
        (inorder c ++ inorderSeq (ks.take m) (cs.take m)) ++
          km :: (inorder cm ++
            inorderSeq (ks.drop (m + 1)) (cs.drop (m + 1))) := by
  intro ks
  induction ks with
  | nil =>
    intro cs lo hi h j c _ m hm
    simp at hm
  | cons k ks ih =>
    intro cs lo hi h j c hseq m hm
    match cs with
    | [] =>
      rw [WFSeq] at hseq
      exact hseq.elim
    | c' :: cs =>
      rw [WFSeq] at hseq
      obtain ⟨hwf, hbnd, hrest⟩ := hseq
      rcases m with _ | p
      · refine ⟨k, c', by simp, by simp, ?_, ?_, hbnd, ?_⟩
        · simp only [List.take_zero]
          rw [WFSeq]
          exact hwf
        · simp only [List.drop_succ_cons, List.drop_zero]
          exact WFSeq_mnK_shift hrest
        · simp only [List.take_zero, List.drop_succ_cons, List.drop_zero,
            inorderSeq_nil, List.append_nil, inorderSeq_cons_cons]
      · have hp : p < ks.length := by simpa using hm
        obtain ⟨km, cm, hkm, hcm, hleft, hright, hbkm, hdecomp⟩ :=
          ih hrest p hp
        have hk_km : k.2 < km.2 :=
          bnd_lo_lt ((WFSeq_keys hrest).2 km (List.getElem?_mem hkm))
        refine ⟨km, cm, by simpa using hkm, by simpa using hcm, ?_, ?_,
          bnd_widen_lo hbkm (fun b hb => hbnd.1 b hb), ?_⟩
        · rw [List.take_succ_cons, List.take_succ_cons, WFSeq]
          refine ⟨hwf, ⟨hbnd.1, fun b hb => ?_⟩, WFSeq_mnK_shift hleft⟩
          rw [Option.mem_def, Option.some.injEq] at hb
          rw [← hb]
          exact hk_km
        · rw [List.drop_succ_cons, List.drop_succ_cons]
          exact hright
        · rw [inorderSeq_cons_cons, List.take_succ_cons, List.take_succ_cons,
            List.drop_succ_cons, List.drop_succ_cons, inorderSeq_cons_cons,
            hdecomp]
          simp

/-- Splitting an overfull leaf (`2 * MIN_KEYS + 1` keys): the halves
hold exactly `MIN_KEYS` keys each, the median separates them within
the outer bounds, and the entries are preserved in order. -/
theorem split_leaf_spec {ch : Bool} {ks : List (Nat × K)} {lo hi : Option K}
    (hsort : ks.Pairwise (fun a b => a.2 < b.2))
    (hbd : ∀ e ∈ ks, bnd lo hi e.2)
    (hlen : ks.length = 2 * MIN_KEYS + 1) :
    ∃ l med r, split (.mk ch ks ([] : List (TreeNode K))) = some (l, med, r) ∧
      WF lo (some med.2) 0 MIN_KEYS l ∧ WF (some med.2) hi 0 MIN_KEYS r ∧
      bnd lo hi med.2 ∧ inorder l ++ med :: inorder r = ks := by
  have hmono := List.pairwise_iff_getElem.mp hsort
  have h9 : ks.length = 9 := by rw [hlen]; decide
  have h4 : 4 < ks.length := by omega
  have hmed : (ks.take 5).getLast? = some ks[4] := by
    rw [List.getLast?_eq_getElem?]
    have hl5 : (ks.take 5).length = 5 := by
      rw [List.length_take]
      omega
    rw [hl5]
    rw [List.getElem?_take, if_pos (by omega), List.getElem?_eq_getElem h4]
  have hdl : (ks.take 5).dropLast = ks.take 4 := by
    rw [List.dropLast_eq_take, List.length_take, List.take_take]
    congr 1
    omega
  have hsplit : split (TreeNode.mk ch ks ([] : List (TreeNode K))) =
      some (.mk true (ks.take 4) [], ks[4], .mk true (ks.drop 5) []) := by
    rw [split]
    simp only [h9]
    norm_num
    rw [hmed]
    rw [hdl]
  refine ⟨_, _, _, hsplit, ?_, ?_, hbd ks[4] (List.getElem_mem h4), ?_⟩
  · rw [WF]
    refine ⟨rfl, ?_, ?_, List.Pairwise.sublist (List.take_sublist _ _) hsort,
      ?_⟩
    · rw [List.length_take]
      simp only [MIN_KEYS, T]
      omega
    · rw [List.length_take]
      simp only [MIN_KEYS, T]
      omega
    · intro e he
      obtain ⟨q, hq, rfl⟩ := List.getElem_of_mem he
      have hq4 : q < 4 := by
        have := List.length_take 4 ks
        omega
      rw [List.getElem_take]
      refine ⟨(hbd ks[q] (List.getElem_mem (by omega))).1, ?_⟩
      intro b hb
      rw [Option.mem_def, Option.some.injEq] at hb
      rw [← hb]
      exact hmono q 4 (by omega) h4 hq4
  · rw [WF]
    refine ⟨rfl, ?_, ?_, List.Pairwise.sublist (List.drop_sublist _ _) hsort,
      ?_⟩
    · rw [List.length_drop]
      simp only [MIN_KEYS, T]
      omega
    · rw [List.length_drop]
      simp only [MIN_KEYS, T]
      omega
    · intro e he
      obtain ⟨q, hq, rfl⟩ := List.getElem_of_mem he
      rw [List.getElem_drop]
      have hq9 : 5 + q < ks.length := by
        rw [List.length_drop] at hq
        omega
      refine ⟨?_, (hbd ks[5 + q] (List.getElem_mem hq9)).2⟩
      intro b hb
      rw [Option.mem_def, Option.some.injEq] at hb
      rw [← hb]
      exact hmono 4 (5 + q) h4 hq9 (by omega)
  · rw [inorder_leaf, inorder_leaf]
    rw [show ks[4] :: ks.drop 5 = ks.drop 4 from
      (List.drop_eq_getElem_cons h4).symm]
    exact List.take_append_drop 4 ks

/-- Splitting an overfull internal node (`2 * MIN_KEYS + 1` keys over a
well-formed interleaving): the halves are well-formed with exactly
`MIN_KEYS` keys each, the median separates them within the outer
bounds, and the in-order entries are preserved. -/
theorem split_chain_spec {ch : Bool} {ks : List (Nat × K)}
    {cs : List (TreeNode K)} {lo hi : Option K} {h : Nat} {c : TreeNode K}
    (hseq : WFSeq lo hi h mnK 0 c ks cs)
    (hlen : ks.length = 2 * MIN_KEYS + 1) :
    ∃ l med r, split (.mk ch ks (c :: cs)) = some (l, med, r) ∧
      WF lo (some med.2) (h + 1) MIN_KEYS l ∧
      WF (some med.2) hi (h + 1) MIN_KEYS r ∧
      bnd lo hi med.2 ∧
      inorder l ++ med :: inorder r = inorder c ++ inorderSeq ks cs := by
  have h9 : ks.length = 9 := by rw [hlen]; decide
  have hcs9 : cs.length = 9 := by rw [WFSeq_len hseq, h9]
  have h4 : 4 < ks.length := by omega
  obtain ⟨km, cm, hkm, hcm, hleft, hright, hbkm, hdecomp⟩ :=
    WFSeq_cut hseq 4 h4
  have hkm4 : ks[4] = km := by
    rw [List.getElem?_eq_getElem h4] at hkm
    exact Option.some.inj hkm
  have hcm4 : cs[4] = cm := by
    have : (c :: cs)[4 + 1]? = cs[4]? := by
      simp
    rw [this, List.getElem?_eq_getElem (by omega : 4 < cs.length)] at hcm
    exact Option.some.inj hcm
  have hmed : (ks.take 5).getLast? = some ks[4] := by
    rw [List.getLast?_eq_getElem?]
    have hl5 : (ks.take 5).length = 5 := by
      rw [List.length_take]
      omega
    rw [hl5]
    rw [List.getElem?_take, if_pos (by omega), List.getElem?_eq_getElem h4]
  have hdl : (ks.take 5).dropLast = ks.take 4 := by
    rw [List.dropLast_eq_take, List.length_take, List.take_take]
    congr 1
    omega
  have hdrop4 : cs.drop 4 = cm :: cs.drop 5 := by
    rw [List.drop_eq_getElem_cons (by omega : 4 < cs.length), hcm4]
  have hsplit : split (TreeNode.mk ch ks (c :: cs)) =
      some (.mk true (ks.take 4) (c :: cs.take 4), ks[4],
        .mk true (ks.drop 5) (cs.drop 4)) := by
    rw [split]
    simp only [h9, List.length_cons, hcs9]
    norm_num
    rw [hmed]
    rw [hdl]
  rw [hkm4] at hsplit
  refine ⟨_, _, _, hsplit, ?_, ?_, hbkm, ?_⟩
  · rw [WF]
    refine ⟨by omega, ?_, ?_, ?_⟩
    · rw [List.length_take]
      simp only [MIN_KEYS, T]
      omega
    · rw [List.length_take]
      simp only [MIN_KEYS, T]
      omega
    · simpa using hleft
  · rw [hdrop4, WF]
    refine ⟨by omega, ?_, ?_, ?_⟩
    · rw [List.length_drop]
      simp only [MIN_KEYS, T]
      omega
    · rw [List.length_drop]
      simp only [MIN_KEYS, T]
      omega
    · simpa using hright
  · rw [inorder_internal, hdrop4, inorder_internal, hdecomp]

/-! ### C1 stage F: the `put` descent -/

/-- The split-propagation descent of `Batch.put` preserves
well-formedness and acts as sorted insertion on the in-order entries:
a `.done` result is a subtree of the same height, bounds and key-count
floor; a `.split` result is two well-formed halves with `MIN_KEYS`
keys each around a median lying strictly between them and within the
outer bounds. -/
theorem putRec_spec {target : Nat × K} (N : Nat) :
    ∀ t : TreeNode K, sizeOf t ≤ N → ∀ (lo hi : Option K) (h mn : Nat),
    WF lo hi h mn t → bnd lo hi target.2 →
    (∀ t', putRec target t = .done t' →
       WF lo hi h mn t' ∧ inorder t' = insList target (inorder t) ∧
       t'.children.isEmpty = (TreeNode.children t).isEmpty) ∧
    (∀ l med r, putRec target t = .split l med r →
       WF lo (some med.2) h MIN_KEYS l ∧ WF (some med.2) hi h MIN_KEYS r ∧
       bnd lo hi med.2 ∧
       inorder l ++ med :: inorder r = insList target (inorder t)) := by
  induction N using Nat.strong_induction_on with
  | _ N ih =>
    intro t hsz lo hi h mn hwf hbt
    match t with
    | .mk ch ks [] =>
      rw [WF] at hwf
      obtain ⟨h0, hmn, hmax, hsort, hbd⟩ := hwf
      subst h0
      rcases hb : bsearch target.2 ks with mid | i
      · obtain ⟨kv, hkv, hkv2, hmid⟩ := bsearch_inl hb
        have hik : insertKey target none (TreeNode.mk ch ks []) =
            (.mk true (ks.set mid target) [], true) := by
          rw [insertKey]
          simp only [hb]
        have hput : putRec target (TreeNode.mk ch ks []) =
            .done (.mk true (ks.set mid target) []) := by
          rw [putRec]
          simp only [hik]
        have hins : insList target ks = ks.set mid target :=
          insList_eq_set hsort hkv hkv2.symm
        constructor
        · intro t' hd
          rw [hput] at hd
          cases hd
          refine ⟨?_, ?_, rfl⟩
          · rw [WF]
            refine ⟨rfl, ?_, ?_, ?_, ?_⟩
            · rw [List.length_set]
              exact hmn
            · rw [List.length_set]
              exact hmax
            · rw [← hins]
              exact insList_sorted hsort
            · rw [← hins]
              exact insList_bnd hbd hbt
          · rw [inorder_leaf, inorder_leaf, hins]
        · intro l med r hs
          rw [hput] at hs
          exact PutResult.noConfusion hs
      · obtain ⟨hile, hbef, haft⟩ := bsearch_inr hsort hb
        have hik : insertKey target none (TreeNode.mk ch ks []) =
            (.mk true (ks.insertIdx i target) [],
              decide ((ks.insertIdx i target).length < MAX_CHILDREN)) := by
          rw [insertKey]
          simp only [hb]
        have hlen' : (ks.insertIdx i target).length = ks.length + 1 :=
          List.length_insertIdx (a := target) i ks hile
        have hins : insList target ks = ks.insertIdx i target :=
          insList_eq_insertIdx hile hbef haft
        by_cases hsm : ks.length + 1 < MAX_CHILDREN
        · have hflag :
              decide ((ks.insertIdx i target).length < MAX_CHILDREN) = true := by
            rw [hlen']
            exact decide_eq_true hsm
          have hput : putRec target (TreeNode.mk ch ks []) =
              .done (.mk true (ks.insertIdx i target) []) := by
            rw [putRec]
            simp only [hik, hflag]
          constructor
          · intro t' hd
            rw [hput] at hd
            cases hd
            refine ⟨?_, ?_, rfl⟩
            · rw [WF]
              refine ⟨rfl, ?_, ?_, ?_, ?_⟩
              · rw [hlen']
                omega
              · rw [hlen']
                simp only [MAX_CHILDREN, MIN_KEYS, T] at hsm ⊢
                omega
              · rw [← hins]
                exact insList_sorted hsort
              · rw [← hins]
                exact insList_bnd hbd hbt
            · rw [inorder_leaf, inorder_leaf, hins]
          · intro l med r hs
            rw [hput] at hs
            exact PutResult.noConfusion hs
        · have hflag :
              decide ((ks.insertIdx i target).length < MAX_CHILDREN) = false := by
            rw [hlen']
            exact decide_eq_false hsm
          have hlen9 : (ks.insertIdx i target).length = 2 * MIN_KEYS + 1 := by
            rw [hlen']
            simp only [MAX_CHILDREN, MIN_KEYS, T] at hsm hmax ⊢
            omega
          obtain ⟨l, med, r, hsp, hl, hr, hbm, hia⟩ :=
            @split_leaf_spec K _ true _ lo hi
              (by rw [← hins]; exact insList_sorted hsort)
              (by rw [← hins]; exact insList_bnd hbd hbt) hlen9
          have hput : putRec target (TreeNode.mk ch ks []) =
              .split l med r := by
            rw [putRec]
            simp only [hik, hflag, hsp]
          constructor
          · intro t' hd
            rw [hput] at hd
            exact PutResult.noConfusion hd
          · intro l' med' r' hs
            rw [hput] at hs
            cases hs
            refine ⟨hl, hr, hbm, ?_⟩
            rw [inorder_leaf, hins]
            exact hia
    | .mk ch ks (c :: cs) =>
      rw [WF] at hwf
      obtain ⟨hpos, hmn, hmax, hchain⟩ := hwf
      have hsort := (WFSeq_keys hchain).1
      rcases hb : bsearch target.2 ks with mid | i
      · obtain ⟨kv, hkv, hkv2, hmid⟩ := bsearch_inl hb
        have hput : putRec target (TreeNode.mk ch ks (c :: cs)) =
            .done (.mk true (ks.set mid target) (c :: cs)) := by
          rw [putRec]
          simp only [hb]
        obtain ⟨hchain', heq⟩ := WFSeq_setKey hchain hkv hkv2.symm
        constructor
        · intro t' hd
          rw [hput] at hd
          cases hd
          refine ⟨?_, ?_, rfl⟩
          · rw [WF]
            refine ⟨hpos, ?_, ?_, hchain'⟩
            · rw [List.length_set]
              exact hmn
            · rw [List.length_set]
              exact hmax
          · rw [inorder_internal, inorder_internal, heq]
        · intro l med r hs
          rw [hput] at hs
          exact PutResult.noConfusion hs
      · obtain ⟨hile, hbef, haft⟩ := bsearch_inr hsort hb
        have hcslen : cs.length = ks.length := WFSeq_len hchain
        have hi_lt : i < (c :: cs).length := by
          simp only [List.length_cons]
          omega
        obtain ⟨child, hchild⟩ : ∃ child, (c :: cs)[i]? = some child :=
          ⟨_, List.getElem?_eq_getElem hi_lt⟩
        have hszc : sizeOf child < N := by
          have h1 := List.sizeOf_lt_of_mem (List.getElem?_mem hchild)
          simp only [TreeNode.mk.sizeOf_spec] at hsz
          omega
        have hput0 : putRec target (TreeNode.mk ch ks (c :: cs)) =
            (match putRec target child with
             | .done child' => .done (.mk true ks ((c :: cs).set i child'))
             | .split l med r =>
               match insertKey med (some r) (.mk true ks ((c :: cs).set i l)) with
               | (t', true) => .done t'
               | (t', false) =>
                 match split t' with
                 | some (l', med', r') => .split l' med' r'
                 | none => .done t') := by
          rw [putRec]
          simp only [hb]
          split
          · rename_i heq2
            rw [hchild] at heq2
            exact Option.noConfusion heq2
          · rename_i child2 heq2
            rw [hchild] at heq2
            obtain rfl : child = child2 := Option.some.inj heq2
            rfl
        rcases hrec : putRec target child with ⟨child'⟩ | ⟨l, med, r⟩
        · have hput : putRec target (TreeNode.mk ch ks (c :: cs)) =
              .done (.mk true ks ((c :: cs).set i child')) := by
            rw [hput0]
            simp only [hrec]
          obtain ⟨c2, cs2, hset, hseq2, heq2⟩ :=
            put_done_chain hchain hbt i hile hbef haft child hchild
              (fun lo' hi' hwf' hbnd' =>
                ⟨((ih (sizeOf child) hszc child (le_refl _) lo' hi' (h - 1)
                    MIN_KEYS hwf' hbnd').1 child' hrec).1,
                 ((ih (sizeOf child) hszc child (le_refl _) lo' hi' (h - 1)
                    MIN_KEYS hwf' hbnd').1 child' hrec).2.1⟩)
          constructor
          · intro t' hd
            rw [hput] at hd
            cases hd
            refine ⟨?_, ?_, ?_⟩
            · rw [hset, WF]
              exact ⟨hpos, hmn, hmax, hseq2⟩
            · rw [hset, inorder_internal, inorder_internal, heq2]
            · rw [hset]
              rfl
          · intro l' med' r' hs
            rw [hput] at hs
            exact PutResult.noConfusion hs
        · obtain ⟨hbefm, haftm, hbm, c3, cs3, hset3, hseq3, heq3⟩ :=
            put_split_chain hchain hbt i hile hbef haft child hchild
              (fun lo' hi' hwf' hbnd' =>
                (ih (sizeOf child) hszc child (le_refl _) lo' hi' (h - 1)
                  MIN_KEYS hwf' hbnd').2 l med r hrec)
          have hbms : bsearch med.2 ks = Sum.inr i :=
            bsearch_inr_unique hsort hile hbefm haftm
          have hik : insertKey med (some r)
              (TreeNode.mk true ks ((c :: cs).set i l)) =
              (.mk true (ks.insertIdx i med)
                (((c :: cs).set i l).insertIdx (i + 1) r),
                decide ((ks.insertIdx i med).length < MAX_CHILDREN)) := by
            rw [insertKey]
            simp only [hbms]
          have hlen' : (ks.insertIdx i med).length = ks.length + 1 :=
            List.length_insertIdx (a := med) i ks hile
          by_cases hsm : ks.length + 1 < MAX_CHILDREN
          · have hflag :
                decide ((ks.insertIdx i med).length < MAX_CHILDREN) = true := by
              rw [hlen']
              exact decide_eq_true hsm
            have hput : putRec target (TreeNode.mk ch ks (c :: cs)) =
                .done (.mk true (ks.insertIdx i med)
                  (((c :: cs).set i l).insertIdx (i + 1) r)) := by
              rw [hput0]
              simp only [hrec, hik, hflag]
            constructor
            · intro t' hd
              rw [hput] at hd
              cases hd
              refine ⟨?_, ?_, ?_⟩
              · rw [hset3, WF]
                refine ⟨hpos, ?_, ?_, hseq3⟩
                · rw [hlen']
                  omega
                · rw [hlen']
                  simp only [MAX_CHILDREN, MIN_KEYS, T] at hsm ⊢
                  omega
              · rw [hset3, inorder_internal, inorder_internal, heq3]
              · rw [hset3]
                rfl
            · intro l' med' r' hs
              rw [hput] at hs
              exact PutResult.noConfusion hs
          · have hflag :
                decide ((ks.insertIdx i med).length < MAX_CHILDREN) = false := by
              rw [hlen']
              exact decide_eq_false hsm
            have hlen9 : (ks.insertIdx i med).length = 2 * MIN_KEYS + 1 := by
              rw [hlen']
              simp only [MAX_CHILDREN, MIN_KEYS, T] at hsm hmax ⊢
              omega
            obtain ⟨l2, med2, r2, hsp, hl2, hr2, hbm2, hia2⟩ :=
              @split_chain_spec K _ true _ _ _ _ _ _ hseq3 hlen9
            have hput : putRec target (TreeNode.mk ch ks (c :: cs)) =
                .split l2 med2 r2 := by
              rw [hput0]
              simp only [hrec, hik, hflag]
              rw [show (((c :: cs).set i l).insertIdx (i + 1) r) = c3 :: cs3
                from hset3]
              simp only [hsp]
            have hh : h - 1 + 1 = h := by omega
            rw [hh] at hl2 hr2
            constructor
            · intro t' hd
              rw [hput] at hd
              exact PutResult.noConfusion hd
            · intro l' med' r' hs
              rw [hput] at hs
              cases hs
              refine ⟨hl2, hr2, hbm2, ?_⟩
              rw [inorder_internal, hia2, heq3]

/-! ### C1 stage G: `put` at the root -/

/-- `Batch.put` on an existing root: the new root is well-formed (one
level taller exactly when the root split) and its in-order entries are
the sorted insertion of the target. -/
theorem putTree_spec {target : Nat × K} {t : TreeNode K} {h : Nat}
    (hwf : WFRoot h t) :
    ∃ h2, WFRoot h2 (putTree target (some t)) ∧
      inorder (putTree target (some t)) = insList target (inorder t) := by
  rw [WFRoot] at hwf
  have hbt : bnd none none target.2 := bnd_none_none _
  have hspec := putRec_spec (sizeOf t) t (le_refl _) none none h _ hwf hbt
  rcases hrec : putRec target t with ⟨t'⟩ | ⟨l, med, r⟩
  · have hpt : putTree target (some t) = t' := by
      rw [putTree]
      simp only [Option.getD_some, hrec]
    obtain ⟨hwf', heq, hempty⟩ := hspec.1 t' hrec
    refine ⟨h, ?_, by rw [hpt]; exact heq⟩
    rw [hpt, WFRoot, hempty]
    exact hwf'
  · have hpt : putTree target (some t) = .mk true [med] [l, r] := by
      rw [putTree]
      simp only [Option.getD_some, hrec]
    obtain ⟨hl, hr, hbm, hia⟩ := hspec.2 l med r hrec
    refine ⟨h + 1, ?_, ?_⟩
    · rw [hpt, WFRoot]
      simp only [TreeNode.children_mk, List.isEmpty_cons, Bool.false_eq_true,
        if_false]
      rw [WF]
      refine ⟨by omega, by simp, by simp [MIN_KEYS, T], ?_⟩
      rw [WFSeq]
      refine ⟨hl, bnd_none_none _, ?_⟩
      rw [WFSeq]
      exact hr
    · rw [hpt, inorder_internal, inorderSeq_cons_cons, inorderSeq_nil,
        List.append_nil]
      exact hia

/-- `Batch.put` on an empty tree creates the one-entry root leaf. -/
theorem putTree_none_spec {target : Nat × K} :
    putTree target (none : Option (TreeNode K)) = .mk true [target] [] ∧
    WFRoot 0 (TreeNode.mk true [target] ([] : List (TreeNode K))) := by
  constructor
  · have hbs : bsearch target.2 ([] : List (Nat × K)) = Sum.inr 0 := by
      rw [bsearch, bsearchAux]
      simp
    have hik : insertKey target none (TreeNode.mk true [] ([] : List (TreeNode K))) =
        (.mk true [target] [], true) := by
      rw [insertKey]
      simp only [hbs]
      norm_num [MAX_CHILDREN, MIN_KEYS, T]
    have hput : putRec target (TreeNode.mk true [] ([] : List (TreeNode K))) =
        .done (.mk true [target] []) := by
      rw [putRec]
      simp only [hik]
    rw [putTree]
    simp only [Option.getD_none, TreeNode.create, hput]
  · rw [WFRoot]
    simp only [TreeNode.children_mk, List.isEmpty_nil, if_true]
    rw [WF]
    refine ⟨rfl, by simp, by simp [MIN_KEYS, T], List.pairwise_singleton _ _, ?_⟩
    intro e he
    exact bnd_none_none _

/-! ### C1 stage H: deletion list lemmas and well-formedness utilities -/

/-- `delList` removes at most the one matching entry: the result is a
sublist. -/
theorem delList_sublist {key : K} :
    ∀ {l : List (Nat × K)}, (delList key l).Sublist l := by
  intro l
  induction l with
  | nil =>
    rw [delList]
  | cons y ys ih =>
    rw [delList]
    split_ifs
    · exact List.sublist_cons_self y ys
    · exact List.Sublist.cons₂ y ih

/-- Entries surviving `delList` on a sorted list come from the list and
do not carry the deleted key value. -/
theorem mem_delList_sorted {key : K} :
    ∀ {l : List (Nat × K)}, l.Pairwise (fun a b => a.2 < b.2) →
    ∀ {e : Nat × K}, e ∈ delList key l → e ∈ l ∧ e.2 ≠ key := by
  intro l
  induction l with
  | nil =>
    intro _ e he
    rw [delList] at he
    exact absurd he (List.not_mem_nil e)
  | cons y ys ih =>
    intro hsort e he
    rw [List.pairwise_cons] at hsort
    rw [delList] at he
    split_ifs at he with hy
    · refine ⟨List.mem_cons_of_mem _ he, ?_⟩
      have := hsort.1 e he
      rw [hy] at this
      exact ne_of_gt this
    · rcases List.mem_cons.mp he with rfl | he2
      · exact ⟨List.mem_cons_self _ _, hy⟩
      · obtain ⟨h1, h2⟩ := ih hsort.2 he2
        exact ⟨List.mem_cons_of_mem _ h1, h2⟩

/-- An entry with a different key value survives `delList`. -/
theorem mem_delList_of_mem {key : K} :
    ∀ {l : List (Nat × K)} {e : Nat × K}, e ∈ l → e.2 ≠ key →
    e ∈ delList key l := by
  intro l
  induction l with
  | nil =>
    intro e he _
    exact absurd he (List.not_mem_nil e)
  | cons y ys ih =>
    intro e he hne
    rw [delList]
    split_ifs with hy
    · rcases List.mem_cons.mp he with rfl | he2
      · exact absurd hy hne
      · exact he2
    · rcases List.mem_cons.mp he with rfl | he2
      · exact List.mem_cons_self _ _
      · exact List.mem_cons_of_mem _ (ih he2 hne)

/-- `delList` on a list with no matching entry is the identity. -/
theorem delList_eq_self {key : K} :
    ∀ {l : List (Nat × K)}, (∀ e ∈ l, e.2 ≠ key) → delList key l = l := by
  intro l
  induction l with
  | nil =>
    intro _
    rw [delList]
  | cons y ys ih =>
    intro h
    rw [delList, if_neg (h y (List.mem_cons_self _ _)),
      ih (fun e he => h e (List.mem_cons_of_mem _ he))]

/-- `delList` skips over a prefix with no matching entry. -/
theorem delList_append_left_none {key : K} {l2 : List (Nat × K)} :
    ∀ {l1 : List (Nat × K)}, (∀ e ∈ l1, e.2 ≠ key) →
    delList key (l1 ++ l2) = l1 ++ delList key l2 := by
  intro l1
  induction l1 with
  | nil =>
    intro _
    simp
  | cons y ys ih =>
    intro h
    rw [List.cons_append, delList, if_neg (h y (List.mem_cons_self _ _)),
      ih (fun e he => h e (List.mem_cons_of_mem _ he)), List.cons_append]

/-- `delList` never reaches a suffix with no matching entry. -/
theorem delList_append_right_none {key : K} {l2 : List (Nat × K)}
    (h2 : ∀ e ∈ l2, e.2 ≠ key) :
    ∀ {l1 : List (Nat × K)}, delList key (l1 ++ l2) = delList key l1 ++ l2 := by
  intro l1
  induction l1 with
  | nil =>
    simp only [List.nil_append]
    rw [delList_eq_self h2, delList]
    rfl
  | cons y ys ih =>
    rw [List.cons_append, delList, delList]
    split_ifs
    · rfl
    · rw [ih, List.cons_append]

/-- At an exact hit on a sorted list, `delList` is `eraseIdx`. -/
theorem delList_eq_eraseIdx {key : K} :
    ∀ {ks : List (Nat × K)} {mid : Nat} {kv : Nat × K},
    ks.Pairwise (fun a b => a.2 < b.2) → ks[mid]? = some kv → kv.2 = key →
    delList key ks = ks.eraseIdx mid := by
  intro ks
  induction ks with
  | nil =>
    intro mid kv _ hkv _
    simp at hkv
  | cons y ys ih =>
    intro mid kv hsort hkv hk
    rw [List.pairwise_cons] at hsort
    rcases mid with _ | p
    · simp only [List.getElem?_cons_zero, Option.some.injEq] at hkv
      subst hkv
      rw [delList, if_pos hk, List.eraseIdx_zero]
      rfl
    · simp only [List.getElem?_cons_succ] at hkv
      have hy : y.2 < key := by
        rw [← hk]
        exact hsort.1 kv (List.getElem?_mem hkv)
      rw [delList, if_neg (ne_of_lt hy), List.eraseIdx_cons_succ,
        ih hsort.2 hkv hk]

/-- Precise membership in a sorted insertion: either the inserted pair
or an original entry with a different key value. -/
theorem mem_insList_sorted {x : Nat × K} :
    ∀ {l : List (Nat × K)}, l.Pairwise (fun a b => a.2 < b.2) →
    ∀ {e : Nat × K}, e ∈ insList x l → e = x ∨ (e ∈ l ∧ e.2 ≠ x.2) := by
  intro l
  induction l with
  | nil =>
    intro _ e he
    rw [insList] at he
    exact Or.inl (List.mem_singleton.mp he)
  | cons y ys ih =>
    intro hsort e he
    rw [List.pairwise_cons] at hsort
    rw [insList] at he
    split_ifs at he with h1 h2
    · rcases List.mem_cons.mp he with rfl | he2
      · exact Or.inl rfl
      · rcases List.mem_cons.mp he2 with rfl | he3
        · exact Or.inr ⟨List.mem_cons_self _ _, ne_of_gt h1⟩
        · exact Or.inr ⟨List.mem_cons_of_mem _ he3,
            ne_of_gt (lt_trans h1 (hsort.1 e he3))⟩
    · rcases List.mem_cons.mp he with rfl | he2
      · exact Or.inr ⟨List.mem_cons_self _ _, ne_of_lt h2⟩
      · rcases ih hsort.2 he2 with rfl | ⟨he3, hne⟩
        · exact Or.inl rfl
        · exact Or.inr ⟨List.mem_cons_of_mem _ he3, hne⟩
    · have hxy : x.2 = y.2 := le_antisymm (not_lt.mp h2) (not_lt.mp h1)
      rcases List.mem_cons.mp he with rfl | he2
      · exact Or.inl rfl
      · refine Or.inr ⟨List.mem_cons_of_mem _ he2, ?_⟩
        rw [hxy]
        exact ne_of_gt (hsort.1 e he2)

/-- The inserted pair is an entry of the insertion. -/
theorem self_mem_insList {x : Nat × K} :
    ∀ {l : List (Nat × K)}, x ∈ insList x l := by
  intro l
  induction l with
  | nil =>
    rw [insList]
    exact List.mem_singleton_self x
  | cons y ys ih =>
    rw [insList]
    split_ifs
    · exact List.mem_cons_self _ _
    · exact List.mem_cons_of_mem _ ih
    · exact List.mem_cons_self _ _

/-- An original entry with a different key value survives sorted
insertion. -/
theorem mem_insList_of_mem {x : Nat × K} :
    ∀ {l : List (Nat × K)} {e : Nat × K}, e ∈ l → e.2 ≠ x.2 →
    e ∈ insList x l := by
  intro l
  induction l with
  | nil =>
    intro e he _
    exact absurd he (List.not_mem_nil e)
  | cons y ys ih =>
    intro e he hne
    rw [insList]
    split_ifs with h1 h2
    · exact List.mem_cons_of_mem _ he
    · rcases List.mem_cons.mp he with rfl | he2
      · exact List.mem_cons_self _ _
      · exact List.mem_cons_of_mem _ (ih he2 hne)
    · have hxy : x.2 = y.2 := le_antisymm (not_lt.mp h2) (not_lt.mp h1)
      rcases List.mem_cons.mp he with rfl | he2
      · exact absurd hxy.symm hne
      · exact List.mem_cons_of_mem _ he2

/-- The key-count floor of a node plays no structural role beyond the
count itself. -/
theorem WF_any_mn {lo hi : Option K} {h mn mn' : Nat} {t : TreeNode K}
    (hwf : WF lo hi h mn t) (hle : mn' ≤ (TreeNode.keys t).length) :
    WF lo hi h mn' t := by
  match t with
  | .mk ch ks [] =>
    rw [WF] at hwf ⊢
    refine ⟨hwf.1, ?_, hwf.2.2⟩
    simpa using hle
  | .mk ch ks (c :: cs) =>
    rw [WF] at hwf ⊢
    refine ⟨hwf.1, ?_, hwf.2.2⟩
    simpa using hle

/-- Key-count window of a well-formed node. -/
theorem WF_keys_len {lo hi : Option K} {h mn : Nat} {t : TreeNode K}
    (hwf : WF lo hi h mn t) :
    mn ≤ (TreeNode.keys t).length ∧
      (TreeNode.keys t).length ≤ 2 * MIN_KEYS := by
  match t with
  | .mk ch ks [] =>
    rw [WF] at hwf
    simpa using ⟨hwf.2.1, hwf.2.2.1⟩
  | .mk ch ks (c :: cs) =>
    rw [WF] at hwf
    simpa using ⟨hwf.2.1, hwf.2.2.1⟩

/-- A well-formed subtree of height zero is a leaf. -/
theorem WF_zero_leaf {lo hi : Option K} {mn : Nat} {t : TreeNode K}
    (hwf : WF lo hi 0 mn t) :
    ∃ b ks, t = .mk b ks [] := by
  match t with
  | .mk ch ks [] => exact ⟨ch, ks, rfl⟩
  | .mk ch ks (c :: cs) =>
    rw [WF] at hwf
    omega

/-- A well-formed subtree of positive height is internal. -/
theorem WF_pos_children {lo hi : Option K} {h mn : Nat} {t : TreeNode K}
    (hwf : WF lo hi h mn t) (hpos : 0 < h) :
    ∃ b ks c cs, t = .mk b ks (c :: cs) := by
  match t with
  | .mk ch ks [] =>
    rw [WF] at hwf
    omega
  | .mk ch ks (c :: cs) => exact ⟨ch, ks, c, cs, rfl⟩

/-- Reindexing the per-position key minimum of an interleaving. -/
theorem WFSeq_shift_mnAt :
    ∀ {ks : List (Nat × K)} {cs : List (TreeNode K)} {lo hi : Option K}
      {h j j' : Nat} {mnAt mnAt' : Nat → Nat} {c : TreeNode K},
    (∀ q, mnAt' (j' + q) = mnAt (j + q)) →
    WFSeq lo hi h mnAt j c ks cs → WFSeq lo hi h mnAt' j' c ks cs := by
  intro ks
  induction ks with
  | nil =>
    intro cs lo hi h j j' mnAt mnAt' c hq hseq
    match cs with
    | [] =>
      rw [WFSeq] at hseq ⊢
      have h0 := hq 0
      simp only [Nat.add_zero] at h0
      rw [h0]
      exact hseq
    | c' :: cs =>
      rw [WFSeq] at hseq
      exact hseq.elim
  | cons k ks ih =>
    intro cs lo hi h j j' mnAt mnAt' c hq hseq
    match cs with
    | [] =>
      rw [WFSeq] at hseq
      exact hseq.elim
    | c' :: cs =>
      rw [WFSeq] at hseq ⊢
      have h0 := hq 0
      simp only [Nat.add_zero] at h0
      refine ⟨by rw [h0]; exact hseq.1, hseq.2.1, ?_⟩
      refine ih ?_ hseq.2.2
      intro q
      have hq1 := hq (q + 1)
      rw [show j' + 1 + q = j' + (q + 1) by omega,
        show j + 1 + q = j + (q + 1) by omega]
      exact hq1

/-- Widening the lower bound of a well-formed subtree (and of a
well-formed interleaving): everything strictly above the old bound
stays strictly above a smaller one. -/
theorem WF_widen_lo_all (N : Nat) :
    (∀ t : TreeNode K, sizeOf t ≤ N →
      ∀ (lo lo' hi : Option K) (h mn : Nat),
      WF lo hi h mn t → (∀ x : K, (∀ b ∈ lo, b < x) → ∀ b ∈ lo', b < x) →
      WF lo' hi h mn t) ∧
    (∀ (c : TreeNode K) (ks : List (Nat × K)) (cs : List (TreeNode K)),
      sizeOf c + sizeOf cs ≤ N →
      ∀ (lo lo' hi : Option K) (h : Nat) (mnAt : Nat → Nat) (j : Nat),
      WFSeq lo hi h mnAt j c ks cs →
      (∀ x : K, (∀ b ∈ lo, b < x) → ∀ b ∈ lo', b < x) →
      WFSeq lo' hi h mnAt j c ks cs) := by
  induction N using Nat.strong_induction_on with
  | _ N ih =>
    constructor
    · intro t hsz lo lo' hi h mn hwf hlo
      match t with
      | .mk ch ks [] =>
        rw [WF] at hwf ⊢
        refine ⟨hwf.1, hwf.2.1, hwf.2.2.1, hwf.2.2.2.1, ?_⟩
        intro k hk
        have := hwf.2.2.2.2 k hk
        exact ⟨hlo k.2 this.1, this.2⟩
      | .mk ch ks (c :: cs) =>
        rw [WF] at hwf ⊢
        have hlt : sizeOf c + sizeOf cs < N := by
          simp only [TreeNode.mk.sizeOf_spec, List.cons.sizeOf_spec] at hsz
          omega
        exact ⟨hwf.1, hwf.2.1, hwf.2.2.1,
          (ih (sizeOf c + sizeOf cs) hlt).2 c ks cs (le_refl _) lo lo' hi
            (h - 1) mnK 0 hwf.2.2.2 hlo⟩
    · intro c ks cs hsz lo lo' hi h mnAt j hseq hlo
      match ks, cs with
      | [], [] =>
        rw [WFSeq] at hseq ⊢
        have hlt : sizeOf c < N := by
          simp only [List.nil.sizeOf_spec] at hsz
          omega
        exact (ih (sizeOf c) hlt).1 c (le_refl _) lo lo' hi h (mnAt j)
          hseq hlo
      | [], c' :: cs =>
        rw [WFSeq] at hseq
        exact hseq.elim
      | k :: ks, [] =>
        rw [WFSeq] at hseq
        exact hseq.elim
      | k :: ks, c' :: cs =>
        rw [WFSeq] at hseq ⊢
        have hc : sizeOf c < N := by
          simp only [List.cons.sizeOf_spec] at hsz
          omega
        refine ⟨(ih (sizeOf c) hc).1 c (le_refl _) lo lo' (some k.2) h
          (mnAt j) hseq.1 hlo, ⟨hlo k.2 hseq.2.1.1, hseq.2.1.2⟩,
          hseq.2.2⟩

/-- Widening the upper bound of a well-formed subtree (and of a
well-formed interleaving). -/
theorem WF_widen_hi_all (N : Nat) :
    (∀ t : TreeNode K, sizeOf t ≤ N →
      ∀ (lo hi hi' : Option K) (h mn : Nat),
      WF lo hi h mn t → (∀ x : K, (∀ b ∈ hi, x < b) → ∀ b ∈ hi', x < b) →
      WF lo hi' h mn t) ∧
    (∀ (c : TreeNode K) (ks : List (Nat × K)) (cs : List (TreeNode K)),
      sizeOf c + sizeOf cs ≤ N →
      ∀ (lo hi hi' : Option K) (h : Nat) (mnAt : Nat → Nat) (j : Nat),
      WFSeq lo hi h mnAt j c ks cs →
      (∀ x : K, (∀ b ∈ hi, x < b) → ∀ b ∈ hi', x < b) →
      WFSeq lo hi' h mnAt j c ks cs) := by
  induction N using Nat.strong_induction_on with
  | _ N ih =>
    constructor
    · intro t hsz lo hi hi' h mn hwf hhi
      match t with
      | .mk ch ks [] =>
        rw [WF] at hwf ⊢
        refine ⟨hwf.1, hwf.2.1, hwf.2.2.1, hwf.2.2.2.1, ?_⟩
        intro k hk
        have := hwf.2.2.2.2 k hk
        exact ⟨this.1, hhi k.2 this.2⟩
      | .mk ch ks (c :: cs) =>
        rw [WF] at hwf ⊢
        have hlt : sizeOf c + sizeOf cs < N := by
          simp only [TreeNode.mk.sizeOf_spec, List.cons.sizeOf_spec] at hsz
          omega
        exact ⟨hwf.1, hwf.2.1, hwf.2.2.1,
          (ih (sizeOf c + sizeOf cs) hlt).2 c ks cs (le_refl _) lo hi hi'
            (h - 1) mnK 0 hwf.2.2.2 hhi⟩
    · intro c ks cs hsz lo hi hi' h mnAt j hseq hhi
      match ks, cs with
      | [], [] =>
        rw [WFSeq] at hseq ⊢
        have hlt : sizeOf c < N := by
          simp only [List.nil.sizeOf_spec] at hsz
          omega
        exact (ih (sizeOf c) hlt).1 c (le_refl _) lo hi hi' h (mnAt j)
          hseq hhi
      | [], c' :: cs =>
        rw [WFSeq] at hseq
        exact hseq.elim
      | k :: ks, [] =>
        rw [WFSeq] at hseq
        exact hseq.elim
      | k :: ks, c' :: cs =>
        rw [WFSeq] at hseq ⊢
        have hc : sizeOf c < N := by
          simp only [List.cons.sizeOf_spec] at hsz
          have h1 : 1 ≤ sizeOf c := by
            match c with
            | .mk ch2 ks2 cs2 =>
              simp only [TreeNode.mk.sizeOf_spec]
              omega
          omega
        refine ⟨hseq.1, ⟨hseq.2.1.1, hhi k.2 hseq.2.1.2⟩, ?_⟩
        have hrest_sz : sizeOf c' + sizeOf cs < N := by
          simp only [List.cons.sizeOf_spec] at hsz
          have h1 : 1 ≤ sizeOf c := by
            match c with
            | .mk ch2 ks2 cs2 =>
              simp only [TreeNode.mk.sizeOf_spec]
              omega
          omega
        exact (ih (sizeOf c' + sizeOf cs) hrest_sz).2 c' ks cs (le_refl _)
          (some k.2) hi hi' h mnAt (j + 1) hseq.2.2 hhi

/-- Lower-bound widening, subtree form. -/
theorem WF_widen_lo {lo lo' hi : Option K} {h mn : Nat} {t : TreeNode K}
    (hwf : WF lo hi h mn t)
    (hlo : ∀ x : K, (∀ b ∈ lo, b < x) → ∀ b ∈ lo', b < x) :
    WF lo' hi h mn t :=
  (WF_widen_lo_all (sizeOf t)).1 t (le_refl _) lo lo' hi h mn hwf hlo

/-- Upper-bound widening, subtree form. -/
theorem WF_widen_hi {lo hi hi' : Option K} {h mn : Nat} {t : TreeNode K}
    (hwf : WF lo hi h mn t)
    (hhi : ∀ x : K, (∀ b ∈ hi, x < b) → ∀ b ∈ hi', x < b) :
    WF lo hi' h mn t :=
  (WF_widen_hi_all (sizeOf t)).1 t (le_refl _) lo hi hi' h mn hwf hhi

/-! ### C1 stage I: chain append, concatenation and index shifting -/

theorem mnX_at (i : Nat) : mnX i i = MIN_KEYS - 1 := by
  simp [mnX]

theorem mnX_ne {i q : Nat} (h : q ≠ i) : mnX i q = MIN_KEYS := by
  simp [mnX, h]

/-- A position-`i` relaxed interleaving whose child there actually
holds `MIN_KEYS` keys is an ordinary interleaving. -/
theorem WFSeq_strengthen {i : Nat} :
    ∀ {ks : List (Nat × K)} {cs : List (TreeNode K)} {lo hi : Option K}
      {h j : Nat} {c : TreeNode K},
    WFSeq lo hi h (mnX i) j c ks cs →
    (∀ q, j + q = i → ∀ cq, (c :: cs)[q]? = some cq →
      MIN_KEYS ≤ (TreeNode.keys cq).length) →
    WFSeq lo hi h mnK j c ks cs := by
  intro ks
  induction ks with
  | nil =>
    intro cs lo hi h j c hseq hcnt
    match cs with
    | [] =>
      rw [WFSeq] at hseq ⊢
      by_cases hji : j = i
      · exact WF_any_mn hseq (by
          have := hcnt 0 (by omega) c (by simp)
          simpa [mnK] using this)
      · rw [mnX_ne hji] at hseq
        exact hseq
    | c' :: cs =>
      rw [WFSeq] at hseq
      exact hseq.elim
  | cons k ks ih =>
    intro cs lo hi h j c hseq hcnt
    match cs with
    | [] =>
      rw [WFSeq] at hseq
      exact hseq.elim
    | c' :: cs =>
      rw [WFSeq] at hseq ⊢
      refine ⟨?_, hseq.2.1, ?_⟩
      · by_cases hji : j = i
        · exact WF_any_mn hseq.1 (by
            have := hcnt 0 (by omega) c (by simp)
            simpa [mnK] using this)
        · rw [mnX_ne hji] at hseq
          exact hseq.1
      · refine ih hseq.2.2 ?_
        intro q hq cq hcq
        exact hcnt (q + 1) (by omega) cq (by simpa using hcq)

/-- Appending a separator and one more well-formed child at the right
end of an interleaving. -/
theorem WFSeq_snoc {sep : Nat × K} {rc : TreeNode K} :
    ∀ {ks : List (Nat × K)} {cs : List (TreeNode K)} {lo hi2 : Option K}
      {h j : Nat} {c : TreeNode K},
    WFSeq lo (some sep.2) h mnK j c ks cs → bnd lo hi2 sep.2 →
    WF (some sep.2) hi2 h MIN_KEYS rc →
    WFSeq lo hi2 h mnK j c (ks ++ [sep]) (cs ++ [rc]) ∧
      inorderSeq (ks ++ [sep]) (cs ++ [rc]) =
        inorderSeq ks cs ++ sep :: inorder rc := by
  intro ks
  induction ks with
  | nil =>
    intro cs lo hi2 h j c hseq hbs hrc
    match cs with
    | [] =>
      rw [WFSeq] at hseq
      constructor
      · simp only [List.nil_append, WFSeq]
        exact ⟨hseq, hbs, hrc⟩
      · simp
    | c' :: cs =>
      rw [WFSeq] at hseq
      exact hseq.elim
  | cons k ks ih =>
    intro cs lo hi2 h j c hseq hbs hrc
    match cs with
    | [] =>
      rw [WFSeq] at hseq
      exact hseq.elim
    | c' :: cs =>
      rw [WFSeq] at hseq
      obtain ⟨hwf, hbnd, hrest⟩ := hseq
      have hks : k.2 < sep.2 := bnd_hi_lt hbnd
      obtain ⟨hseq2, heq2⟩ := ih hrest ⟨fun b hb => by
          rw [Option.mem_def, Option.some.injEq] at hb
          rw [← hb]
          exact hks, hbs.2⟩ hrc
      constructor
      · rw [List.cons_append, List.cons_append, WFSeq]
        exact ⟨hwf, ⟨hbnd.1, fun b hb => lt_trans hks (hbs.2 b hb)⟩, hseq2⟩
      · rw [List.cons_append, List.cons_append, inorderSeq_cons_cons,
          inorderSeq_cons_cons, heq2]
        simp

/-- Concatenating two interleavings around a separator (the shape of a
`merge`). -/
theorem WFSeq_concat {sep : Nat × K} {nc : TreeNode K} {nks : List (Nat × K)}
    {ncs : List (TreeNode K)} :
    ∀ {lks : List (Nat × K)} {lcs : List (TreeNode K)} {lo hi2 : Option K}
      {h j : Nat} {lc : TreeNode K},
    WFSeq lo (some sep.2) h mnK j lc lks lcs → bnd lo hi2 sep.2 →
    WFSeq (some sep.2) hi2 h mnK j nc nks ncs →
    WFSeq lo hi2 h mnK j lc (lks ++ sep :: nks) (lcs ++ nc :: ncs) ∧
      inorderSeq (lks ++ sep :: nks) (lcs ++ nc :: ncs) =
        inorderSeq lks lcs ++ sep :: (inorder nc ++ inorderSeq nks ncs) := by
  intro lks
  induction lks with
  | nil =>
    intro lcs lo hi2 h j lc hseq hbs hnseq
    match lcs with
    | [] =>
      rw [WFSeq] at hseq
      constructor
      · simp only [List.nil_append, WFSeq]
        exact ⟨hseq, hbs, WFSeq_mnK_shift hnseq⟩
      · simp
    | c' :: cs =>
      rw [WFSeq] at hseq
      exact hseq.elim
  | cons k ks ih =>
    intro lcs lo hi2 h j lc hseq hbs hnseq
    match lcs with
    | [] =>
      rw [WFSeq] at hseq
      exact hseq.elim
    | c' :: cs =>
      rw [WFSeq] at hseq
      obtain ⟨hwf, hbnd, hrest⟩ := hseq
      have hks : k.2 < sep.2 := bnd_hi_lt hbnd
      obtain ⟨hseq2, heq2⟩ := ih hrest ⟨fun b hb => by
          rw [Option.mem_def, Option.some.injEq] at hb
          rw [← hb]
          exact hks, hbs.2⟩ (WFSeq_mnK_shift hnseq)
      constructor
      · rw [List.cons_append, List.cons_append, WFSeq]
        exact ⟨hwf, ⟨hbnd.1, fun b hb => lt_trans hks (hbs.2 b hb)⟩, hseq2⟩
      · rw [List.cons_append, List.cons_append, inorderSeq_cons_cons,
          inorderSeq_cons_cons, heq2]
        simp

/-- Sortedness and bounds of the key list of a merged leaf. -/
theorem merged_leaf_keys {sep : Nat × K} {lks nks : List (Nat × K)}
    {lo hi2 : Option K}
    (hl : lks.Pairwise (fun a b => a.2 < b.2))
    (hlb : ∀ e ∈ lks, bnd lo (some sep.2) e.2)
    (hbs : bnd lo hi2 sep.2)
    (hn : nks.Pairwise (fun a b => a.2 < b.2))
    (hnb : ∀ e ∈ nks, bnd (some sep.2) hi2 e.2) :
    (lks ++ sep :: nks).Pairwise (fun a b => a.2 < b.2) ∧
      ∀ e ∈ lks ++ sep :: nks, bnd lo hi2 e.2 := by
  constructor
  · rw [List.pairwise_append]
    refine ⟨hl, ?_, ?_⟩
    · rw [List.pairwise_cons]
      exact ⟨fun e he => bnd_lo_lt (hnb e he), hn⟩
    · intro a ha b hb
      have has : a.2 < sep.2 := bnd_hi_lt (hlb a ha)
      rcases List.mem_cons.mp hb with rfl | hb2
      · exact has
      · exact lt_trans has (bnd_lo_lt (hnb b hb2))
  · intro e he
    rcases List.mem_append.mp he with he1 | he2
    · exact ⟨(hlb e he1).1, fun b hb =>
        lt_trans (bnd_hi_lt (hlb e he1)) (hbs.2 b hb)⟩
    · rcases List.mem_cons.mp he2 with rfl | he3
      · exact hbs
      · exact ⟨fun b hb => lt_trans (hbs.1 b hb) (bnd_lo_lt (hnb e he3)),
          (hnb e he3).2⟩

/-- `borrowLeft` commutes with peeling the leading key/child pair when
the target index stays at least two. -/
theorem borrowLeft_shift {k0 : Nat × K} {ks : List (Nat × K)}
    {c : TreeNode K} {cs : List (TreeNode K)} {q : Nat}
    {node left : TreeNode K} :
    borrowLeft (k0 :: ks) (c :: cs) (q + 2) node left =
      (k0 :: (borrowLeft ks cs (q + 1) node left).1,
       c :: (borrowLeft ks cs (q + 1) node left).2) := by
  rw [borrowLeft, borrowLeft]
  simp only [show q + 2 - 1 = q + 1 from rfl, show q + 1 - 1 = q from rfl,
    List.getElem?_cons_succ]
  rcases ks[q]? with _ | sep
  · rfl
  · rcases left.keys.getLast? with _ | lastKey
    · rfl
    · simp only [List.set_cons_succ]

/-- `borrowRight` commutes with peeling the leading key/child pair. -/
theorem borrowRight_shift {k0 : Nat × K} {ks : List (Nat × K)}
    {c : TreeNode K} {cs : List (TreeNode K)} {q : Nat}
    {node right : TreeNode K} :
    borrowRight (k0 :: ks) (c :: cs) (q + 2) node right =
      (k0 :: (borrowRight ks cs (q + 1) node right).1,
       c :: (borrowRight ks cs (q + 1) node right).2) := by
  rw [borrowRight, borrowRight]
  simp only [List.getElem?_cons_succ]
  rcases ks[q + 1]? with _ | sep
  · rfl
  · rcases right.keys.head? with _ | firstKey
    · rfl
    · simp only [List.set_cons_succ]

/-- `mergeStep` commutes with peeling the leading key/child pair. -/
theorem mergeStep_shift {k0 : Nat × K} {ks : List (Nat × K)}
    {c : TreeNode K} {cs : List (TreeNode K)} {q : Nat}
    {node : TreeNode K} {left? right? : Option (TreeNode K)} :
    mergeStep (k0 :: ks) (c :: cs) (q + 2) node left? right? =
      (k0 :: (mergeStep ks cs (q + 1) node left? right?).1,
       c :: (mergeStep ks cs (q + 1) node left? right?).2) := by
  rcases left? with _ | left
  · rcases right? with _ | right
    · rw [mergeStep, mergeStep]
    · rw [mergeStep, mergeStep]
      simp only [List.getElem?_cons_succ]
      rcases hsep : ks[q + 1]? with _ | sep
      · rfl
      · simp only [List.set_cons_succ, List.eraseIdx_cons_succ]
  · rw [mergeStep, mergeStep]
    simp only [show q + 2 - 1 = q + 1 from rfl, show q + 1 - 1 = q from rfl,
      List.getElem?_cons_succ]
    rcases hsep : ks[q]? with _ | sep
    · rfl
    · simp only [List.set_cons_succ, List.eraseIdx_cons_succ]

/-- `fixChild` commutes with peeling the leading key/child pair. -/
theorem fixChild_shift {k0 : Nat × K} {ks : List (Nat × K)}
    {c : TreeNode K} {cs : List (TreeNode K)} {q : Nat} :
    fixChild (k0 :: ks) (c :: cs) (q + 2) =
      (k0 :: (fixChild ks cs (q + 1)).1, c :: (fixChild ks cs (q + 1)).2) := by
  rw [fixChild, fixChild]
  simp only [show q + 2 - 1 = q + 1 from rfl, show q + 1 - 1 = q from rfl,
    List.getElem?_cons_succ,
    show (q + 2 = 0) = False by simp, show (q + 1 = 0) = False by simp,
    if_false]
  rcases hnode : cs[q + 1]? with _ | node
  · rfl
  · simp only [hnode, show q + 1 + 1 = q + 2 from rfl]
    rcases hleft : cs[q]? with _ | left
    · rcases hright : cs[q + 2]? with _ | right
      · rfl
      · dsimp only
        split_ifs
        · exact borrowRight_shift
        · exact mergeStep_shift
    · rcases hright : cs[q + 2]? with _ | right
      · dsimp only
        split_ifs
        · exact borrowLeft_shift
        · exact mergeStep_shift
      · dsimp only
        split_ifs
        · exact borrowLeft_shift
        · exact borrowRight_shift
        · exact mergeStep_shift

/-- `rebalance` of one child commutes with peeling the leading
key/child pair. -/
theorem rebalanceAt_shift {ch : Bool} {k0 : Nat × K} {ks : List (Nat × K)}
    {c : TreeNode K} {cs : List (TreeNode K)} {q : Nat} :
    rebalanceAt (.mk ch (k0 :: ks) (c :: cs)) (q + 2) =
      .mk ch (k0 :: TreeNode.keys (rebalanceAt (.mk ch ks cs) (q + 1)))
        (c :: TreeNode.children (rebalanceAt (.mk ch ks cs) (q + 1))) := by
  rw [rebalanceAt, rebalanceAt]
  simp only [List.getElem?_cons_succ]
  rcases hnode : cs[q + 1]? with _ | node
  · rfl
  · simp only [hnode]
    split_ifs
    · rfl
    · rw [fixChild_shift]
      rfl

/-! ### C1 stage J: node-level pieces of `rebalance` -/

/-- The keys stored in a node satisfy its bounds. -/
theorem WF_keys_bnd {lo hi : Option K} {h mn : Nat} {t : TreeNode K}
    (hwf : WF lo hi h mn t) : ∀ k ∈ TreeNode.keys t, bnd lo hi k.2 := by
  match t with
  | .mk ch ks [] =>
    rw [WF] at hwf
    simpa using hwf.2.2.2.2
  | .mk ch ks (c :: cs) =>
    rw [WF] at hwf
    simpa using (WFSeq_keys hwf.2.2.2).2

/-- The keys stored in a node appear among its in-order entries. -/
theorem keys_subset_inorder {t : TreeNode K} {k : Nat × K}
    (hk : k ∈ TreeNode.keys t) : k ∈ inorder t := by
  match t with
  | .mk ch ks [] =>
    rw [inorder_leaf]
    simpa using hk
  | .mk ch ks (c :: cs) =>
    rw [inorder_internal]
    exact List.mem_append_right _ (keys_subset_inorderSeq (by simpa using hk))

/-- Removing the first key of a leaf: the remainder is well-formed
above the removed key. -/
theorem behead_leaf {lo hi : Option K} {mn : Nat} {b z : Bool}
    {fk : Nat × K} {ktail : List (Nat × K)}
    (hwf : WF lo hi 0 mn (.mk b (fk :: ktail) [])) :
    WF (some fk.2) hi 0 (mn - 1) (.mk z ktail []) ∧ bnd lo hi fk.2 := by
  rw [WF] at hwf
  obtain ⟨_, hmn, hmax, hsort, hbd⟩ := hwf
  rw [List.pairwise_cons] at hsort
  refine ⟨?_, hbd fk (List.mem_cons_self _ _)⟩
  rw [WF]
  refine ⟨rfl, by simp at hmn ⊢; omega, by simp at hmax ⊢; omega, hsort.2, ?_⟩
  intro k hk
  exact ⟨fun x hx => by
      rw [Option.mem_def, Option.some.injEq] at hx
      rw [← hx]
      exact hsort.1 k hk,
    (hbd k (List.mem_cons_of_mem _ hk)).2⟩

/-- Removing the first key and first child of an internal node: the
removed child is well-formed below the removed key, the remainder
above it. -/
theorem behead_internal {lo hi : Option K} {h mn : Nat} {b z : Bool}
    {fk : Nat × K} {ktail : List (Nat × K)} {rc : TreeNode K}
    {rest : List (TreeNode K)}
    (hwf : WF lo hi (h + 1) mn (.mk b (fk :: ktail) (rc :: rest))) :
    WF lo (some fk.2) h MIN_KEYS rc ∧ bnd lo hi fk.2 ∧
      WF (some fk.2) hi (h + 1) (mn - 1) (.mk z ktail rest) ∧
      inorder (.mk b (fk :: ktail) (rc :: rest)) =
        inorder rc ++ fk :: inorder (.mk z ktail rest) := by
  rw [WF] at hwf
  obtain ⟨hpos, hmn, hmax, hchain⟩ := hwf
  match rest with
  | [] =>
    rw [WFSeq] at hchain
    exact hchain.elim
  | rc1 :: rest' =>
    rw [WFSeq] at hchain
    obtain ⟨hwf0, hbnd0, hrest0⟩ := hchain
    have hh : h + 1 - 1 = h := by omega
    rw [hh] at hwf0 hrest0
    refine ⟨hwf0, hbnd0, ?_, ?_⟩
    · rw [WF]
      refine ⟨by omega, ?_, ?_, ?_⟩
      · simp only [List.length_cons] at hmn
        omega
      · simp only [List.length_cons] at hmax
        omega
      · rw [hh]
        exact WFSeq_shift_mnAt (by intro q; rfl) hrest0
    · rw [inorder_internal, inorder_internal, inorderSeq_cons_cons]

/-- Removing the last key of a leaf: the remainder is well-formed
below the removed key. -/
theorem pop_leaf {lo hi : Option K} {mn : Nat} {b z : Bool}
    {lk : Nat × K} {lks : List (Nat × K)}
    (hwf : WF lo hi 0 mn (.mk b lks [])) (hlast : lks.getLast? = some lk) :
    WF lo (some lk.2) 0 (mn - 1) (.mk z lks.dropLast []) ∧ bnd lo hi lk.2 ∧
      lks = lks.dropLast ++ [lk] := by
  rw [WF] at hwf
  obtain ⟨_, hmn, hmax, hsort, hbd⟩ := hwf
  have hdec : lks = lks.dropLast ++ [lk] :=
    (List.dropLast_append_getLast? lk hlast).symm
  have hmem : lk ∈ lks := by
    rw [List.getLast?_eq_getElem?] at hlast
    exact List.getElem?_mem hlast
  refine ⟨?_, hbd lk hmem, hdec⟩
  rw [WF]
  have hsort2 : (lks.dropLast ++ [lk]).Pairwise (fun a b => a.2 < b.2) := by
    rw [← hdec]
    exact hsort
  rw [List.pairwise_append] at hsort2
  refine ⟨rfl, ?_, ?_, hsort2.1, ?_⟩
  · have := congrArg List.length hdec
    simp only [List.length_append, List.length_singleton] at this
    omega
  · have := congrArg List.length hdec
    simp only [List.length_append, List.length_singleton] at this
    omega
  · intro k hk
    refine ⟨(hbd k (by rw [hdec]; exact List.mem_append_left _ hk)).1, ?_⟩
    intro x hx
    rw [Option.mem_def, Option.some.injEq] at hx
    rw [← hx]
    exact hsort2.2.2 k hk lk (List.mem_singleton_self _)

/-- Removing the last key and last child of an internal node. -/
theorem pop_internal {lo hi : Option K} {h mn : Nat} {b z : Bool}
    {lk : Nat × K} {lks : List (Nat × K)} {c0 : TreeNode K}
    {cs0 : List (TreeNode K)}
    (hwf : WF lo hi (h + 1) mn (.mk b lks (c0 :: cs0)))
    (hlast : lks.getLast? = some lk) :
    ∃ cl, (c0 :: cs0).getLast? = some cl ∧
      WF lo (some lk.2) (h + 1) (mn - 1)
        (.mk z lks.dropLast (c0 :: cs0).dropLast) ∧
      bnd lo hi lk.2 ∧ WF (some lk.2) hi h MIN_KEYS cl ∧
      inorder (.mk b lks (c0 :: cs0)) =
        inorder (.mk z lks.dropLast (c0 :: cs0).dropLast) ++
          lk :: inorder cl := by
  rw [WF] at hwf
  obtain ⟨hpos, hmn, hmax, hchain⟩ := hwf
  have hh : h + 1 - 1 = h := by omega
  rw [hh] at hchain
  have hlen : cs0.length = lks.length := WFSeq_len hchain
  have hm : lks.length - 1 < lks.length := by
    have : lks ≠ [] := by
      intro hnil
      rw [hnil] at hlast
      simp at hlast
    have := List.length_pos.mpr this
    omega
  obtain ⟨km, cm, hkm, hcm, hleft, hright, hbkm, hdecomp⟩ :=
    WFSeq_cut hchain (lks.length - 1) hm
  have hkmlk : km = lk := by
    rw [List.getLast?_eq_getElem?] at hlast
    rw [hlast] at hkm
    exact (Option.some.inj hkm).symm
  subst hkmlk
  have hdrop : lks.drop (lks.length - 1 + 1) = [] := by
    rw [List.drop_eq_nil_iff]
    omega
  have hdropc : cs0.drop (lks.length - 1 + 1) = [] := by
    rw [List.drop_eq_nil_iff]
    omega
  rw [hdrop, hdropc] at hright hdecomp
  rw [WFSeq] at hright
  have hclast : (c0 :: cs0).getLast? = some cm := by
    rw [List.getLast?_eq_getElem?]
    have h1 : (c0 :: cs0).length - 1 = lks.length - 1 + 1 := by
      simp only [List.length_cons]
      omega
    rw [h1]
    exact hcm
  have hdl : (c0 :: cs0).dropLast = c0 :: cs0.dropLast := by
    match cs0 with
    | [] =>
      simp only [List.length_nil] at hlen
      omega
    | x :: xs => rfl
  refine ⟨cm, hclast, ?_, hbkm, hright, ?_⟩
  · rw [hdl, WF]
    refine ⟨by omega, ?_, ?_, ?_⟩
    · rw [List.dropLast_eq_take, List.length_take]
      omega
    · rw [List.dropLast_eq_take, List.length_take]
      omega
    · rw [hh]
      rw [List.dropLast_eq_take, List.dropLast_eq_take, hlen]
      exact hleft
  · rw [inorder_internal, hdl, inorder_internal, List.dropLast_eq_take,
      List.dropLast_eq_take, hlen, hdecomp]
    simp

/-- Merging two adjacent siblings around their separator. -/
theorem merge_nodes {lo1 hi1 : Option K} {h mnL mnN : Nat} {sep : Nat × K}
    {left node : TreeNode K}
    (hl : WF lo1 (some sep.2) h mnL left) (hbs : bnd lo1 hi1 sep.2)
    (hn : WF (some sep.2) hi1 h mnN node)
    (hcnt : (TreeNode.keys left).length + (TreeNode.keys node).length + 1 ≤
      2 * MIN_KEYS) :
    WF lo1 hi1 h mnL
      (.mk true (TreeNode.keys left ++ sep :: TreeNode.keys node)
        (TreeNode.children left ++ TreeNode.children node)) ∧
    inorder (.mk true (TreeNode.keys left ++ sep :: TreeNode.keys node)
        (TreeNode.children left ++ TreeNode.children node)) =
      inorder left ++ sep :: inorder node := by
  match h, left, node with
  | 0, left, node =>
    obtain ⟨bl, lks, rfl⟩ := WF_zero_leaf hl
    obtain ⟨bn, nks, rfl⟩ := WF_zero_leaf hn
    rw [WF] at hl hn
    obtain ⟨hk1, hk2⟩ := merged_leaf_keys hl.2.2.2.1 hl.2.2.2.2 hbs
      hn.2.2.2.1 hn.2.2.2.2
    simp only [TreeNode.keys_mk, TreeNode.children_mk, List.append_nil]
    constructor
    · rw [WF]
      refine ⟨rfl, ?_, ?_, hk1, hk2⟩
      · simp only [List.length_append, List.length_cons]
        have := hl.2.1
        omega
      · simpa using hcnt
    · rw [inorder_leaf, inorder_leaf, inorder_leaf]
  | h + 1, left, node =>
    obtain ⟨bl, lks, lc, lcs, rfl⟩ := WF_pos_children hl (by omega)
    obtain ⟨bn, nks, nc, ncs, rfl⟩ := WF_pos_children hn (by omega)
    rw [WF] at hl hn
    have hh : h + 1 - 1 = h := by omega
    rw [hh] at hl hn
    obtain ⟨hseq, hio⟩ := WFSeq_concat hl.2.2.2 hbs hn.2.2.2
    simp only [TreeNode.keys_mk, TreeNode.children_mk]
    constructor
    · rw [show (lc :: lcs) ++ (nc :: ncs) = lc :: (lcs ++ nc :: ncs) from rfl,
        WF]
      refine ⟨by omega, ?_, ?_, ?_⟩
      · simp only [List.length_append, List.length_cons]
        omega
      · simpa using hcnt
      · rw [hh]
        exact hseq
    · rw [show (lc :: lcs) ++ (nc :: ncs) = lc :: (lcs ++ nc :: ncs) from rfl,
        inorder_internal, inorder_internal, inorder_internal, hio]
      simp

/-- Appending the parent separator and the right sibling's first child
at the right end of a node (the `borrowRight` shape), leaf form. -/
theorem append_leaf {lo hiX : Option K} {mn : Nat} {b z : Bool}
    {sep : Nat × K} {nks : List (Nat × K)}
    (hwf : WF lo (some sep.2) 0 mn (.mk b nks []))
    (hbs : bnd lo hiX sep.2)
    (hcnt : nks.length + 1 ≤ 2 * MIN_KEYS) :
    WF lo hiX 0 (mn + 1) (.mk z (nks ++ [sep]) []) := by
  rw [WF] at hwf ⊢
  obtain ⟨_, hmn, hmax, hsort, hbd⟩ := hwf
  obtain ⟨hk1, hk2⟩ := @merged_leaf_keys K _ _ _ ([] : List (Nat × K)) _ _ hsort
    hbd hbs List.Pairwise.nil (by simp)
  refine ⟨rfl, by simp; omega, by simpa using hcnt, ?_, ?_⟩
  · simpa using hk1
  · intro k hk
    exact hk2 k (by simpa using hk)

/-- Appending the parent separator and the right sibling's first child
at the right end of a node, internal form. -/
theorem append_internal {lo hiX : Option K} {h mn : Nat} {b z : Bool}
    {sep : Nat × K} {nks : List (Nat × K)} {nc : TreeNode K}
    {ncs : List (TreeNode K)} {rc : TreeNode K}
    (hwf : WF lo (some sep.2) (h + 1) mn (.mk b nks (nc :: ncs)))
    (hbs : bnd lo hiX sep.2)
    (hrc : WF (some sep.2) hiX h MIN_KEYS rc)
    (hcnt : nks.length + 1 ≤ 2 * MIN_KEYS) :
    WF lo hiX (h + 1) (mn + 1) (.mk z (nks ++ [sep]) ((nc :: ncs) ++ [rc])) ∧
      inorder (.mk z (nks ++ [sep]) ((nc :: ncs) ++ [rc])) =
        inorder (.mk b nks (nc :: ncs)) ++ sep :: inorder rc := by
  rw [WF] at hwf
  obtain ⟨hpos, hmn, hmax, hchain⟩ := hwf
  have hh : h + 1 - 1 = h := by omega
  rw [hh] at hchain
  obtain ⟨hseq, hio⟩ := WFSeq_snoc hchain hbs hrc
  constructor
  · rw [show (nc :: ncs) ++ [rc] = nc :: (ncs ++ [rc]) from rfl, WF]
    refine ⟨by omega, by simp; omega, by simpa using hcnt, ?_⟩
    rw [hh]
    exact hseq
  · rw [show (nc :: ncs) ++ [rc] = nc :: (ncs ++ [rc]) from rfl,
      inorder_internal, inorder_internal, hio]
    simp

/-- Prepending the parent separator and the left sibling's last child
at the left end of a node (the `borrowLeft` shape), leaf form. -/
theorem prepend_leaf {loX hi : Option K} {mn : Nat} {b z : Bool}
    {sep : Nat × K} {nks : List (Nat × K)}
    (hwf : WF (some sep.2) hi 0 mn (.mk b nks []))
    (hbs : bnd loX hi sep.2)
    (hcnt : nks.length + 1 ≤ 2 * MIN_KEYS) :
    WF loX hi 0 (mn + 1) (.mk z (sep :: nks) []) := by
  rw [WF] at hwf ⊢
  obtain ⟨_, hmn, hmax, hsort, hbd⟩ := hwf
  refine ⟨rfl, by simp; omega, by simpa using hcnt, ?_, ?_⟩
  · rw [List.pairwise_cons]
    exact ⟨fun e he => bnd_lo_lt (hbd e he), hsort⟩
  · intro k hk
    rcases List.mem_cons.mp hk with rfl | hk2
    · exact hbs
    · exact ⟨fun x hx => lt_trans (hbs.1 x hx) (bnd_lo_lt (hbd k hk2)),
        (hbd k hk2).2⟩

/-- Prepending the parent separator and the left sibling's last child
at the left end of a node, internal form. -/
theorem prepend_internal {loX hi : Option K} {h mn : Nat} {b z : Bool}
    {sep : Nat × K} {nks : List (Nat × K)} {nc : TreeNode K}
    {ncs : List (TreeNode K)} {lc : TreeNode K}
    (hwf : WF (some sep.2) hi (h + 1) mn (.mk b nks (nc :: ncs)))
    (hbs : bnd loX hi sep.2)
    (hlc : WF loX (some sep.2) h MIN_KEYS lc)
    (hcnt : nks.length + 1 ≤ 2 * MIN_KEYS) :
    WF loX hi (h + 1) (mn + 1) (.mk z (sep :: nks) (lc :: nc :: ncs)) ∧
      inorder (.mk z (sep :: nks) (lc :: nc :: ncs)) =
        inorder lc ++ sep :: inorder (.mk b nks (nc :: ncs)) := by
  rw [WF] at hwf
  obtain ⟨hpos, hmn, hmax, hchain⟩ := hwf
  have hh : h + 1 - 1 = h := by omega
  rw [hh] at hchain
  constructor
  · rw [WF]
    refine ⟨by omega, by simp; omega, by simpa using hcnt, ?_⟩
    rw [hh, WFSeq]
    exact ⟨hlc, hbs, WFSeq_mnK_shift hchain⟩
  · rw [inorder_internal, inorder_internal, inorderSeq_cons_cons]

/-- Replacing the head child of an interleaving by a tree that is
well-formed between the new lower bound and the head's slot. -/
theorem WFSeq_replace_head {lo lo' hi : Option K} {h : Nat}
    {mnAt : Nat → Nat} {j : Nat} {c c2 : TreeNode K} :
    ∀ {ks : List (Nat × K)} {cs : List (TreeNode K)},
    WFSeq lo hi h mnAt j c ks cs →
    (∀ hi0 : Option K, WF lo hi0 h (mnAt j) c → WF lo' hi0 h (mnAt j) c2) →
    (∀ b ∈ lo', ∀ k ∈ ks, b < k.2) →
    WFSeq lo' hi h mnAt j c2 ks cs := by
  intro ks
  match ks with
  | [] =>
    intro cs hseq hc2 _
    match cs with
    | [] =>
      rw [WFSeq] at hseq ⊢
      exact hc2 hi hseq
    | c' :: cs =>
      rw [WFSeq] at hseq
      exact hseq.elim
  | k :: ks =>
    intro cs hseq hc2 hkeys
    match cs with
    | [] =>
      rw [WFSeq] at hseq
      exact hseq.elim
    | c' :: cs =>
      rw [WFSeq] at hseq ⊢
      exact ⟨hc2 (some k.2) hseq.1,
        ⟨fun b hb => hkeys b hb k (List.mem_cons_self _ _), hseq.2.1.2⟩,
        hseq.2.2⟩

/-- The head child of an interleaving is well-formed between the
chain's outer bounds. -/
theorem WFSeq_head_wf {lo hi : Option K} {h : Nat} {mnAt : Nat → Nat}
    {j : Nat} {c : TreeNode K} :
    ∀ {ks : List (Nat × K)} {cs : List (TreeNode K)},
    WFSeq lo hi h mnAt j c ks cs → WF lo hi h (mnAt j) c := by
  intro ks
  match ks with
  | [] =>
    intro cs hseq
    match cs with
    | [] =>
      rw [WFSeq] at hseq
      exact hseq
    | c' :: cs =>
      rw [WFSeq] at hseq
      exact hseq.elim
  | k :: ks =>
    intro cs hseq
    match cs with
    | [] =>
      rw [WFSeq] at hseq
      exact hseq.elim
    | c' :: cs =>
      rw [WFSeq] at hseq
      exact WF_widen_hi hseq.1
        (fun x hx b hb => lt_trans (hx k.2 rfl) (hseq.2.1.2 b hb))

/-- A node with at least one key that is well-formed above `a` pushes
`a` strictly below the node's upper bound. -/
theorem bnd_below_node {a : K} {hi0 : Option K} {h mn : Nat}
    {t : TreeNode K} (hwf : WF (some a) hi0 h mn t)
    (hpos : 0 < (TreeNode.keys t).length) : ∀ z ∈ hi0, a < z := by
  intro z hb2
  have hne : TreeNode.keys t ≠ [] := List.ne_nil_of_length_pos hpos
  obtain ⟨kx, hkx⟩ := List.exists_mem_of_ne_nil _ hne
  have hb := WF_keys_bnd hwf kx hkx
  exact lt_trans (hb.1 a rfl) (hb.2 z hb2)

/-- `MIN_KEYS - 1 + 1 = MIN_KEYS`. -/
theorem min_keys_sub_add : MIN_KEYS - 1 + 1 = MIN_KEYS := by
  simp [MIN_KEYS, T]

/-- Fixing the underfull head child (`rebalance` at index 0): borrow
from the right sibling when it can spare a key, else merge with it.
The repaired interleaving is well-formed, its entries are unchanged,
and at most one parent key is consumed. -/
theorem fixChild_zero_spec {k0 : Nat × K} {ks : List (Nat × K)}
    {cs : List (TreeNode K)} {lo hi : Option K} {h : Nat} {c c' : TreeNode K}
    (hwf : WF lo (some k0.2) h (MIN_KEYS - 1) c)
    (hcnt : (TreeNode.keys c).length = MIN_KEYS - 1)
    (hbnd : bnd lo hi k0.2)
    (hrestK : WFSeq (some k0.2) hi h mnK 1 c' ks cs) :
    ∃ ks2 c2 cs2,
      fixChild (k0 :: ks) (c :: c' :: cs) 0 = (ks2, c2 :: cs2) ∧
      WFSeq lo hi h mnK 0 c2 ks2 cs2 ∧
      inorder c2 ++ inorderSeq ks2 cs2 =
        inorder c ++ (k0 :: (inorder c' ++ inorderSeq ks cs)) ∧
      ks.length ≤ ks2.length ∧ ks2.length ≤ ks.length + 1 := by
  have hc' : WF (some k0.2) hi h MIN_KEYS c' :=
    @WFSeq_head_wf K _ _ _ _ mnK _ _ _ _ hrestK
  have hc'len := WF_keys_len hc'
  have hfc : fixChild (k0 :: ks) (c :: c' :: cs) 0 =
      if MIN_KEYS < (TreeNode.keys c').length then
        borrowRight (k0 :: ks) (c :: c' :: cs) 0 c c'
      else mergeStep (k0 :: ks) (c :: c' :: cs) 0 c none (some c') := by
    rw [fixChild]
    simp
  have hcross : ∀ e ∈ inorder c', ∀ q ∈ ks, e.2 < q.2 := by
    have hsorted := (inorder_sorted_all (sizeOf c' + sizeOf cs)).2 c' ks cs
      (le_refl _) (some k0.2) hi h mnK 1 hrestK
    rw [List.pairwise_append] at hsorted
    intro e he q hq
    exact hsorted.2.2 e he q (keys_subset_inorderSeq hq)
  have hc'bnd : ∀ e ∈ inorder c', bnd (some k0.2) hi e.2 :=
    WF_inorder_bnd hc'
  by_cases hgt : MIN_KEYS < (TreeNode.keys c').length
  · -- borrow the right sibling's first key
    rw [if_pos hgt] at hfc
    rcases h with _ | h
    · -- leaf level
      obtain ⟨bc, cks, rfl⟩ := WF_zero_leaf hwf
      obtain ⟨bc', cks', rfl⟩ := WF_zero_leaf hc'
      match cks', hgt, hc', hc'bnd, hcross, hrestK with
      | [], hgt, _, _, _, _ => simp [MIN_KEYS, T] at hgt
      | fk :: ktail, hgt, hc', hc'bnd, hcross, hrestK =>
      have hfkm : fk ∈ inorder (TreeNode.mk bc' (fk :: ktail) []) := by
        rw [inorder_leaf]
        exact List.mem_cons_self _ _
      have hk0fk : k0.2 < fk.2 := bnd_lo_lt (hc'bnd fk hfkm)
      have hbr : borrowRight (k0 :: ks) (TreeNode.mk bc cks [] ::
          TreeNode.mk bc' (fk :: ktail) [] :: cs) 0 (.mk bc cks [])
          (.mk bc' (fk :: ktail) []) =
          (fk :: ks, TreeNode.mk bc (cks ++ [k0]) [] ::
            TreeNode.mk true ktail [] :: cs) := by
        rw [borrowRight]
        simp
      rw [hbr] at hfc
      refine ⟨fk :: ks, _, _, hfc, ?_, ?_, by simp, by simp⟩
      · rw [WFSeq]
        refine ⟨?_, bnd_widen_lo (hc'bnd fk hfkm) hbnd.1, ?_⟩
        · have := append_leaf (z := bc) hwf
            ⟨hbnd.1, fun b hb => by
              rw [Option.mem_def, Option.some.injEq] at hb
              rw [← hb]
              exact hk0fk⟩
            (by
              simp only [TreeNode.keys_mk] at hcnt ⊢
              simp only [MIN_KEYS, T] at hcnt ⊢
              omega)
          rw [min_keys_sub_add] at this
          simpa using this
        · refine WFSeq_replace_head hrestK ?_ ?_
          · intro hi0 hx
            have hb := behead_leaf (z := true) hx
            refine WF_any_mn hb.1 ?_
            simp only [TreeNode.keys_mk, List.length_cons, mnK] at hgt ⊢
            omega
          · intro b hb q hq
            rw [Option.mem_def, Option.some.injEq] at hb
            rw [← hb]
            exact hcross fk hfkm q hq
      · rw [inorderSeq_cons_cons, inorder_leaf, inorder_leaf, inorder_leaf,
          inorder_leaf]
        simp
    · -- internal level
      obtain ⟨bc, cks, cc0, ccs, rfl⟩ := WF_pos_children hwf (by omega)
      obtain ⟨bc', cks', cc0', ccs', rfl⟩ := WF_pos_children hc' (by omega)
      match cks', hgt, hc', hc'bnd, hcross, hrestK with
      | [], hgt, _, _, _, _ => simp [MIN_KEYS, T] at hgt
      | fk :: ktail, hgt, hc', hc'bnd, hcross, hrestK =>
      obtain ⟨hrc, hbfk, hrt, hio'⟩ := behead_internal (z := true) hc'
      have hfkm : fk ∈ inorder (TreeNode.mk bc' (fk :: ktail)
          (cc0' :: ccs')) :=
        keys_subset_inorder (by simp)
      have hk0fk : k0.2 < fk.2 := bnd_lo_lt (hc'bnd fk hfkm)
      have hbfk2 : bnd lo (some fk.2) k0.2 :=
        ⟨hbnd.1, fun b hb => by
          rw [Option.mem_def, Option.some.injEq] at hb
          rw [← hb]
          exact hk0fk⟩
      obtain ⟨hap, hioap⟩ := append_internal (z := bc) hwf hbfk2 hrc
        (by
          simp only [TreeNode.keys_mk] at hcnt ⊢
          simp only [MIN_KEYS, T] at hcnt ⊢
          omega)
      have hbr : borrowRight (k0 :: ks) (TreeNode.mk bc cks (cc0 :: ccs) ::
          TreeNode.mk bc' (fk :: ktail) (cc0' :: ccs') :: cs) 0
          (.mk bc cks (cc0 :: ccs)) (.mk bc' (fk :: ktail) (cc0' :: ccs')) =
          (fk :: ks, TreeNode.mk bc (cks ++ [k0]) ((cc0 :: ccs) ++ [cc0']) ::
            TreeNode.mk true ktail ccs' :: cs) := by
        rw [borrowRight]
        simp
      rw [hbr] at hfc
      refine ⟨fk :: ks, _, _, hfc, ?_, ?_, by simp, by simp⟩
      · rw [WFSeq]
        refine ⟨?_, bnd_widen_lo (hc'bnd fk hfkm) hbnd.1, ?_⟩
        · rw [min_keys_sub_add] at hap
          exact hap
        · refine WFSeq_replace_head hrestK ?_ ?_
          · intro hi0 hx
            obtain ⟨_, _, hb3, _⟩ := behead_internal (z := true) hx
            refine WF_any_mn hb3 ?_
            simp only [TreeNode.keys_mk, List.length_cons, mnK] at hgt ⊢
            omega
          · intro b hb q hq
            rw [Option.mem_def, Option.some.injEq] at hb
            rw [← hb]
            exact hcross fk hfkm q hq
      · rw [inorderSeq_cons_cons, hioap, hio']
        simp
  · -- merge with the right sibling
    rw [if_neg hgt] at hfc
    have hc'cnt : (TreeNode.keys c').length = MIN_KEYS :=
      le_antisymm (not_lt.mp hgt) hc'len.1
    have hms : mergeStep (k0 :: ks) (c :: c' :: cs) 0 c none (some c') =
        (ks, TreeNode.mk true (TreeNode.keys c ++ k0 :: TreeNode.keys c')
          (TreeNode.children c ++ TreeNode.children c') :: cs) := by
      rw [mergeStep]
      simp
    rw [hms] at hfc
    have hcnt8 : (TreeNode.keys c).length + (TreeNode.keys c').length + 1 ≤
        2 * MIN_KEYS := by
      rw [hcnt, hc'cnt]
      simp [MIN_KEYS, T]
    obtain ⟨hm, hiom⟩ := merge_nodes hwf hbnd hc' hcnt8
    refine ⟨ks, _, _, hfc, ?_, ?_, le_refl _, by omega⟩
    · refine WFSeq_mnK_shift (j := 1)
        (WFSeq_replace_head hrestK ?_ ?_)
      · intro hi0 hx
        have hup : ∀ z ∈ hi0, k0.2 < z :=
          bnd_below_node hx (by rw [hc'cnt]; simp [MIN_KEYS, T])
        obtain ⟨hm0, _⟩ := merge_nodes hwf ⟨hbnd.1, hup⟩ hx hcnt8
        refine WF_any_mn hm0 ?_
        simp only [TreeNode.keys_mk, List.length_append, List.length_cons, mnK]
        have h4 : MIN_KEYS ≤ (TreeNode.keys c').length := by
          rw [hc'cnt]
        omega
      · intro b hb q hq
        have hq2 := (WFSeq_keys hrestK).2 q hq
        exact lt_trans (hbnd.1 b hb) (bnd_lo_lt hq2)
    · rw [hiom]
      simp

/-- The two nodes produced by `borrowLeft`: the left sibling donates
its last key (and last child), which prefixes the underfull node. -/
theorem borrow_left_pieces {lo X : Option K} {h : Nat} {c c' : TreeNode K}
    {k0 : Nat × K}
    (hc : WF lo (some k0.2) h MIN_KEYS c)
    (hbig : MIN_KEYS < (TreeNode.keys c).length)
    (hb0 : bnd lo X k0.2)
    (hc' : WF (some k0.2) X h (MIN_KEYS - 1) c')
    (hcnt' : (TreeNode.keys c').length = MIN_KEYS - 1) :
    ∃ lk, (TreeNode.keys c).getLast? = some lk ∧
      WF lo (some lk.2) h MIN_KEYS
        (.mk true (TreeNode.keys c).dropLast (TreeNode.children c).dropLast) ∧
      bnd lo X lk.2 ∧
      WF (some lk.2) X h MIN_KEYS
        (.mk (TreeNode.changed c') (k0 :: TreeNode.keys c')
          (match (TreeNode.children c).getLast? with
           | some lc => lc :: TreeNode.children c'
           | none => TreeNode.children c')) ∧
      inorder (.mk true (TreeNode.keys c).dropLast
          (TreeNode.children c).dropLast) ++
        lk :: inorder (.mk (TreeNode.changed c') (k0 :: TreeNode.keys c')
          (match (TreeNode.children c).getLast? with
           | some lc => lc :: TreeNode.children c'
           | none => TreeNode.children c')) =
        inorder c ++ k0 :: inorder c' := by
  have hclen := WF_keys_len hc
  rcases h with _ | h
  · obtain ⟨bc, cks, rfl⟩ := WF_zero_leaf hc
    obtain ⟨bc', cks', rfl⟩ := WF_zero_leaf hc'
    have hne : cks ≠ [] := by
      intro hnil
      rw [hnil] at hbig
      simp [MIN_KEYS, T] at hbig
    rcases hlk : cks.getLast? with _ | lk
    · rw [List.getLast?_eq_none_iff] at hlk
      exact absurd hlk hne
    obtain ⟨hpop, hblk, hdec⟩ := pop_leaf (z := true) hc hlk
    have hlkk0 : lk.2 < k0.2 := bnd_hi_lt hblk
    have hblkX : bnd lo X lk.2 :=
      ⟨hblk.1, fun b hb => lt_trans hlkk0 (hb0.2 b hb)⟩
    have hpre := prepend_leaf (z := bc') hc'
      ⟨fun b hb => by
        rw [Option.mem_def, Option.some.injEq] at hb
        rw [← hb]
        exact hlkk0, hb0.2⟩
      (by
        simp only [TreeNode.keys_mk] at hcnt' ⊢
        simp only [MIN_KEYS, T] at hcnt' ⊢
        omega)
    refine ⟨lk, by simpa using hlk, ?_, hblkX, ?_, ?_⟩
    · refine WF_any_mn hpop ?_
      simp only [TreeNode.keys_mk, TreeNode.children_mk]
      rw [List.dropLast_eq_take, List.length_take]
      simp only [TreeNode.keys_mk] at hbig hclen
      omega
    · simp only [TreeNode.keys_mk, TreeNode.children_mk, TreeNode.changed_mk,
        List.getLast?_nil]
      rw [min_keys_sub_add] at hpre
      exact hpre
    · simp only [TreeNode.keys_mk, TreeNode.children_mk, TreeNode.changed_mk,
        List.getLast?_nil, List.dropLast_nil, inorder_leaf]
      conv_rhs => rw [hdec]
      simp
  · obtain ⟨bc, cks, cc0, ccs, rfl⟩ := WF_pos_children hc (by omega)
    obtain ⟨bc', cks', cc0', ccs', rfl⟩ := WF_pos_children hc' (by omega)
    have hne : cks ≠ [] := by
      intro hnil
      rw [hnil] at hbig
      simp [MIN_KEYS, T] at hbig
    rcases hlk : cks.getLast? with _ | lk
    · rw [List.getLast?_eq_none_iff] at hlk
      exact absurd hlk hne
    obtain ⟨cl, hcl, hpop, hblk, hclw, hiop⟩ :=
      pop_internal (z := true) hc hlk
    have hlkk0 : lk.2 < k0.2 := bnd_hi_lt hblk
    have hblkX : bnd lo X lk.2 :=
      ⟨hblk.1, fun b hb => lt_trans hlkk0 (hb0.2 b hb)⟩
    obtain ⟨hpre, hiopre⟩ := prepend_internal (z := bc') hc'
      ⟨fun b hb => by
        rw [Option.mem_def, Option.some.injEq] at hb
        rw [← hb]
        exact hlkk0, hb0.2⟩
      hclw
      (by
        simp only [TreeNode.keys_mk] at hcnt' ⊢
        simp only [MIN_KEYS, T] at hcnt' ⊢
        omega)
    refine ⟨lk, by simpa using hlk, ?_, hblkX, ?_, ?_⟩
    · refine WF_any_mn hpop ?_
      simp only [TreeNode.keys_mk, TreeNode.children_mk]
      rw [List.dropLast_eq_take, List.length_take]
      simp only [TreeNode.keys_mk] at hbig hclen
      omega
    · simp only [TreeNode.keys_mk, TreeNode.children_mk, TreeNode.changed_mk,
        hcl]
      rw [min_keys_sub_add] at hpre
      exact hpre
    · simp only [TreeNode.keys_mk, TreeNode.children_mk, TreeNode.changed_mk,
        hcl]
      rw [hiop, hiopre]
      simp

/-- The two nodes produced by `borrowRight`: the right sibling donates
its first key (and first child), which suffixes the underfull node.
The beheaded sibling is well-formed under any upper bound the sibling
itself satisfies. -/
theorem borrow_right_pieces {lo0 hi0 : Option K} {h : Nat}
    {node right : TreeNode K} {sep : Nat × K}
    (hn : WF lo0 (some sep.2) h (MIN_KEYS - 1) node)
    (hcntn : (TreeNode.keys node).length = MIN_KEYS - 1)
    (hb0 : bnd lo0 hi0 sep.2)
    (hr : WF (some sep.2) hi0 h MIN_KEYS right)
    (hbig : MIN_KEYS < (TreeNode.keys right).length) :
    ∃ fk, (TreeNode.keys right).head? = some fk ∧
      WF lo0 (some fk.2) h MIN_KEYS
        (.mk (TreeNode.changed node) (TreeNode.keys node ++ [sep])
          (match (TreeNode.children right).head? with
           | some rc => TreeNode.children node ++ [rc]
           | none => TreeNode.children node)) ∧
      bnd lo0 hi0 fk.2 ∧
      (∀ hi1 : Option K, WF (some sep.2) hi1 h MIN_KEYS right →
        WF (some fk.2) hi1 h MIN_KEYS
          (.mk true (TreeNode.keys right).tail
            (TreeNode.children right).tail)) ∧
      inorder (.mk (TreeNode.changed node) (TreeNode.keys node ++ [sep])
          (match (TreeNode.children right).head? with
           | some rc => TreeNode.children node ++ [rc]
           | none => TreeNode.children node)) ++
        fk :: inorder (.mk true (TreeNode.keys right).tail
          (TreeNode.children right).tail) =
        inorder node ++ sep :: inorder right := by
  rcases h with _ | h
  · obtain ⟨bn, nks, rfl⟩ := WF_zero_leaf hn
    obtain ⟨br, rks, rfl⟩ := WF_zero_leaf hr
    match rks, hr, hbig with
    | [], _, hbig => simp [MIN_KEYS, T] at hbig
    | fk :: rkt, hr, hbig =>
    have hfkb : bnd (some sep.2) hi0 fk.2 :=
      WF_keys_bnd hr fk (by simp)
    have hsfk : sep.2 < fk.2 := bnd_lo_lt hfkb
    refine ⟨fk, by simp, ?_, bnd_widen_lo hfkb hb0.1, ?_, ?_⟩
    · have := append_leaf (z := bn) hn
        ⟨hb0.1, fun b hb => by
          rw [Option.mem_def, Option.some.injEq] at hb
          rw [← hb]
          exact hsfk⟩
        (by
          simp only [TreeNode.keys_mk] at hcntn ⊢
          simp only [MIN_KEYS, T] at hcntn ⊢
          omega)
      rw [min_keys_sub_add] at this
      simp only [TreeNode.keys_mk, TreeNode.children_mk, TreeNode.changed_mk,
        List.head?_nil]
      exact this
    · intro hi1 hr1
      have hb := behead_leaf (z := true) hr1
      refine WF_any_mn hb.1 ?_
      simp only [TreeNode.keys_mk, List.length_cons, mnK] at hbig ⊢
      simp only [List.tail_cons]
      omega
    · simp only [TreeNode.keys_mk, TreeNode.children_mk, TreeNode.changed_mk,
        List.head?_nil, List.tail_cons, List.tail_nil, inorder_leaf]
      simp
  · obtain ⟨bn, nks, nc0, ncs, rfl⟩ := WF_pos_children hn (by omega)
    obtain ⟨br, rks, rc0, rcs, rfl⟩ := WF_pos_children hr (by omega)
    match rks, hr, hbig with
    | [], _, hbig => simp [MIN_KEYS, T] at hbig
    | fk :: rkt, hr, hbig =>
    obtain ⟨hrc, hbfk, hrt, hior⟩ := behead_internal (z := true) hr
    have hsfk : sep.2 < fk.2 := bnd_lo_lt hbfk
    obtain ⟨hap, hioap⟩ := append_internal (z := bn) hn
      ⟨hb0.1, fun b hb => by
        rw [Option.mem_def, Option.some.injEq] at hb
        rw [← hb]
        exact hsfk⟩
      hrc
      (by
        simp only [TreeNode.keys_mk] at hcntn ⊢
        simp only [MIN_KEYS, T] at hcntn ⊢
        omega)
    refine ⟨fk, by simp, ?_, bnd_widen_lo hbfk hb0.1, ?_, ?_⟩
    · rw [min_keys_sub_add] at hap
      simp only [TreeNode.keys_mk, TreeNode.children_mk, TreeNode.changed_mk,
        List.head?_cons]
      exact hap
    · intro hi1 hr1
      obtain ⟨_, _, hb3, _⟩ := behead_internal (z := true) hr1
      refine WF_any_mn hb3 ?_
      simp only [TreeNode.keys_mk, List.length_cons, mnK] at hbig ⊢
      simp only [List.tail_cons]
      omega
    · simp only [TreeNode.keys_mk, TreeNode.children_mk, TreeNode.changed_mk,
        List.head?_cons, List.tail_cons]
      rw [hioap, hior]
      simp

/-- Fixing an underfull child at position 1: borrow from the left
sibling (the head child) when it can spare a key, else borrow from the
right sibling, else merge into the left sibling. -/
theorem fixChild_one_spec {k0 : Nat × K} {ks : List (Nat × K)}
    {cs : List (TreeNode K)} {lo hi : Option K} {h : Nat} {c c' : TreeNode K}
    (hwf : WF lo (some k0.2) h MIN_KEYS c)
    (hbnd : bnd lo hi k0.2)
    (hrest : WFSeq (some k0.2) hi h (mnX 1) 1 c' ks cs)
    (hcnt' : (TreeNode.keys c').length = MIN_KEYS - 1) :
    ∃ ks2 c2 cs2,
      fixChild (k0 :: ks) (c :: c' :: cs) 1 = (ks2, c2 :: cs2) ∧
      WFSeq lo hi h mnK 0 c2 ks2 cs2 ∧
      inorder c2 ++ inorderSeq ks2 cs2 =
        inorder c ++ (k0 :: (inorder c' ++ inorderSeq ks cs)) ∧
      ks.length ≤ ks2.length ∧ ks2.length ≤ ks.length + 1 := by
  match ks, cs with
  | [], c'' :: cs'' =>
    rw [WFSeq] at hrest
    exact hrest.elim
  | k1 :: ks', [] =>
    rw [WFSeq] at hrest
    exact hrest.elim
  | [], [] =>
    have hc'w : WF (some k0.2) hi h (MIN_KEYS - 1) c' := by
      rw [WFSeq] at hrest
      rwa [mnX_at] at hrest
    have hfc : fixChild [k0] [c, c'] 1 =
        if MIN_KEYS < (TreeNode.keys c).length then
          borrowLeft [k0] [c, c'] 1 c' c
        else mergeStep [k0] [c, c'] 1 c' (some c) none := by
      rw [fixChild]
      simp
    by_cases hbig : MIN_KEYS < (TreeNode.keys c).length
    · rw [if_pos hbig] at hfc
      obtain ⟨lk, hlk, hleft, hblk, hnode, hio⟩ :=
        borrow_left_pieces hwf hbig hbnd hc'w hcnt'
      have hbl : borrowLeft [k0] [c, c'] 1 c' c =
          ([lk], [.mk true (TreeNode.keys c).dropLast
              (TreeNode.children c).dropLast,
            .mk (TreeNode.changed c') (k0 :: TreeNode.keys c')
              (match (TreeNode.children c).getLast? with
               | some lc => lc :: TreeNode.children c'
               | none => TreeNode.children c')]) := by
        rw [borrowLeft]
        simp [hlk]
      rw [hbl] at hfc
      refine ⟨[lk], _, _, hfc, ?_, ?_, by simp, by simp⟩
      · rw [WFSeq]
        refine ⟨hleft, hblk, ?_⟩
        rw [WFSeq]
        exact hnode
      · simp only [inorderSeq_cons_cons, inorderSeq_nil, List.append_nil]
        simpa using hio
    · rw [if_neg hbig] at hfc
      have hcnt4 : (TreeNode.keys c).length = MIN_KEYS :=
        le_antisymm (not_lt.mp hbig) (WF_keys_len hwf).1
      have hms : mergeStep [k0] [c, c'] 1 c' (some c) none =
          ([], [.mk true (TreeNode.keys c ++ k0 :: TreeNode.keys c')
            (TreeNode.children c ++ TreeNode.children c')]) := by
        rw [mergeStep]
        simp
      rw [hms] at hfc
      obtain ⟨hm, hiom⟩ := merge_nodes hwf hbnd hc'w
        (by rw [hcnt4, hcnt']; simp [MIN_KEYS, T])
      refine ⟨[], _, _, hfc, ?_, ?_, by simp, by simp⟩
      · rw [WFSeq]
        exact hm
      · simp only [inorderSeq_nil, List.append_nil]
        simpa using hiom
  | k1 :: ks', c'' :: cs'' =>
    rw [WFSeq] at hrest
    obtain ⟨hc'x, hbnd1, hrest2⟩ := hrest
    rw [mnX_at] at hc'x
    have hrest2K : WFSeq (some k1.2) hi h mnK 2 c'' ks' cs'' :=
      WFSeq_shift_mnAt (by
        intro q
        rw [mnX_ne (by omega)]
        rfl) hrest2
    have hc'' : WF (some k1.2) hi h MIN_KEYS c'' :=
      @WFSeq_head_wf K _ _ _ _ mnK _ _ _ _ hrest2K
    have hk01 : k0.2 < k1.2 := bnd_lo_lt hbnd1
    have hfc : fixChild (k0 :: k1 :: ks') (c :: c' :: c'' :: cs'') 1 =
        if MIN_KEYS < (TreeNode.keys c).length then
          borrowLeft (k0 :: k1 :: ks') (c :: c' :: c'' :: cs'') 1 c' c
        else if MIN_KEYS < (TreeNode.keys c'').length then
          borrowRight (k0 :: k1 :: ks') (c :: c' :: c'' :: cs'') 1 c' c''
        else mergeStep (k0 :: k1 :: ks') (c :: c' :: c'' :: cs'') 1 c'
          (some c) (some c'') := by
      rw [fixChild]
      simp
    by_cases hbig : MIN_KEYS < (TreeNode.keys c).length
    · rw [if_pos hbig] at hfc
      obtain ⟨lk, hlk, hleft, hblk, hnode, hio⟩ :=
        borrow_left_pieces (X := some k1.2) hwf hbig
          ⟨hbnd.1, fun b hb => by
            rw [Option.mem_def, Option.some.injEq] at hb
            rw [← hb]
            exact hk01⟩ hc'x hcnt'
      have hbl : borrowLeft (k0 :: k1 :: ks') (c :: c' :: c'' :: cs'') 1 c' c =
          (lk :: k1 :: ks', .mk true (TreeNode.keys c).dropLast
              (TreeNode.children c).dropLast ::
            .mk (TreeNode.changed c') (k0 :: TreeNode.keys c')
              (match (TreeNode.children c).getLast? with
               | some lc => lc :: TreeNode.children c'
               | none => TreeNode.children c') :: c'' :: cs'') := by
        rw [borrowLeft]
        simp [hlk]
      rw [hbl] at hfc
      refine ⟨lk :: k1 :: ks', _, _, hfc, ?_, ?_,
        by simp only [List.length_cons]; omega,
        by simp only [List.length_cons]; omega⟩
      · rw [WFSeq]
        refine ⟨hleft, bnd_widen_hi hblk (fun b hb => hbnd1.2 b hb), ?_⟩
        rw [WFSeq]
        refine ⟨hnode, ⟨fun b hb => by
          rw [Option.mem_def, Option.some.injEq] at hb
          rw [← hb]
          exact bnd_hi_lt hblk, hbnd1.2⟩, hrest2K⟩
      · simp only [inorderSeq_cons_cons]
        have h2 := congrArg
          (fun l => l ++ (k1 :: (inorder c'' ++ inorderSeq ks' cs''))) hio
        simp only [List.append_assoc, List.cons_append] at h2
        simpa only [List.append_assoc, List.cons_append] using h2
    · by_cases hbig2 : MIN_KEYS < (TreeNode.keys c'').length
      · rw [if_neg hbig, if_pos hbig2] at hfc
        obtain ⟨fk, hfk, hnode', hbfk, hright', hio⟩ :=
          borrow_right_pieces hc'x hcnt' hbnd1 hc'' hbig2
        have hbr : borrowRight (k0 :: k1 :: ks')
            (c :: c' :: c'' :: cs'') 1 c' c'' =
            (k0 :: fk :: ks', c ::
              .mk (TreeNode.changed c') (TreeNode.keys c' ++ [k1])
                (match (TreeNode.children c'').head? with
                 | some rc => TreeNode.children c' ++ [rc]
                 | none => TreeNode.children c') ::
              .mk true (TreeNode.keys c'').tail
                (TreeNode.children c'').tail :: cs'') := by
          rw [borrowRight]
          simp [hfk]
        rw [hbr] at hfc
        have hfkmem : fk ∈ inorder c'' :=
          keys_subset_inorder (by
            rcases hks : TreeNode.keys c'' with _ | ⟨a, as⟩
            · rw [hks] at hfk
              exact absurd hfk (by simp)
            · rw [hks] at hfk
              simp only [List.head?_cons, Option.some.injEq] at hfk
              rw [← hfk]
              exact List.mem_cons_self _ _)
        have hcross : ∀ q ∈ ks', fk.2 < q.2 := by
          have hsorted := (inorder_sorted_all (sizeOf c'' + sizeOf cs'')).2
            c'' ks' cs'' (le_refl _) (some k1.2) hi h mnK 2 hrest2K
          rw [List.pairwise_append] at hsorted
          intro q hq
          exact hsorted.2.2 fk hfkmem q (keys_subset_inorderSeq hq)
        refine ⟨k0 :: fk :: ks', _, _, hfc, ?_, ?_,
          by simp only [List.length_cons]; omega,
          by simp only [List.length_cons]; omega⟩
        · rw [WFSeq]
          refine ⟨hwf, hbnd, ?_⟩
          rw [WFSeq]
          refine ⟨hnode', hbfk, ?_⟩
          refine WFSeq_replace_head hrest2K (fun hi1 hx => hright' hi1 hx) ?_
          intro b hb q hq
          rw [Option.mem_def, Option.some.injEq] at hb
          rw [← hb]
          exact hcross q hq
        · simp only [inorderSeq_cons_cons]
          have h2 := congrArg
            (fun l => inorder c ++ (k0 :: (l ++ inorderSeq ks' cs''))) hio
          simp only [List.append_assoc, List.cons_append] at h2
          simpa only [List.append_assoc, List.cons_append] using h2
      · rw [if_neg hbig, if_neg hbig2] at hfc
        have hcnt4 : (TreeNode.keys c).length = MIN_KEYS :=
          le_antisymm (not_lt.mp hbig) (WF_keys_len hwf).1
        have hms : mergeStep (k0 :: k1 :: ks') (c :: c' :: c'' :: cs'') 1 c'
            (some c) (some c'') =
            (k1 :: ks', .mk true (TreeNode.keys c ++ k0 :: TreeNode.keys c')
              (TreeNode.children c ++ TreeNode.children c') ::
              c'' :: cs'') := by
          rw [mergeStep]
          simp
        rw [hms] at hfc
        obtain ⟨hm, hiom⟩ := @merge_nodes K _ _ (some k1.2) _ _ _ _ _ _ hwf
          ⟨hbnd.1, fun b hb => by
            rw [Option.mem_def, Option.some.injEq] at hb
            rw [← hb]
            exact hk01⟩ hc'x
          (by rw [hcnt4, hcnt']; simp [MIN_KEYS, T])
        refine ⟨k1 :: ks', _, _, hfc, ?_, ?_,
          by simp only [List.length_cons]; omega,
          by simp only [List.length_cons]; omega⟩
        · rw [WFSeq]
          exact ⟨hm, bnd_widen_lo hbnd1 hbnd.1,
            WFSeq_mnK_shift hrest2K⟩
        · simp only [inorderSeq_cons_cons]
          have h2 := congrArg
            (fun l => l ++ (k1 :: (inorder c'' ++ inorderSeq ks' cs''))) hiom
          simp only [List.append_assoc, List.cons_append] at h2
          simpa only [List.append_assoc, List.cons_append] using h2

/-- The `rebalance` step at child index `i`: a chain whose child at
position `i` may be one key short is repaired to an ordinary
well-formed chain with the same in-order entries, consuming at most
one parent key. -/
theorem rebalanceAt_spec :
    ∀ {ks : List (Nat × K)} {i : Nat} {cs : List (TreeNode K)}
      {lo hi : Option K} {h : Nat} {c : TreeNode K} {ch : Bool},
    WFSeq lo hi h (mnX i) 0 c ks cs →
    i ≤ ks.length → 1 ≤ ks.length →
    ∃ ks2 c2 cs2,
      rebalanceAt (.mk ch ks (c :: cs)) i = .mk ch ks2 (c2 :: cs2) ∧
      WFSeq lo hi h mnK 0 c2 ks2 cs2 ∧
      inorder c2 ++ inorderSeq ks2 cs2 = inorder c ++ inorderSeq ks cs ∧
      ks.length - 1 ≤ ks2.length ∧ ks2.length ≤ ks.length := by
  intro ks
  induction ks with
  | nil =>
    intro i cs lo hi h c ch _ _ hks
    simp at hks
  | cons k0 ks ih =>
    intro i cs lo hi h c ch hseq hile hks
    match cs with
    | [] =>
      rw [WFSeq] at hseq
      exact hseq.elim
    | c' :: cs =>
      rw [WFSeq] at hseq
      obtain ⟨hwf, hbnd, hrest⟩ := hseq
      rcases i with _ | i1
      · rw [mnX_at] at hwf
        have hrestK : WFSeq (some k0.2) hi h mnK 1 c' ks cs :=
          WFSeq_shift_mnAt (by
            intro q
            rw [mnX_ne (by omega)]
            rfl) hrest
        by_cases hgc : MIN_KEYS ≤ (TreeNode.keys c).length
        · have hreb : rebalanceAt (.mk ch (k0 :: ks) (c :: c' :: cs)) 0 =
              .mk ch (k0 :: ks) (c :: c' :: cs) := by
            rw [rebalanceAt]
            simp only [List.getElem?_cons_zero]
            rw [if_pos hgc]
          refine ⟨k0 :: ks, c, c' :: cs, hreb, ?_, rfl, by omega, le_refl _⟩
          rw [WFSeq]
          exact ⟨WF_any_mn hwf hgc, hbnd, hrestK⟩
        · have hcnt : (TreeNode.keys c).length = MIN_KEYS - 1 := by
            have h1 := (WF_keys_len hwf).1
            omega
          obtain ⟨ks2, c2, cs2, hfc, hseq2, hio2, hlen1, hlen2⟩ :=
            fixChild_zero_spec hwf hcnt hbnd hrestK
          have hreb : rebalanceAt (.mk ch (k0 :: ks) (c :: c' :: cs)) 0 =
              .mk ch ks2 (c2 :: cs2) := by
            rw [rebalanceAt]
            simp only [List.getElem?_cons_zero]
            rw [if_neg hgc, hfc]
          refine ⟨ks2, c2, cs2, hreb, hseq2, ?_, ?_, ?_⟩
          · rw [hio2, inorderSeq_cons_cons]
          · simp only [List.length_cons]
            omega
          · simp only [List.length_cons]
            omega
      · rcases i1 with _ | q
        · rw [mnX_ne (by omega)] at hwf
          by_cases hgc : MIN_KEYS ≤ (TreeNode.keys c').length
          · have hreb : rebalanceAt (.mk ch (k0 :: ks) (c :: c' :: cs)) 1 =
                .mk ch (k0 :: ks) (c :: c' :: cs) := by
              rw [rebalanceAt]
              simp only [List.getElem?_cons_succ, List.getElem?_cons_zero]
              rw [if_pos hgc]
            refine ⟨k0 :: ks, c, c' :: cs, hreb, ?_, rfl, by omega,
              le_refl _⟩
            rw [WFSeq]
            refine ⟨hwf, hbnd, ?_⟩
            refine WFSeq_strengthen hrest ?_
            intro q2 hq2 cq hcq
            have hq0 : q2 = 0 := by omega
            subst hq0
            simp only [List.getElem?_cons_zero, Option.some.injEq] at hcq
            rw [← hcq]
            exact hgc
          · have hcnt' : (TreeNode.keys c').length = MIN_KEYS - 1 := by
              have h1 := (WF_keys_len (@WFSeq_head_wf K _ _ _ _ (mnX 1) _ _ _ _
                hrest)).1
              rw [mnX_at] at h1
              omega
            obtain ⟨ks2, c2, cs2, hfc, hseq2, hio2, hlen1, hlen2⟩ :=
              fixChild_one_spec hwf hbnd hrest hcnt'
            have hreb : rebalanceAt (.mk ch (k0 :: ks) (c :: c' :: cs)) 1 =
                .mk ch ks2 (c2 :: cs2) := by
              rw [rebalanceAt]
              simp only [List.getElem?_cons_succ, List.getElem?_cons_zero]
              rw [if_neg hgc, hfc]
            refine ⟨ks2, c2, cs2, hreb, hseq2, ?_, ?_, ?_⟩
            · rw [hio2, inorderSeq_cons_cons]
            · simp only [List.length_cons]
              omega
            · simp only [List.length_cons]
              omega
        · rw [mnX_ne (by omega)] at hwf
          have hrest0 : WFSeq (some k0.2) hi h (mnX (q + 1)) 0 c' ks cs :=
            WFSeq_shift_mnAt (by
              intro q2
              by_cases hq : q2 = q + 1
              · subst hq
                rw [show 0 + (q + 1) = q + 1 by omega,
                  show 1 + (q + 1) = q + 2 by omega, mnX_at, mnX_at]
              · rw [mnX_ne (by omega), mnX_ne (by omega)]) hrest
          have hile' : q + 1 ≤ ks.length := by
            simp only [List.length_cons] at hile
            omega
          have hks' : 1 ≤ ks.length := by omega
          obtain ⟨ks2, c2, cs2, hreb', hseq2, hio2, hlen1, hlen2⟩ :=
            ih (i := q + 1) hrest0 hile' hks'
          have hreb := @rebalanceAt_shift K _ ch k0 ks c (c' :: cs) q
          rw [hreb', TreeNode.keys_mk, TreeNode.children_mk] at hreb
          refine ⟨k0 :: ks2, c, c2 :: cs2, hreb, ?_, ?_, ?_, ?_⟩
          · rw [WFSeq]
            exact ⟨hwf, hbnd,
              WFSeq_shift_mnAt (by intro q2; rfl) hseq2⟩
          · rw [inorderSeq_cons_cons, inorderSeq_cons_cons, hio2]
          · simp only [List.length_cons]
            omega
          · simp only [List.length_cons]
            omega

/-- `extractFirst` on a subtree with spare key capacity pops the least
entry; the remaining subtree is one key laxer and already fits above
the popped key. -/
theorem extractFirst_spec (N : Nat) :
    ∀ {t : TreeNode K} {lo hi : Option K} {h mn : Nat},
    sizeOf t ≤ N → WF lo hi h mn t → 1 ≤ mn →
    ∃ k t2, extractFirst t = some (k, t2) ∧
      inorder t = k :: inorder t2 ∧
      WF (some k.2) hi h (mn - 1) t2 ∧ bnd lo hi k.2 := by
  induction N using Nat.strong_induction_on with
  | _ N ih =>
    intro t lo hi h mn hsz hwf hmn
    match t with
    | .mk ch ks [] =>
      rw [WF] at hwf
      obtain ⟨hh, hlen, hlen2, hsort, hbd⟩ := hwf
      match ks with
      | [] =>
        simp at hlen
        omega
      | k :: rest =>
        refine ⟨k, .mk true rest [], ?_, ?_, ?_, ?_⟩
        · rw [extractFirst]
        · rw [inorder_leaf, inorder_leaf]
        · rw [WF]
          rw [List.pairwise_cons] at hsort
          refine ⟨hh, ?_, ?_, hsort.2, ?_⟩
          · simp only [List.length_cons] at hlen
            omega
          · simp only [List.length_cons] at hlen2
            omega
          · intro r hr
            refine ⟨?_, (hbd r (List.mem_cons_of_mem _ hr)).2⟩
            intro b hb
            rw [Option.mem_def, Option.some.injEq] at hb
            subst hb
            exact hsort.1 r hr
        · exact hbd k (List.mem_cons_self k rest)
    | .mk ch ks (c :: cs) =>
      rw [WF] at hwf
      obtain ⟨hh, hlen, hlen2, hchain⟩ := hwf
      match ks, cs with
      | [], cs =>
        simp at hlen
        omega
      | k0 :: ks2, [] =>
        rw [WFSeq] at hchain
        exact hchain.elim
      | k0 :: ks2, c1 :: cs2 =>
        rw [WFSeq] at hchain
        obtain ⟨hwfc, hbk0, hrest⟩ := hchain
        have hlt : sizeOf c < N := by
          simp only [TreeNode.mk.sizeOf_spec, List.cons.sizeOf_spec] at hsz
          omega
        obtain ⟨k, c2, hx, hio, hwf2, hbk⟩ :=
          ih (sizeOf c) hlt (le_refl _) hwfc (by decide)
        have hchain2 : WFSeq (some k.2) hi (h - 1) (mnX 0) 0 c2
            (k0 :: ks2) (c1 :: cs2) := by
          rw [WFSeq]
          refine ⟨?_, ?_, ?_⟩
          · rw [mnX_at]
            exact hwf2
          · refine ⟨?_, hbk0.2⟩
            intro b hb
            rw [Option.mem_def, Option.some.injEq] at hb
            subst hb
            exact hbk.2 k0.2 rfl
          · exact WFSeq_shift_mnAt
              (fun q => by rw [mnX_ne (by omega)]; rfl) hrest
        obtain ⟨ks3, c3, cs3, hreb, hseq3, hio3, hl1, hl2⟩ :=
          rebalanceAt_spec hchain2 (by omega) (by simp)
        refine ⟨k, .mk true ks3 (c3 :: cs3), ?_, ?_, ?_, ?_⟩
        · rw [extractFirst]
          simp only [hx]
          rw [hreb]
        · rw [inorder_internal, inorder_internal, hio, hio3]
          simp only [List.cons_append]
        · rw [WF]
          refine ⟨hh, ?_, ?_, hseq3⟩
          · simp only [List.length_cons] at hlen hl1
            omega
          · simp only [List.length_cons] at hlen2 hl2
            omega
        · refine ⟨hbk.1, ?_⟩
          intro b hb
          exact lt_trans (hbk.2 k0.2 rfl) (hbk0.2 b hb)

/-- Chain form of `extractLast`: popping the greatest entry out of the
last child of an interleaving leaves a chain one key short at its last
position, already fitting below the popped key. -/
theorem extractLast_chain :
    ∀ {ks : List (Nat × K)} {cs : List (TreeNode K)} {lo hi : Option K}
      {hT j : Nat} {c last : TreeNode K},
    WFSeq lo hi hT mnK j c ks cs →
    (c :: cs).getLast? = some last →
    (∀ lo0 hi0, WF lo0 hi0 hT MIN_KEYS last →
      ∃ k c2, extractLast last = some (k, c2) ∧
        inorder last = inorder c2 ++ [k] ∧
        WF lo0 (some k.2) hT (MIN_KEYS - 1) c2 ∧ bnd lo0 hi0 k.2) →
    ∃ k c2, extractLast last = some (k, c2) ∧
      ∃ c0 cs0, (c :: cs).set cs.length c2 = c0 :: cs0 ∧
        WFSeq lo (some k.2) hT (mnX (j + ks.length)) j c0 ks cs0 ∧
        inorder c0 ++ inorderSeq ks cs0 ++ [k] =
          inorder c ++ inorderSeq ks cs ∧
        bnd lo hi k.2 := by
  intro ks
  induction ks with
  | nil =>
    intro cs lo hi hT j c last hseq hlast hrepl
    match cs with
    | [] =>
      rw [WFSeq] at hseq
      simp only [List.getLast?_singleton, Option.some.injEq] at hlast
      subst hlast
      obtain ⟨k, c2, hx, hio, hwf2, hbk⟩ := hrepl lo hi hseq
      refine ⟨k, c2, hx, c2, [], rfl, ?_, ?_, hbk⟩
      · rw [WFSeq]
        simp only [List.length_nil, Nat.add_zero, mnX_at]
        exact hwf2
      · simp only [inorderSeq_nil, List.nil_append, List.append_nil]
        exact hio.symm
    | c2 :: cs2 =>
      rw [WFSeq] at hseq
      exact hseq.elim
  | cons k0 ks ihc =>
    intro cs lo hi hT j c last hseq hlast hrepl
    match cs with
    | [] =>
      rw [WFSeq] at hseq
      exact hseq.elim
    | c1 :: cs1 =>
      rw [WFSeq] at hseq
      obtain ⟨hwfc, hb0, hrest⟩ := hseq
      have hlast1 : (c1 :: cs1).getLast? = some last := by
        rw [← hlast, List.getLast?_cons_cons]
      obtain ⟨k, c2, hx, c0, cs0, hset, hseq1, hio1, hbk1⟩ :=
        ihc hrest hlast1 hrepl
      refine ⟨k, c2, hx, c, c0 :: cs0, ?_, ?_, ?_, ?_⟩
      · simp only [List.length_cons, List.set_cons_succ]
        rw [hset]
      · rw [WFSeq]
        refine ⟨?_, ?_, ?_⟩
        · rw [mnX_ne (by simp only [List.length_cons]; omega)]
          exact hwfc
        · refine ⟨hb0.1, ?_⟩
          intro b hb
          rw [Option.mem_def, Option.some.injEq] at hb
          subst hb
          exact hbk1.1 k0.2 rfl
        · have hidx : j + 1 + ks.length = j + (k0 :: ks).length := by
            simp only [List.length_cons]
            omega
          rw [← hidx]
          exact hseq1
      · simp only [inorderSeq_cons_cons, List.append_assoc,
          List.cons_append] at hio1 ⊢
        rw [hio1]
      · refine ⟨?_, hbk1.2⟩
        intro b hb
        exact lt_trans (hb0.1 b hb) (hbk1.1 k0.2 rfl)

/-- `extractLast` on a subtree with spare key capacity pops the
greatest entry; the remaining subtree is one key laxer and already fits
below the popped key. -/
theorem extractLast_spec (N : Nat) :
    ∀ {t : TreeNode K} {lo hi : Option K} {h mn : Nat},
    sizeOf t ≤ N → WF lo hi h mn t → 1 ≤ mn →
    ∃ k t2, extractLast t = some (k, t2) ∧
      inorder t = inorder t2 ++ [k] ∧
      WF lo (some k.2) h (mn - 1) t2 ∧ bnd lo hi k.2 := by
  induction N using Nat.strong_induction_on with
  | _ N ih =>
    intro t lo hi h mn hsz hwf hmn
    match t with
    | .mk ch ks [] =>
      rw [WF] at hwf
      obtain ⟨hh, hlen, hlen2, hsort, hbd⟩ := hwf
      have hne : ks ≠ [] := by
        intro he
        subst he
        simp at hlen
        omega
      have hlk : ks.getLast? = some (ks.getLast hne) :=
        List.getLast?_eq_getLast ks hne
      have hdl : ks.dropLast ++ [ks.getLast hne] = ks :=
        List.dropLast_append_getLast hne
      refine ⟨ks.getLast hne, .mk true ks.dropLast [], ?_, ?_, ?_, ?_⟩
      · rw [extractLast]
        simp only [hlk]
      · rw [inorder_leaf, inorder_leaf]
        exact hdl.symm
      · rw [WF]
        have hsort2 := hsort
        rw [← hdl, List.pairwise_append] at hsort2
        refine ⟨hh, ?_, ?_, hsort2.1, ?_⟩
        · rw [List.length_dropLast]
          omega
        · rw [List.length_dropLast]
          omega
        · intro r hr
          refine ⟨(hbd r ?_).1, ?_⟩
          · rw [← hdl]
            exact List.mem_append_left _ hr
          · intro b hb
            rw [Option.mem_def, Option.some.injEq] at hb
            subst hb
            exact hsort2.2.2 r hr _ (List.mem_singleton_self _)
      · exact hbd _ (List.getLast_mem hne)
    | .mk ch ks (c :: cs) =>
      rw [WF] at hwf
      obtain ⟨hh, hlen, hlen2, hchain⟩ := hwf
      have hlast : (c :: cs).getLast? =
          some ((c :: cs).getLast (by simp)) :=
        List.getLast?_eq_getLast _ _
      have hszl : sizeOf ((c :: cs).getLast (by simp)) < N := by
        have hm := List.sizeOf_lt_of_mem
          (List.getLast_mem (l := c :: cs) (by simp))
        simp only [TreeNode.mk.sizeOf_spec] at hsz
        omega
      have hrepl : ∀ lo0 hi0,
          WF lo0 hi0 (h - 1) MIN_KEYS ((c :: cs).getLast (by simp)) →
          ∃ k c2, extractLast ((c :: cs).getLast (by simp)) =
              some (k, c2) ∧
            inorder ((c :: cs).getLast (by simp)) = inorder c2 ++ [k] ∧
            WF lo0 (some k.2) (h - 1) (MIN_KEYS - 1) c2 ∧
            bnd lo0 hi0 k.2 := by
        intro lo0 hi0 hwl
        exact ih _ hszl (le_refl _) hwl (by decide)
      obtain ⟨k, c2, hx, c0, cs0, hset, hseq, hio, hbk⟩ :=
        extractLast_chain hchain hlast hrepl
      have hcl : cs.length = ks.length := WFSeq_len hchain
      rw [Nat.zero_add] at hseq
      obtain ⟨ks3, c3, cs3, hreb, hseq3, hio3, hl1, hl2⟩ :=
        rebalanceAt_spec hseq (le_refl _) (by omega)
      refine ⟨k, .mk true ks3 (c3 :: cs3), ?_, ?_, ?_, hbk⟩
      · rw [extractLast]
        simp only [hx]
        rw [hset, hcl, hreb]
      · rw [inorder_internal, inorder_internal, hio3]
        simp only [List.append_assoc] at hio ⊢
        exact hio.symm
      · rw [WF]
        refine ⟨hh, ?_, ?_, hseq3⟩
        · omega
        · omega

/-- Replacing the descended-into child after a successful delete: the
chain is exact except at the replaced position, which may be one key
short, and its entries are the original entries minus the deleted
key. -/
theorem del_done_chain {key : K} {child' : TreeNode K} :
    ∀ {ks : List (Nat × K)} {cs : List (TreeNode K)} {lo hi : Option K}
      {h j : Nat} {c : TreeNode K},
    WFSeq lo hi h mnK j c ks cs →
    ∀ i, i ≤ ks.length →
    (∀ p (hp : p < ks.length), p < i → ks[p].2 < key) →
    (∀ p (hp : p < ks.length), i ≤ p → key < ks[p].2) →
    ∀ child, (c :: cs)[i]? = some child →
    (∀ lo' hi', WF lo' hi' h MIN_KEYS child →
       WF lo' hi' h (MIN_KEYS - 1) child' ∧
       inorder child' = delList key (inorder child)) →
    ∃ c2 cs2, (c :: cs).set i child' = c2 :: cs2 ∧
      WFSeq lo hi h (mnX (j + i)) j c2 ks cs2 ∧
      inorder c2 ++ inorderSeq ks cs2 =
        delList key (inorder c ++ inorderSeq ks cs) := by
  intro ks
  induction ks with
  | nil =>
    intro cs lo hi h j c hseq i hile hbefore hafter child hchild hrepl
    match cs with
    | [] =>
      have hi0 : i = 0 := by simpa using hile
      subst hi0
      simp only [List.getElem?_cons_zero, Option.some.injEq] at hchild
      subst hchild
      rw [WFSeq] at hseq
      obtain ⟨hwf', heq⟩ := hrepl lo hi hseq
      refine ⟨child', [], rfl, ?_, ?_⟩
      · rw [WFSeq]
        simp only [Nat.add_zero, mnX_at]
        exact hwf'
      · simp only [inorderSeq_nil, List.append_nil]
        exact heq
    | c' :: cs =>
      rw [WFSeq] at hseq
      exact hseq.elim
  | cons k ks ih =>
    intro cs lo hi h j c hseq i hile hbefore hafter child hchild hrepl
    match cs with
    | [] =>
      rw [WFSeq] at hseq
      exact hseq.elim
    | c' :: cs =>
      rw [WFSeq] at hseq
      obtain ⟨hwf, hbnd, hrest⟩ := hseq
      rcases i with _ | p
      · simp only [List.getElem?_cons_zero, Option.some.injEq] at hchild
        subst hchild
        have htk : key < k.2 := by
          have := hafter 0 (by simp) (Nat.zero_le _)
          simpa using this
        obtain ⟨hwf', heq⟩ := hrepl lo (some k.2) hwf
        refine ⟨child', c' :: cs, rfl, ?_, ?_⟩
        · rw [WFSeq]
          simp only [Nat.add_zero, mnX_at]
          refine ⟨hwf', hbnd, ?_⟩
          exact WFSeq_shift_mnAt
            (fun q => by rw [mnX_ne (by omega)]; rfl) hrest
        · rw [inorderSeq_cons_cons]
          have hbig : ∀ e ∈ k :: (inorder c' ++ inorderSeq ks cs),
              e.2 ≠ key := by
            intro e he
            rcases List.mem_cons.mp he with rfl | he2
            · exact ne_of_gt htk
            · have := WFSeq_inorder_bnd hrest e he2
              exact ne_of_gt (lt_trans htk (this.1 k.2 rfl))
          rw [delList_append_right_none hbig, heq]
      · simp only [List.getElem?_cons_succ] at hchild
        have hk0 : k.2 < key := by
          have := hbefore 0 (by simp) (by omega)
          simpa using this
        obtain ⟨c2, cs2, hset, hseq2, hio2⟩ :=
          ih hrest p (by simpa using hile)
            (fun p2 hp2 hlt => by
              have := hbefore (p2 + 1) (by simpa using hp2) (by omega)
              simpa using this)
            (fun p2 hp2 hge => by
              have := hafter (p2 + 1) (by simpa using hp2) (by omega)
              simpa using this)
            child hchild hrepl
        refine ⟨c, c2 :: cs2, ?_, ?_, ?_⟩
        · simp only [List.set_cons_succ]
          rw [hset]
        · rw [WFSeq]
          refine ⟨?_, hbnd, ?_⟩
          · rw [mnX_ne (by omega)]
            exact hwf
          · have hidx : j + (p + 1) = j + 1 + p := by omega
            rw [hidx]
            exact hseq2
        · simp only [inorderSeq_cons_cons]
          have hsmall : ∀ e ∈ inorder c, e.2 ≠ key := fun e he =>
            ne_of_lt (lt_trans ((WF_inorder_bnd hwf e he).2 k.2 rfl) hk0)
          rw [delList_append_left_none hsmall, delList,
            if_neg (ne_of_lt hk0), hio2]

/-- `setKeyToNearestLeaf` at an index past the first key only looks at
the tail of the node. -/
theorem setKeyToNearestLeaf_shift {ch : Bool} {k0 : Nat × K}
    {ks : List (Nat × K)} {c0 : TreeNode K} {cs : List (TreeNode K)}
    {p : Nat} :
    setKeyToNearestLeaf (.mk ch (k0 :: ks) (c0 :: cs)) (p + 1) =
      Option.map (fun r =>
        (TreeNode.mk ch (k0 :: TreeNode.keys r.1)
          (c0 :: TreeNode.children r.1), r.2 + 1))
        (setKeyToNearestLeaf (.mk ch ks cs) p) := by
  simp only [setKeyToNearestLeaf, List.getElem?_cons_succ]
  rcases h1 : cs[p]? with _ | left
  · rfl
  · rcases h2 : cs[p + 1]? with _ | right
    · rfl
    · dsimp only
      by_cases hls : leafSize left false < leafSize right true
      · rw [if_pos hls, if_pos hls]
        rcases h3 : extractFirst right with _ | ⟨k, r2⟩
        · rfl
        · simp only [Option.map_some', TreeNode.keys_mk,
            TreeNode.children_mk, List.set_cons_succ]
      · rw [if_neg hls, if_neg hls]
        rcases h3 : extractLast left with _ | ⟨k, l2⟩
        · rfl
        · simp only [Option.map_some', TreeNode.keys_mk,
            TreeNode.children_mk, List.set_cons_succ]

/-- A `del` hit at separator `mid` of an internal node: the separator
is replaced from the adjacent leaf-ward child chosen by the size
comparison, leaving a chain one key short at the reported child
position and the entries minus the deleted key. -/
theorem del_hit_chain {key : K} :
    ∀ {ks : List (Nat × K)} {cs : List (TreeNode K)} {lo hi : Option K}
      {hT j : Nat} {c : TreeNode K},
    WFSeq lo hi hT mnK j c ks cs →
    ∀ mid kv, ks[mid]? = some kv → kv.2 = key →
    ∃ ks2 c2 cs2 i2,
      setKeyToNearestLeaf (.mk true ks (c :: cs)) mid =
        some (.mk true ks2 (c2 :: cs2), i2) ∧
      i2 ≤ mid + 1 ∧ ks2.length = ks.length ∧
      WFSeq lo hi hT (mnX (j + i2)) j c2 ks2 cs2 ∧
      inorder c2 ++ inorderSeq ks2 cs2 =
        delList key (inorder c ++ inorderSeq ks cs) := by
  intro ks
  induction ks with
  | nil =>
    intro cs lo hi hT j c _ mid kv hkv _
    simp at hkv
  | cons k0 ks ih =>
    intro cs lo hi hT j c hseq mid kv hkv hkey
    match cs with
    | [] =>
      rw [WFSeq] at hseq
      exact hseq.elim
    | c' :: cs =>
      rw [WFSeq] at hseq
      obtain ⟨hwfc, hb0, hrest⟩ := hseq
      rcases mid with _ | p
      · simp only [List.getElem?_cons_zero, Option.some.injEq] at hkv
        subst hkv
        by_cases hls : leafSize c false < leafSize c' true
        · match ks, cs with
          | [], [] =>
            rw [WFSeq] at hrest
            have hrestK : WF (some k0.2) hi hT MIN_KEYS c' := hrest
            obtain ⟨k, c2', hx, hioc', hwf2, hbk⟩ :=
              extractFirst_spec (sizeOf c') (le_refl _) hrestK (by decide)
            refine ⟨[k], c, [c2'], 1, ?_, by omega, by simp, ?_, ?_⟩
            · simp only [setKeyToNearestLeaf, List.getElem?_cons_zero,
                List.getElem?_cons_succ]
              rw [if_pos hls]
              simp only [hx]
              rfl
            · rw [WFSeq]
              refine ⟨?_, ?_, ?_⟩
              · rw [mnX_ne (by omega)]
                exact WF_widen_hi hwfc (fun x hx2 b hb => by
                  rw [Option.mem_def, Option.some.injEq] at hb
                  subst hb
                  exact lt_trans (hx2 k0.2 rfl) (hbk.1 k0.2 rfl))
              · refine ⟨?_, hbk.2⟩
                intro b hb
                exact lt_trans (hb0.1 b hb) (hbk.1 k0.2 rfl)
              · rw [WFSeq, mnX_at]
                exact hwf2
            · simp only [inorderSeq_cons_cons, inorderSeq_nil,
                List.append_nil]
              have hsmall : ∀ e ∈ inorder c, e.2 ≠ key := fun e he => by
                rw [← hkey]
                exact ne_of_lt ((WF_inorder_bnd hwfc e he).2 k0.2 rfl)
              rw [delList_append_left_none hsmall, delList, if_pos hkey,
                hioc']
          | [], c1 :: cs1 =>
            rw [WFSeq] at hrest
            exact hrest.elim
          | k1 :: ks1, [] =>
            rw [WFSeq] at hrest
            exact hrest.elim
          | k1 :: ks1, c1 :: cs1 =>
            rw [WFSeq] at hrest
            obtain ⟨hwfc1, hb1, hrest2⟩ := hrest
            have hwfc1K : WF (some k0.2) (some k1.2) hT MIN_KEYS c' := hwfc1
            obtain ⟨k, c2', hx, hioc', hwf2, hbk⟩ :=
              extractFirst_spec (sizeOf c') (le_refl _) hwfc1K (by decide)
            refine ⟨k :: k1 :: ks1, c, c2' :: c1 :: cs1, 1, ?_, by omega,
              by simp, ?_, ?_⟩
            · simp only [setKeyToNearestLeaf, List.getElem?_cons_zero,
                List.getElem?_cons_succ]
              rw [if_pos hls]
              simp only [hx]
              rfl
            · rw [WFSeq]
              refine ⟨?_, ?_, ?_⟩
              · rw [mnX_ne (by omega)]
                exact WF_widen_hi hwfc (fun x hx2 b hb => by
                  rw [Option.mem_def, Option.some.injEq] at hb
                  subst hb
                  exact lt_trans (hx2 k0.2 rfl) (hbk.1 k0.2 rfl))
              · refine ⟨?_, ?_⟩
                · intro b hb
                  exact lt_trans (hb0.1 b hb) (hbk.1 k0.2 rfl)
                · intro b hb
                  exact lt_trans (hbk.2 k1.2 rfl) (hb1.2 b hb)
              · rw [WFSeq]
                refine ⟨?_, ?_, ?_⟩
                · rw [mnX_at]
                  exact hwf2
                · refine ⟨?_, hb1.2⟩
                  intro b hb
                  rw [Option.mem_def, Option.some.injEq] at hb
                  subst hb
                  exact hbk.2 k1.2 rfl
                · exact WFSeq_shift_mnAt
                    (fun q => by rw [mnX_ne (by omega)]; rfl) hrest2
            · simp only [inorderSeq_cons_cons]
              have hsmall : ∀ e ∈ inorder c, e.2 ≠ key := fun e he => by
                rw [← hkey]
                exact ne_of_lt ((WF_inorder_bnd hwfc e he).2 k0.2 rfl)
              rw [delList_append_left_none hsmall, delList, if_pos hkey,
                hioc']
              simp only [List.cons_append]
        · have hwfcK : WF lo (some k0.2) hT MIN_KEYS c := hwfc
          obtain ⟨k, c2, hx, hioc, hwf2, hbk⟩ :=
            extractLast_spec (sizeOf c) (le_refl _) hwfcK (by decide)
          refine ⟨k :: ks, c2, c' :: cs, 0, ?_, by omega, by simp, ?_, ?_⟩
          · simp only [setKeyToNearestLeaf, List.getElem?_cons_zero,
              List.getElem?_cons_succ]
            rw [if_neg hls]
            simp only [hx]
            rfl
          · rw [WFSeq]
            simp only [Nat.add_zero]
            refine ⟨?_, ?_, ?_⟩
            · rw [mnX_at]
              exact hwf2
            · refine ⟨hbk.1, ?_⟩
              intro b hb
              exact lt_trans (hbk.2 k0.2 rfl) (hb0.2 b hb)
            · have hwide : WFSeq (some k.2) hi hT mnK (j + 1) c' ks cs :=
                (WF_widen_lo_all (sizeOf c' + sizeOf cs)).2 c' ks cs
                  (le_refl _) (some k0.2) (some k.2) hi hT mnK (j + 1) hrest
                  (fun x hx2 b hb => by
                    rw [Option.mem_def, Option.some.injEq] at hb
                    subst hb
                    exact lt_trans (hbk.2 k0.2 rfl) (hx2 k0.2 rfl))
              exact WFSeq_shift_mnAt
                (fun q => by rw [mnX_ne (by omega)]; rfl) hwide
          · simp only [inorderSeq_cons_cons]
            have hsmall : ∀ e ∈ inorder c, e.2 ≠ key := fun e he => by
              rw [← hkey]
              exact ne_of_lt ((WF_inorder_bnd hwfc e he).2 k0.2 rfl)
            rw [delList_append_left_none hsmall, delList, if_pos hkey,
              hioc]
            simp only [List.append_assoc, List.singleton_append]
      · simp only [List.getElem?_cons_succ] at hkv
        have hk0key : k0.2 < key := by
          rw [← hkey]
          exact ((WFSeq_keys hrest).2 kv (List.getElem?_mem hkv)).1 k0.2 rfl
        obtain ⟨ks2, c2, cs2, i2, hskl, hi2le, hlen, hseq2, hio2⟩ :=
          ih hrest p kv hkv hkey
        refine ⟨k0 :: ks2, c, c2 :: cs2, i2 + 1, ?_, by omega,
          by simp [hlen], ?_, ?_⟩
        · rw [setKeyToNearestLeaf_shift, hskl]
          simp only [Option.map_some', TreeNode.keys_mk,
            TreeNode.children_mk]
        · rw [WFSeq]
          refine ⟨?_, hb0, ?_⟩
          · rw [mnX_ne (by omega)]
            exact hwfc
          · have hidx : j + (i2 + 1) = j + 1 + i2 := by omega
            rw [hidx]
            exact hseq2
        · simp only [inorderSeq_cons_cons]
          have hsmall : ∀ e ∈ inorder c, e.2 ≠ key := fun e he =>
            ne_of_lt (lt_trans ((WF_inorder_bnd hwfc e he).2 k0.2 rfl)
              hk0key)
          rw [delList_append_left_none hsmall, delList,
            if_neg (ne_of_lt hk0key), hio2]

/-- Any child of a well-formed interleaving is well-formed between some
bounds, with the full `MIN_KEYS` key minimum. -/
theorem WFSeq_child_wf :
    ∀ {ks : List (Nat × K)} {cs : List (TreeNode K)} {lo hi : Option K}
      {h j : Nat} {c : TreeNode K},
    WFSeq lo hi h mnK j c ks cs →
    ∀ {i : Nat} {child : TreeNode K}, (c :: cs)[i]? = some child →
    ∃ lo2 hi2, WF lo2 hi2 h MIN_KEYS child := by
  intro ks
  induction ks with
  | nil =>
    intro cs lo hi h j c hseq i child hchild
    match cs with
    | [] =>
      rw [WFSeq] at hseq
      rcases i with _ | n
      · simp only [List.getElem?_cons_zero, Option.some.injEq] at hchild
        subst hchild
        exact ⟨lo, hi, hseq⟩
      · simp at hchild
    | c' :: cs =>
      rw [WFSeq] at hseq
      exact hseq.elim
  | cons k ks ih =>
    intro cs lo hi h j c hseq i child hchild
    match cs with
    | [] =>
      rw [WFSeq] at hseq
      exact hseq.elim
    | c' :: cs =>
      rw [WFSeq] at hseq
      obtain ⟨hwf, _, hrest⟩ := hseq
      rcases i with _ | n
      · simp only [List.getElem?_cons_zero, Option.some.injEq] at hchild
        subst hchild
        exact ⟨lo, some k.2, hwf⟩
      · simp only [List.getElem?_cons_succ] at hchild
        exact ih hrest hchild

/-- The delete recursion (`Batch.del` from the descent loop onward): a
miss returns `none` and the key is indeed absent; a hit removes exactly
the probed entry and leaves a same-height subtree at most one key short
at the top. -/
theorem delRec_spec (key : K) (N : Nat) :
    ∀ {t : TreeNode K} {lo hi : Option K} {h mn : Nat},
    sizeOf t ≤ N → WF lo hi h mn t →
    ((TreeNode.children t).isEmpty = false → 1 ≤ mn) →
    (delRec key t = none → lookupList key (inorder t) = none) ∧
    (∀ t2, delRec key t = some t2 →
      WF lo hi h (mn - 1) t2 ∧ inorder t2 = delList key (inorder t)) := by
  induction N using Nat.strong_induction_on with
  | _ N ih =>
    intro t lo hi h mn hsz hwf hmn
    match t with
    | .mk ch ks [] =>
      rw [WF] at hwf
      obtain ⟨hh, hlen, hlen2, hsort, hbd⟩ := hwf
      rcases hb : bsearch key ks with mid | i
      · obtain ⟨kv, hkv, hkveq, hmidlen⟩ := bsearch_inl hb
        constructor
        · intro hnone
          rw [delRec] at hnone
          simp only [hb] at hnone
          exact Option.noConfusion hnone
        · intro t2 ht2
          rw [delRec] at ht2
          simp only [hb, Option.some.injEq] at ht2
          subst ht2
          have hdel : delList key ks = ks.eraseIdx mid :=
            delList_eq_eraseIdx hsort hkv hkveq
          have herlen : (ks.eraseIdx mid).length = ks.length - 1 := by
            rw [List.length_eraseIdx]
            simp [hmidlen]
          refine ⟨?_, ?_⟩
          · rw [WF]
            refine ⟨hh, ?_, ?_,
              hsort.sublist (List.eraseIdx_sublist ks mid), ?_⟩
            · omega
            · omega
            · intro r hr
              exact hbd r ((List.eraseIdx_sublist ks mid).subset hr)
          · rw [inorder_leaf, inorder_leaf, hdel]
      · obtain ⟨hile, hbef, haft⟩ := bsearch_inr hsort hb
        constructor
        · intro _
          rw [inorder_leaf]
          refine lookupList_eq_none ?_
          intro e he
          obtain ⟨p, hp, hpe⟩ := List.getElem_of_mem he
          by_cases hpi : p < i
          · rw [← hpe]
            exact ne_of_lt (hbef p hp hpi)
          · rw [← hpe]
            exact ne_of_gt (haft p hp (by omega))
        · intro t2 ht2
          rw [delRec] at ht2
          simp only [hb] at ht2
          exact Option.noConfusion ht2
    | .mk ch ks (c :: cs) =>
      rw [WF] at hwf
      obtain ⟨hh, hlen, hlen2, hchain⟩ := hwf
      have hmn1 : 1 ≤ mn := hmn (by simp [TreeNode.children_mk])
      have hsort : ks.Pairwise (fun a b => a.2 < b.2) :=
        (WFSeq_keys hchain).1
      rcases hb : bsearch key ks with mid | i
      · obtain ⟨kv, hkv, hkveq, hmidlen⟩ := bsearch_inl hb
        obtain ⟨ks2, c2, cs2, i2, hskl, hi2le, hlen', hseq2, hio2⟩ :=
          del_hit_chain hchain mid kv hkv hkveq
        rw [Nat.zero_add] at hseq2
        obtain ⟨ks3, c3, cs3, hreb, hseq3, hio3, hl1, hl2⟩ :=
          rebalanceAt_spec hseq2 (by omega) (by omega)
        constructor
        · intro hnone
          rw [delRec] at hnone
          simp only [hb, hskl] at hnone
          exact Option.noConfusion hnone
        · intro t2 ht2
          rw [delRec] at ht2
          simp only [hb, hskl, Option.some.injEq] at ht2
          subst ht2
          rw [hreb]
          refine ⟨?_, ?_⟩
          · rw [WF]
            exact ⟨hh, by omega, by omega, hseq3⟩
          · simp only [inorder_internal]
            rw [hio3, hio2]
      · obtain ⟨hile, hbef, haft⟩ := bsearch_inr hsort hb
        have hcl : cs.length = ks.length := WFSeq_len hchain
        have hilt : i < (c :: cs).length := by
          simp only [List.length_cons]
          omega
        obtain ⟨child, hchild⟩ : ∃ child, (c :: cs)[i]? = some child :=
          ⟨_, List.getElem?_eq_getElem hilt⟩
        have hltc : sizeOf child < N := by
          have hm := List.sizeOf_lt_of_mem (List.getElem?_mem hchild)
          simp only [TreeNode.mk.sizeOf_spec] at hsz
          omega
        rcases hdel : delRec key child with _ | child2
        · constructor
          · intro _
            obtain ⟨lo2, hi2, hwfchild⟩ := WFSeq_child_wf hchain hchild
            have hlc : lookupSeq key child =
                lookupList key (inorder child) :=
              (lookupSeq_eq_all key (sizeOf child)).1 child (le_refl _)
                lo2 hi2 (h - 1) MIN_KEYS hwfchild
            have hnonec : lookupList key (inorder child) = none :=
              (ih (sizeOf child) hltc (le_refl _) hwfchild
                (fun _ => by decide)).1 hdel
            obtain ⟨child3, hchild3, hlook⟩ :=
              (lookupSeq_eq_all key (sizeOf c + sizeOf cs)).2 c ks cs
                (le_refl _) lo hi (h - 1) mnK 0 hchain i hile hbef haft
            rw [hchild, Option.some.injEq] at hchild3
            subst hchild3
            rw [inorder_internal, hlook, hlc]
            exact hnonec
          · intro t2 ht2
            rw [delRec] at ht2
            simp only [hb] at ht2
            split at ht2
            · exact Option.noConfusion ht2
            · rename_i child4 heq4
              rw [hchild, Option.some.injEq] at heq4
              subst heq4
              simp only [hdel] at ht2
              exact Option.noConfusion ht2
        · have hrepl : ∀ lo2 hi2, WF lo2 hi2 (h - 1) MIN_KEYS child →
              WF lo2 hi2 (h - 1) (MIN_KEYS - 1) child2 ∧
              inorder child2 = delList key (inorder child) := by
            intro lo2 hi2 hwf2
            exact (ih (sizeOf child) hltc (le_refl _) hwf2
              (fun _ => by decide)).2 child2 hdel
          obtain ⟨c2, cs2, hset, hseq2, hio2⟩ :=
            del_done_chain hchain i hile hbef haft child hchild hrepl
          rw [Nat.zero_add] at hseq2
          obtain ⟨ks3, c3, cs3, hreb, hseq3, hio3, hl1, hl2⟩ :=
            rebalanceAt_spec hseq2 hile (by omega)
          constructor
          · intro hnone
            rw [delRec] at hnone
            simp only [hb] at hnone
            split at hnone
            · rename_i heq4
              rw [hchild] at heq4
              exact Option.noConfusion heq4
            · rename_i child4 heq4
              rw [hchild, Option.some.injEq] at heq4
              subst heq4
              simp only [hdel] at hnone
              exact Option.noConfusion hnone
          · intro t2 ht2
            rw [delRec] at ht2
            simp only [hb] at ht2
            split at ht2
            · exact Option.noConfusion ht2
            · rename_i child4 heq4
              rw [hchild, Option.some.injEq] at heq4
              subst heq4
              simp only [hdel, Option.some.injEq] at ht2
              subst ht2
              rw [hset, hreb]
              refine ⟨?_, ?_⟩
              · rw [WF]
                exact ⟨hh, by omega, by omega, hseq3⟩
              · simp only [inorder_internal]
                rw [hio3, hio2]

/-- `Batch.del` including the root shrink of `rebalance`: on a miss
nothing is reported and the key is absent; on a hit the new root is
well formed (collapsing a key-less internal root to its child) and the
entries are the old entries minus the key. -/
theorem delTree_spec {key : K} {t : TreeNode K} {h : Nat}
    (hwf : WFRoot h t) :
    (delTree key t = none → lookupList key (inorder t) = none) ∧
    (∀ t2, delTree key t = some t2 →
      ∃ h2, WFRoot h2 t2 ∧ inorder t2 = delList key (inorder t)) := by
  rw [WFRoot] at hwf
  have hspec := delRec_spec key (sizeOf t) (le_refl _) hwf
    (fun hne => by simp [hne])
  rcases hd : delRec key t with _ | t1
  · constructor
    · intro _
      exact hspec.1 hd
    · intro t2 ht2
      rw [delTree] at ht2
      simp only [hd] at ht2
      exact Option.noConfusion ht2
  · obtain ⟨hwf1, hio1⟩ := hspec.2 t1 hd
    match t1 with
    | .mk ch2 [] (c2 :: rest) =>
      rw [WF] at hwf1
      obtain ⟨hh1, hl1, hl2, hchain1⟩ := hwf1
      match rest with
      | [] =>
        rw [WFSeq] at hchain1
        constructor
        · intro hnone
          rw [delTree] at hnone
          simp only [hd] at hnone
          exact Option.noConfusion hnone
        · intro t2 ht2
          rw [delTree] at ht2
          simp only [hd, Option.some.injEq] at ht2
          subst ht2
          refine ⟨h - 1, ?_, ?_⟩
          · rw [WFRoot]
            refine WF_any_mn hchain1 ?_
            have hmk : MIN_KEYS ≤ (TreeNode.keys c2).length :=
              (WF_keys_len hchain1).1
            have hle1 : (if (TreeNode.children c2).isEmpty then 0 else 1) ≤
                MIN_KEYS := by
              split <;> decide
            omega
          · rw [inorder_internal] at hio1
            simp only [inorderSeq_nil, List.append_nil] at hio1
            exact hio1
      | c3 :: rest2 =>
        rw [WFSeq] at hchain1
        exact hchain1.elim
    | .mk ch2 [] [] =>
      constructor
      · intro hnone
        rw [delTree] at hnone
        simp only [hd] at hnone
        exact Option.noConfusion hnone
      · intro t2 ht2
        rw [delTree] at ht2
        simp only [hd, Option.some.injEq] at ht2
        subst ht2
        refine ⟨h, ?_, hio1⟩
        rw [WFRoot]
        exact WF_any_mn hwf1 (Nat.zero_le _)
    | .mk ch2 (k2 :: ks2) cs2 =>
      constructor
      · intro hnone
        rw [delTree] at hnone
        simp only [hd] at hnone
        exact Option.noConfusion hnone
      · intro t2 ht2
        rw [delTree] at ht2
        simp only [hd, Option.some.injEq] at ht2
        subst ht2
        refine ⟨h, ?_, hio1⟩
        rw [WFRoot]
        refine WF_any_mn hwf1 ?_
        have hle1 : (if (TreeNode.children
            (TreeNode.mk ch2 (k2 :: ks2) cs2)).isEmpty then 0 else 1) ≤
            1 := by
          split <;> omega
        simp only [TreeNode.keys_mk, List.length_cons]
        omega

/-- A successful association-list lookup names a member entry with the
probed key. -/
theorem lookupList_some {k : K} {l : List (Nat × K)} {seq : Nat}
    (h : lookupList k l = some seq) :
    ∃ e, e ∈ l ∧ e.2 = k ∧ e.1 = seq := by
  rw [lookupList, Option.map_eq_some'] at h
  obtain ⟨e, hfe, he1⟩ := h
  have hmem := List.mem_of_find?_eq_some hfe
  have hp := List.find?_some hfe
  simp only [decide_eq_true_eq] at hp
  exact ⟨e, hmem, hp, he1⟩

/-- Under the state invariant, `get` reads exactly the reference
map. -/
theorem beeGet_of_inv {V : Type} {m : K → Option V} {s : BeeState K V}
    (hinv : StateInv m s) (k : K) : beeGet s k = m k := by
  obtain ⟨log, root⟩ := s
  rcases root with _ | t
  · have h0 : beeGet (⟨log, none⟩ : BeeState K V) k = none := rfl
    rw [h0]
    exact (hinv k).symm
  · obtain ⟨⟨h, hwfr⟩, hblocks, hmiss⟩ := hinv
    have hwf : WF none none h
        (if (TreeNode.children t).isEmpty then 0 else 1) t := hwfr
    have hlk : lookupSeq k t = lookupList k (inorder t) :=
      (lookupSeq_eq_all k (sizeOf t)).1 t (le_refl _) none none h _ hwf
    rw [beeGet]
    dsimp only
    rw [hlk]
    rcases hl : lookupList k (inorder t) with _ | seq
    · dsimp only
      exact (hmiss k hl).symm
    · dsimp only
      obtain ⟨e, hmem, hek, heseq⟩ := lookupList_some hl
      obtain ⟨hlt, hblk⟩ := hblocks e hmem
      rw [← heseq, hblk]
      dsimp only
      rw [hek]

/-- The invariant holds of the empty handle over the fresh feed. -/
theorem stateInv_init {V : Type} :
    StateInv (fun _ => (none : Option V)) (BeeState.init K V) :=
  fun _ => rfl

/-- `put` preserves the invariant against the reference map update. -/
theorem stateInv_put {V : Type} {m : K → Option V} {s : BeeState K V}
    (hinv : StateInv m s) (k : K) (v : V) :
    StateInv (modelStep m (.put k v)) (beePut s k v) := by
  obtain ⟨log, root⟩ := s
  rcases root with _ | t
  · have hnone : ∀ k', m k' = none := hinv
    rw [beePut]
    dsimp only
    rw [putTree_none_spec.1, StateInv]
    dsimp only
    refine ⟨⟨0, putTree_none_spec.2⟩, ?_, ?_⟩
    · intro e he
      rw [inorder_leaf, List.mem_singleton] at he
      subst he
      refine ⟨by simp, ?_⟩
      dsimp only
      rw [List.getElem?_concat_length]
      simp [modelStep]
    · intro k' hl
      rw [inorder_leaf] at hl
      rw [modelStep]
      dsimp only
      split
      · rename_i hkk
        subst hkk
        rw [lookupList] at hl
        simp at hl
      · exact hnone k'
  · obtain ⟨⟨h, hwfr⟩, hblocks, hmiss⟩ := hinv
    dsimp only at hblocks
    obtain ⟨h2, hwfr2, hio2⟩ := @putTree_spec K _ (log.length, k) _ _ hwfr
    have hsort : (inorder t).Pairwise (fun a b => a.2 < b.2) :=
      WF_inorder_sorted hwfr
    rw [beePut]
    dsimp only
    rw [StateInv]
    dsimp only
    refine ⟨⟨h2, hwfr2⟩, ?_, ?_⟩
    · intro e he
      rw [hio2] at he
      rcases mem_insList_sorted hsort he with rfl | ⟨hmem, hne⟩
      · refine ⟨by simp, ?_⟩
        dsimp only
        rw [List.getElem?_concat_length]
        simp [modelStep]
      · obtain ⟨hlt, hblk⟩ := hblocks e hmem
        refine ⟨by simp only [List.length_append, List.length_cons,
          List.length_nil]; omega, ?_⟩
        rw [List.getElem?_append_left hlt, hblk]
        simp [modelStep, hne]
    · intro k' hl
      rw [hio2] at hl
      rw [modelStep]
      dsimp only
      split
      · rename_i hkk
        subst hkk
        exfalso
        have hfind := lookupList_of_mem_sorted (insList_sorted hsort)
          (self_mem_insList (x := (log.length, k'))) rfl
        rw [hl] at hfind
        exact Option.noConfusion hfind
      · rename_i hkk
        refine hmiss k' ?_
        rcases hl0 : lookupList k' (inorder t) with _ | sq
        · rfl
        · exfalso
          obtain ⟨e, hmem, hek, _⟩ := lookupList_some hl0
          have hmem2 : e ∈ insList (log.length, k) (inorder t) :=
            mem_insList_of_mem hmem (by rw [hek]; exact hkk)
          have hfind := lookupList_of_mem_sorted (insList_sorted hsort)
            hmem2 hek
          rw [hl] at hfind
          exact Option.noConfusion hfind

/-- `del` preserves the invariant against the reference map update. -/
theorem stateInv_del {V : Type} {m : K → Option V} {s : BeeState K V}
    (hinv : StateInv m s) (k : K) :
    StateInv (modelStep m (.del k)) (beeDel s k) := by
  obtain ⟨log, root⟩ := s
  rcases root with _ | t
  · have hnone : ∀ k', m k' = none := hinv
    rw [beeDel]
    dsimp only
    intro k'
    rw [modelStep]
    dsimp only
    split
    · rfl
    · exact hnone k'
  · obtain ⟨⟨h, hwfr⟩, hblocks, hmiss⟩ := hinv
    dsimp only at hblocks
    have hsort : (inorder t).Pairwise (fun a b => a.2 < b.2) :=
      WF_inorder_sorted hwfr
    have hdspec := @delTree_spec K _ k _ _ hwfr
    rw [beeDel]
    dsimp only
    rcases hd : delTree k t with _ | t2
    · dsimp only
      have hlnone : lookupList k (inorder t) = none := hdspec.1 hd
      rw [StateInv]
      dsimp only
      refine ⟨⟨h, hwfr⟩, ?_, ?_⟩
      · intro e he
        obtain ⟨hlt, hblk⟩ := hblocks e he
        refine ⟨hlt, ?_⟩
        rw [hblk]
        have hek : e.2 ≠ k := by
          intro habs
          have hfind := lookupList_of_mem_sorted hsort he habs
          rw [hlnone] at hfind
          exact Option.noConfusion hfind
        simp [modelStep, hek]
      · intro k' hl
        rw [modelStep]
        dsimp only
        split
        · rfl
        · exact hmiss k' hl
    · dsimp only
      obtain ⟨h2, hwfr2, hio2⟩ := hdspec.2 t2 hd
      rw [StateInv]
      dsimp only
      refine ⟨⟨h2, hwfr2⟩, ?_, ?_⟩
      · intro e he
        rw [hio2] at he
        obtain ⟨hmem, hek⟩ := mem_delList_sorted hsort he
        obtain ⟨hlt, hblk⟩ := hblocks e hmem
        refine ⟨by simp only [List.length_append, List.length_cons,
          List.length_nil]; omega, ?_⟩
        rw [List.getElem?_append_left hlt, hblk]
        simp [modelStep, hek]
      · intro k' hl
        rw [hio2] at hl
        rw [modelStep]
        dsimp only
        split
        · rfl
        · rename_i hkk
          refine hmiss k' ?_
          rcases hl0 : lookupList k' (inorder t) with _ | sq
          · rfl
          · exfalso
            obtain ⟨e, hmem, hek, _⟩ := lookupList_some hl0
            have hmem2 : e ∈ delList k (inorder t) :=
              mem_delList_of_mem hmem (by rw [hek]; exact hkk)
            have hsort2 : (delList k (inorder t)).Pairwise
                (fun a b => a.2 < b.2) :=
              hsort.sublist delList_sublist
            have hfind := lookupList_of_mem_sorted hsort2 hmem2 hek
            rw [hl] at hfind
            exact Option.noConfusion hfind

/-- Folding any mutation sequence preserves the invariant. -/
theorem stateInv_applyOps {V : Type} :
    ∀ (ops : List (Op K V)) (m : K → Option V) (s : BeeState K V),
    StateInv m s →
    StateInv (ops.foldl modelStep m) (ops.foldl applyOp s) := by
  intro ops
  induction ops with
  | nil =>
    intro m s hinv
    exact hinv
  | cons op ops ih =>
    intro m s hinv
    rw [List.foldl_cons, List.foldl_cons]
    refine ih _ _ ?_
    match op with
    | .put k v => exact stateInv_put hinv k v
    | .del k => exact stateInv_del hinv k

/-- C1: for every sequence of `put` and `del` operations applied
through a single handle starting from the fresh feed, a subsequent
`get k` returns the value of the last `put k v` not followed by a
`del k`, and returns `none` when the last operation on `k` was a `del`
or `k` was never put: `beeGet` after any operation sequence agrees
with the reference last-writer map `modelOf`. -/
theorem beeGet_model {V : Type} (ops : List (Op K V)) (k : K) :
    beeGet (applyOps (BeeState.init K V) ops) k = modelOf ops k :=
  beeGet_of_inv
    (stateInv_applyOps ops (fun _ => none) (BeeState.init K V)
      stateInv_init) k

end Hyperbee
